import Mathlib

/-!
Verification development for the `web_scraper` repository.

The Python sources (`scraper/page_scraper.py`, `utils/url_utils.py`,
`utils/page_utils.py`) are shallowly embedded below.  Strings are modelled
as `List Char` (Python `str` is a sequence of Unicode code points).  Library
calls made by the repository (`urllib.parse`, `httpx` URL handling,
`langchain` text splitting, BeautifulSoup tree surgery) are embedded from
their actual behaviour; each definition carries a comment pointing at the
code it mirrors.
-/

namespace WebScraper

abbrev Str := List Char

/-- Replacement character U+FFFD produced by lossy UTF-8 decoding. -/
def replChar : Char := Char.ofNat 0xFFFD

/-- `bytes.decode('utf-8')` encodes a code point as UTF-8 bytes
(standard 1-4 byte encoding). -/
def utf8Encode (c : Char) : List Nat :=
  let n := c.toNat
  if n < 0x80 then [n]
  else if n < 0x800 then [0xC0 + n / 64, 0x80 + n % 64]
  else if n < 0x10000 then [0xE0 + n / 4096, 0x80 + n / 64 % 64, 0x80 + n % 64]
  else [0xF0 + n / 262144, 0x80 + n / 4096 % 64, 0x80 + n / 64 % 64, 0x80 + n % 64]

/-- Is `b` a UTF-8 continuation byte `0x80..0xBF`? -/
def isContByte (b : Nat) : Bool := 0x80 ≤ b && b ≤ 0xBF

/-- One step of lossy UTF-8 decoding: the characters emitted for the lead
byte `b` and the number of bytes additionally consumed from `bs`. -/
def utf8Step (b : Nat) (bs : List Nat) : Str × Nat :=
  if b < 0x80 then ([Char.ofNat b], 0)
  else if 0xC2 ≤ b ∧ b ≤ 0xDF then
    match bs with
    | b2 :: _ =>
      if isContByte b2 then ([Char.ofNat ((b - 0xC0) * 64 + (b2 - 0x80))], 1)
      else ([replChar], 0)
    | [] => ([replChar], 0)
  else if 0xE0 ≤ b ∧ b ≤ 0xEF then
    let lo := if b = 0xE0 then 0xA0 else 0x80
    let hi := if b = 0xED then 0x9F else 0xBF
    match bs with
    | b2 :: b3 :: _ =>
      if lo ≤ b2 ∧ b2 ≤ hi then
        if isContByte b3 then
          ([Char.ofNat ((b - 0xE0) * 4096 + (b2 - 0x80) * 64 + (b3 - 0x80))], 2)
        else ([replChar], 1)
      else ([replChar], 0)
    | [b2] => if lo ≤ b2 ∧ b2 ≤ hi then ([replChar], 1) else ([replChar], 0)
    | [] => ([replChar], 0)
  else if 0xF0 ≤ b ∧ b ≤ 0xF4 then
    let lo := if b = 0xF0 then 0x90 else 0x80
    let hi := if b = 0xF4 then 0x8F else 0xBF
    match bs with
    | b2 :: b3 :: b4 :: _ =>
      if lo ≤ b2 ∧ b2 ≤ hi then
        if isContByte b3 then
          if isContByte b4 then
            ([Char.ofNat ((b - 0xF0) * 262144 + (b2 - 0x80) * 4096 +
              (b3 - 0x80) * 64 + (b4 - 0x80))], 3)
          else ([replChar], 2)
        else ([replChar], 1)
      else ([replChar], 0)
    | [b2, b3] =>
      if lo ≤ b2 ∧ b2 ≤ hi then
        if isContByte b3 then ([replChar], 2) else ([replChar], 1)
      else ([replChar], 0)
    | [b2] => if lo ≤ b2 ∧ b2 ≤ hi then ([replChar], 1) else ([replChar], 0)
    | [] => ([replChar], 0)
  else ([replChar], 0)

/-- Fuel-driven driver of lossy UTF-8 decoding; the fuel only needs to
reach the byte count because every step consumes at least one byte. -/
def utf8DecGo : Nat → List Nat → Str
  | 0, _ => []
  | _, [] => []
  | fuel + 1, b :: bs =>
    (utf8Step b bs).1 ++ utf8DecGo fuel (bs.drop (utf8Step b bs).2)

/-- Lossy UTF-8 decoding, `bytes.decode('utf-8', errors='replace')`:
invalid sequences turn into U+FFFD.  On valid encodings this is the exact
inverse of `utf8Encode`; the replacement granularity on invalid input is a
modelling choice that no theorem below depends on. -/
def utf8Dec (l : List Nat) : Str := utf8DecGo l.length l

/-- Hex digits accepted by `urllib.parse.unquote_to_bytes` (both cases). -/
def isHexDig (c : Char) : Bool :=
  ('0' ≤ c && c ≤ '9') || ('a' ≤ c && c ≤ 'f') || ('A' ≤ c && c ≤ 'F')

/-- Numeric value of a hex digit. -/
def hexVal (c : Char) : Nat :=
  if '0' ≤ c && c ≤ '9' then c.toNat - '0'.toNat
  else if 'a' ≤ c && c ≤ 'f' then c.toNat - 'a'.toNat + 10
  else c.toNat - 'A'.toNat + 10

/-- `urllib.parse.unquote_to_bytes` restricted to one ASCII run: each
`%XX` with two hex digits becomes one byte, anything else contributes its
own code point as a byte. -/
def percentRunToBytes (l : Str) : List Nat :=
  match l with
  | [] => []
  | '%' :: a :: b :: rest =>
    if isHexDig a && isHexDig b then (hexVal a * 16 + hexVal b) :: percentRunToBytes rest
    else 0x25 :: percentRunToBytes (a :: b :: rest)
  | c :: rest => c.toNat :: percentRunToBytes rest

/-- Is the character ASCII (`< 0x80`)?  `urllib.parse.unquote` splits its
input into maximal ASCII runs with `_asciire`. -/
def isAsciiCh (c : Char) : Bool := c.toNat < 0x80

/-- Fuel-driven driver of `unquote`; every step consumes at least one
character, so fuel equal to the length suffices. -/
def pyUnquoteGo : Nat → Str → Str
  | 0, _ => []
  | _, [] => []
  | fuel + 1, c :: cs =>
    if isAsciiCh c then
      utf8Dec (percentRunToBytes ((c :: cs).takeWhile isAsciiCh)) ++
        pyUnquoteGo fuel ((c :: cs).dropWhile isAsciiCh)
    else c :: pyUnquoteGo fuel cs

/-- `urllib.parse.unquote(string, 'utf-8', 'replace')`: maximal ASCII runs
are percent-decoded to bytes and UTF-8 decoded; non-ASCII characters pass
through unchanged. -/
def pyUnquote (l : Str) : Str := pyUnquoteGo l.length l

/-- `urllib.parse.unquote_plus`: replace `+` by space, then unquote. -/
def pyUnquotePlus (l : Str) : Str :=
  pyUnquote (l.map (fun c => if c = '+' then ' ' else c))

/-- `urllib.parse._ALWAYS_SAFE`: ASCII letters, digits, `_.-~`. -/
def alwaysSafe (c : Char) : Bool :=
  ('a' ≤ c && c ≤ 'z') || ('A' ≤ c && c ≤ 'Z') || ('0' ≤ c && c ≤ '9') ||
    c = '_' || c = '.' || c = '-' || c = '~'

/-- Upper-case hex digit of `n < 16` (as produced by `quote_from_bytes`). -/
def hexDigUpper (n : Nat) : Char :=
  if n < 10 then Char.ofNat ('0'.toNat + n) else Char.ofNat ('A'.toNat + n - 10)

/-- `%XX` escape of one byte. -/
def pctByte (b : Nat) : Str := ['%', hexDigUpper (b / 16), hexDigUpper (b % 16)]

/-- `urllib.parse.quote_plus(s, safe='')`: keep always-safe characters,
turn space into `+`, percent-encode the UTF-8 bytes of everything else. -/
def quotePlus (l : Str) : Str :=
  l.flatMap (fun c =>
    if alwaysSafe c then [c]
    else if c = ' ' then ['+']
    else (utf8Encode c).flatMap pctByte)

/-! ### `urllib.parse` query-string handling -/

/-- Split a list at every occurrence of `sep` (Python `str.split(sep)` for a
one-character separator): always returns at least one (possibly empty) piece. -/
def splitOnChar (sep : Char) (l : Str) : List Str :=
  match l with
  | [] => [[]]
  | c :: cs =>
    let r := splitOnChar sep cs
    if c = sep then [] :: r
    else match r with
      | [] => [[c]]
      | p :: ps => (c :: p) :: ps

/-- `urllib.parse.parse_qsl(qs)` with default arguments
(`keep_blank_values=False`, `separator='&'`): split on `&`, drop empty
fields, drop fields with no `=` or an empty raw value, unquote-plus the
name and the value. -/
def parse_qsl (qs : Str) : List (Str × Str) :=
  if qs = [] then []
  else
    (splitOnChar '&' qs).filterMap (fun nv =>
      if nv = [] then none
      else
        let name := nv.takeWhile (fun c => c ≠ '=')
        if name.length = nv.length then none
        else
          let value := nv.drop (name.length + 1)
          if value = [] then none
          else some (pyUnquotePlus name, pyUnquotePlus value))

/-- Update step of `parse_qs`: append `v` to the entry for `k`, keeping dict
insertion order, creating the entry if absent. -/
def qsUpdate (acc : List (Str × List Str)) (k : Str) (v : Str) : List (Str × List Str) :=
  match acc with
  | [] => [(k, [v])]
  | (k0, vs) :: rest =>
    if k0 = k then (k0, vs ++ [v]) :: rest else (k0, vs) :: qsUpdate rest k v

/-- `urllib.parse.parse_qs(qs)`: group the `parse_qsl` pairs by key into a
dict (modelled as an association list in insertion order). -/
def parse_qs (qs : Str) : List (Str × List Str) :=
  (parse_qsl qs).foldl (fun acc kv => qsUpdate acc kv.1 kv.2) []

/-- The sorted query items built by `normalize_url` in `utils/url_utils.py`:
`for key in sorted(query_params_dict.keys()): for value in
sorted(query_params_dict[key]): sorted_query_items.append((key, value))`.
Sorting is Python's code-point lexicographic string order, which coincides
with the `LinearOrder (List Char)` order. -/
def sortedQueryItems (d : List (Str × List Str)) : List (Str × Str) :=
  (List.insertionSort (· ≤ ·) (d.map Prod.fst)).flatMap (fun k =>
    (List.insertionSort (· ≤ ·) ((d.lookup k).getD [])).map (fun v => (k, v)))

/-- `urllib.parse.urlencode(items)` with default `quote_via=quote_plus`:
`'&'.join(quote_plus(k) + '=' + quote_plus(v))`. -/
def urlencode (items : List (Str × Str)) : Str :=
  List.intercalate ['&'] (items.map (fun kv => quotePlus kv.1 ++ '=' :: quotePlus kv.2))

/-- The canonical query string `normalize_url` rebuilds from a raw query. -/
def canonQuery (q : Str) : Str :=
  urlencode (sortedQueryItems (parse_qs q))

/-! ### `urllib.parse.urlsplit` / `urlparse` / `urlunparse` -/

/-- Characters allowed in a URL scheme (`urllib.parse.scheme_chars`). -/
def isSchemeChar (c : Char) : Bool :=
  ('a' ≤ c && c ≤ 'z') || ('A' ≤ c && c ≤ 'Z') || ('0' ≤ c && c ≤ '9') ||
    c = '+' || c = '-' || c = '.'

/-- ASCII alphabetic test (`url[0].isascii() and url[0].isalpha()`). -/
def isAsciiAlpha (c : Char) : Bool :=
  ('a' ≤ c && c ≤ 'z') || ('A' ≤ c && c ≤ 'Z')

/-- ASCII lower-casing, Python `str.lower()` on scheme characters. -/
def lowerCh (c : Char) : Char :=
  if 'A' ≤ c ∧ c ≤ 'Z' then Char.ofNat (c.toNat + 32) else c

/-- Scheme detection in `urlsplit`: the prefix before the first `:` must be
nonempty, start with an ASCII letter and consist of scheme characters; then
it is lower-cased and stripped, otherwise the URL is left untouched. -/
def splitScheme (u : Str) : Str × Str :=
  let pre := u.takeWhile (fun c => c ≠ ':')
  if pre.length < u.length ∧ pre ≠ [] ∧ isAsciiAlpha (pre.headI) ∧ pre.all isSchemeChar
  then (pre.map lowerCh, u.drop (pre.length + 1))
  else ([], u)

/-- `_splitnetloc` delimiter test: netloc ends at the first `/`, `?` or `#`. -/
def isNetlocDelim (c : Char) : Bool := c = '/' || c = '?' || c = '#'

/-- Octet of an IPv4 dotted quad (`ipaddress._parse_octet`): 1-3 decimal
digits, value ≤ 255, no superfluous leading zero. -/
def ipv4OctetOk (s : Str) : Bool :=
  s ≠ [] && s.length ≤ 3 && s.all (fun c => '0' ≤ c && c ≤ '9') &&
    !(s.length > 1 && s.headI = '0') &&
    (s.foldl (fun a c => a * 10 + (c.toNat - '0'.toNat)) 0) ≤ 255

/-- IPv4 dotted-quad address check (`ipaddress.IPv4Address`). -/
def ipv4Ok (s : Str) : Bool :=
  let parts := splitOnChar '.' s
  parts.length = 4 && parts.all ipv4OctetOk

/-- One hextet of an IPv6 address: 1-4 hex digits. -/
def hextetOk (s : Str) : Bool :=
  s ≠ [] && s.length ≤ 4 && s.all isHexDig

/-- IPv6 address check mirroring `ipaddress.IPv6Address._ip_int_from_string`
(split on `:`, at most one interior `::` run, 8 hextets or fewer with a gap,
optional trailing dotted quad standing for two hextets). -/
def ipv6CoreOk (s : Str) : Bool :=
  let parts0 := splitOnChar ':' s
  if parts0.length < 3 then false
  else
    let lastP := parts0.getLastD []
    let withV4 := lastP.contains '.'
    if withV4 ∧ ¬ ipv4Ok lastP then false
    else
      let parts := if withV4 then parts0.dropLast ++ [['0'], ['0']] else parts0
      if parts.length > 9 then false
      else
        let interior := (parts.drop 1).dropLast
        let emptyCount := interior.countP (fun p => p = [])
        if emptyCount > 1 then false
        else if ¬ parts.all (fun p => p = [] ∨ hextetOk p) then false
        else
          match interior.findIdx? (fun p => p = []) with
          | some i =>
            let skip := i + 1
            let hi0 := skip
            let lo0 := parts.length - skip - 1
            let firstEmpty := parts.headI = []
            let lastEmpty := parts.getLastD ['x'] = []
            let hi := if firstEmpty then hi0 - 1 else hi0
            let lo := if lastEmpty then lo0 - 1 else lo0
            if firstEmpty ∧ hi ≠ 0 then false
            else if lastEmpty ∧ lo ≠ 0 then false
            else if firstEmpty ∧ hi0 = 0 then false
            else 8 - (hi + lo) ≥ 1 && hi + lo ≤ 7
          | none =>
            parts.length = 8 && parts.headI ≠ [] && parts.getLastD [] ≠ [] &&
              parts.all hextetOk

/-- `ipaddress.ip_address` acceptance for the bracketed host, including the
optional nonempty `%scope` suffix. -/
def ipv6Ok (s : Str) : Bool :=
  let addr := s.takeWhile (fun c => c ≠ '%')
  if addr.length < s.length then
    let scope := s.drop (addr.length + 1)
    if scope = [] ∨ scope.contains '%' then false else ipv6CoreOk addr
  else ipv6CoreOk s

/-- `urllib.parse._check_bracketed_host`: `v`-prefixed IPvFuture literals
must match `v[hex]+\..+`, everything else must be a valid IPv6 address
(an IPv4 address in brackets is rejected). -/
def bracketedHostOk (h : Str) : Bool :=
  match h with
  | 'v' :: rest =>
    let hexs := rest.takeWhile isHexDig
    hexs ≠ [] && ((rest.drop hexs.length).headI = '.') &&
      (rest.drop (hexs.length + 1) ≠ [])
  | _ => ipv6Ok h

/-- The split result of `urlsplit` (before params splitting). -/
structure SplitParts where
  scheme : Str
  netloc : Str
  path : Str
  query : Str
  fragment : Str
deriving DecidableEq

/-- `urllib.parse.urlsplit` (Python 3.11): lstrip C0-controls/space, remove
tab/CR/LF, detect the scheme, split `//netloc` at the first `/?#` with the
bracket validity checks, split fragment at the first `#`, then query at the
first `?`.  Errors (`ValueError`) are modelled as `Except.error`.  The
NFKC `_checknetloc` check, which can only reject some non-ASCII netlocs, is
modelled as always passing. -/
def urlsplitE (url0 : Str) : Except Unit SplitParts := do
  let u1 := url0.dropWhile (fun c => c.toNat ≤ 0x20)
  let u2 := u1.filter (fun c => c ≠ '\t' && c ≠ '\r' && c ≠ '\n')
  let (scheme, u3) := splitScheme u2
  let (netloc, u4) ←
    match u3 with
    | '/' :: '/' :: rest =>
      let n := rest.takeWhile (fun c => ¬ isNetlocDelim c)
      let lb := n.contains '['
      let rb := n.contains ']'
      if lb ≠ rb then Except.error ()
      else if lb ∧ rb then
        let bh := ((n.dropWhile (fun c => c ≠ '[')).drop 1).takeWhile (fun c => c ≠ ']')
        if bracketedHostOk bh then pure (n, rest.dropWhile (fun c => ¬ isNetlocDelim c))
        else Except.error ()
      else pure (n, rest.dropWhile (fun c => ¬ isNetlocDelim c))
    | _ => pure (([] : Str), u3)
  let u5 := u4.takeWhile (fun c => c ≠ '#')
  let fragment := (u4.drop (u5.length + 1)).take (u4.length - u5.length - 1)
  let path := u5.takeWhile (fun c => c ≠ '?')
  let query := u5.drop (path.length + 1)
  pure ⟨scheme, netloc, path, query, fragment⟩

/-- Schemes that use parameters (`urllib.parse.uses_params`). -/
def uses_params : List Str :=
  ["", "ftp", "hdl", "prospero", "http", "imap", "https", "shttp", "rtsp",
    "rtsps", "rtspu", "sip", "sips", "mms", "sftp", "tel"].map String.data

/-- Schemes whose URLs use a network location (`urllib.parse.uses_netloc`). -/
def uses_netloc : List Str :=
  ["", "ftp", "http", "gopher", "nntp", "telnet", "imap", "wais", "file",
    "mms", "https", "shttp", "snews", "prospero", "rtsp", "rtsps", "rtspu",
    "rsync", "svn", "svn+ssh", "sftp", "nfs", "git", "git+ssh", "ws",
    "wss"].map String.data

/-- The part of `url` after its last `/` (empty when `/` is absent). -/
def afterLastSlash (url : Str) : Str :=
  (url.reverse.takeWhile (fun c => c ≠ '/')).reverse

/-- `urllib.parse._splitparams`: split `path;params` at the first `;` that
follows the last `/` (or the first `;` overall when there is no `/`).
Only ever called when `;` occurs in `url`. -/
def splitparams (url : Str) : Str × Str :=
  if url.contains '/' then
    let tail := afterLastSlash url
    if tail.contains ';' then
      let keep := tail.takeWhile (fun c => c ≠ ';')
      (url.take (url.length - tail.length) ++ keep, tail.drop (keep.length + 1))
    else (url, [])
  else
    let keep := url.takeWhile (fun c => c ≠ ';')
    (keep, url.drop (keep.length + 1))

/-- The parse result of `urlparse` (with params split off the path). -/
structure ParseParts where
  scheme : Str
  netloc : Str
  path : Str
  params : Str
  query : Str
  fragment : Str
deriving DecidableEq

/-- `urllib.parse.urlparse`: `urlsplit` plus params splitting for schemes in
`uses_params`. -/
def urlparseE (url0 : Str) : Except Unit ParseParts := do
  let sp ← urlsplitE url0
  if sp.scheme ∈ uses_params ∧ sp.path.contains ';' then
    let pq := splitparams sp.path
    pure ⟨sp.scheme, sp.netloc, pq.1, pq.2, sp.query, sp.fragment⟩
  else
    pure ⟨sp.scheme, sp.netloc, sp.path, [], sp.query, sp.fragment⟩

/-- `urllib.parse.urlunsplit` (Python 3.11): re-add `//` when there is a
netloc, or when the scheme uses one and the path does not already start
with `//`; then attach scheme, query and fragment. -/
def urlunsplitU (scheme netloc path query fragment : Str) : Str :=
  let url :=
    if netloc ≠ [] ∨ (scheme ≠ [] ∧ scheme ∈ uses_netloc ∧ path.take 2 ≠ ['/', '/'])
    then
      let p := if path ≠ [] ∧ path.headI ≠ '/' then '/' :: path else path
      '/' :: '/' :: (netloc ++ p)
    else path
  let url := if scheme ≠ [] then scheme ++ ':' :: url else url
  let url := if query ≠ [] then url ++ '?' :: query else url
  if fragment ≠ [] then url ++ '#' :: fragment else url

/-- `ParseResult.geturl` = `urlunparse`: rejoin `path;params` (dropping the
separator when params are empty) and `urlunsplit`. -/
def urlunparseU (pr : ParseParts) : Str :=
  let pc := if pr.params ≠ [] then pr.path ++ ';' :: pr.params else pr.path
  urlunsplitU pr.scheme pr.netloc pc pr.query pr.fragment

/-- `normalize_url` from `utils/url_utils.py`: parse, re-encode the sorted
query parameters, drop the fragment, rebuild; on any parse error return the
input unchanged. -/
def normalize_url (u : Str) : Str :=
  match urlparseE u with
  | .error _ => u
  | .ok pr =>
    urlunparseU ⟨pr.scheme, pr.netloc, pr.path, pr.params, canonQuery pr.query, []⟩

/-! ### `httpx` URL model

`get_domain` and `_extract_and_queue_links` go through `httpx.URL`, whose
parser (`httpx/_urlparse.py`) follows RFC 3986.  It is modelled here at the
granularity the repository exercises: scheme/authority/path/query/fragment
splitting, userinfo/host/port separation, digit-only port validation,
IPv4-literal and bracketed-IPv6 validation, host lower-casing, rejection of
non-printable characters and over-long URLs, RFC 3986 reference resolution
with dot-segment removal, and default-port elision on reassembly.  IDNA
encoding of non-ASCII hosts and percent-encoding repair are modelled as the
identity. -/

/-- Components of an `httpx.URL`. -/
structure HxUrl where
  scheme : Str
  hasAuth : Bool
  userinfo : Option Str
  host : Str
  port : Option Str
  path : Str
  query : Option Str
  fragment : Option Str
deriving DecidableEq

/-- Printability in the sense of `str.isprintable` restricted to ASCII
controls: httpx rejects URLs containing non-printable characters. -/
def isNonPrintable (c : Char) : Bool := c.toNat < 0x20 || c.toNat = 0x7f

/-- Digit test for httpx port validation. -/
def isDigitCh (c : Char) : Bool := '0' ≤ c && c ≤ '9'

/-- Does the host look like an IPv4 literal (`^[0-9]+\.[0-9]+\.[0-9]+\.[0-9]+$`)? -/
def ipv4Style (h : Str) : Bool :=
  let parts := splitOnChar '.' h
  parts.length = 4 && parts.all (fun p => p ≠ [] && p.all isDigitCh)

/-- httpx `encode_host`: empty hosts pass; IPv4-style hosts must be valid
IPv4; bracketed hosts must be valid IPv6; other hosts are lower-cased
(IDNA encoding of non-ASCII hosts modelled as identity). -/
def encodeHostE (h : Str) : Except Unit Str :=
  if h = [] then pure []
  else if ipv4Style h then
    if ipv4Ok h then pure h else Except.error ()
  else if h.headI = '[' then
    if h.getLastD ' ' = ']' ∧ ipv6CoreOk ((h.drop 1).dropLast) then pure (h.map lowerCh)
    else Except.error ()
  else pure (h.map lowerCh)

/-- `httpx.URL(u)` construction, as far as the repository observes it. -/
def httpxParseE (u : Str) : Except Unit HxUrl := do
  if u.length > 65536 then Except.error ()
  else if u.any isNonPrintable then Except.error ()
  else
    let (scheme, r1) := splitScheme u
    let (hasAuth, auth, r2) :=
      match r1 with
      | '/' :: '/' :: rest =>
        (true, rest.takeWhile (fun c => ¬ isNetlocDelim c),
          rest.dropWhile (fun c => ¬ isNetlocDelim c))
      | _ => (false, [], r1)
    let (userinfo, hostPort) :=
      if auth.contains '@' then
        let revTail := (auth.reverse.takeWhile (fun c => c ≠ '@')).reverse
        (some (auth.take (auth.length - revTail.length - 1)), revTail)
      else (none, auth)
    let (hostRaw, portRaw) :=
      if hostPort.headI = '[' ∧ hostPort.contains ']' then
        let h := hostPort.takeWhile (fun c => c ≠ ']') ++ [']']
        (h, hostPort.drop h.length)
      else
        (hostPort.takeWhile (fun c => c ≠ ':'), hostPort.dropWhile (fun c => c ≠ ':'))
    let port ←
      match portRaw with
      | [] => pure (none : Option Str)
      | ':' :: p =>
        if p = [] then pure none
        else if p.all isDigitCh then pure (some p) else Except.error ()
      | _ => Except.error ()
    let host ← encodeHostE hostRaw
    let frag0 := r2.dropWhile (fun c => c ≠ '#')
    let beforeFrag := r2.takeWhile (fun c => c ≠ '#')
    let fragment := match frag0 with | [] => none | _ :: f => some f
    let q0 := beforeFrag.dropWhile (fun c => c ≠ '?')
    let path := beforeFrag.takeWhile (fun c => c ≠ '?')
    let query := match q0 with | [] => none | _ :: q => some q
    pure ⟨scheme.map lowerCh, hasAuth, userinfo, host, port, path, query, fragment⟩

/-- One step of RFC 3986 `remove_dot_segments`. -/
def rdsStep (out : List Str) (inp : Str) : List Str × Str :=
  if inp.take 3 = ['.', '.', '/'] then (out, inp.drop 3)
  else if inp.take 2 = ['.', '/'] then (out, inp.drop 2)
  else if inp.take 3 = ['/', '.', '/'] then (out, inp.drop 2)
  else if inp = ['/', '.'] then (out, ['/'])
  else if inp.take 4 = ['/', '.', '.', '/'] then (out.dropLast, inp.drop 3)
  else if inp = ['/', '.', '.'] then (out.dropLast, ['/'])
  else if inp = ['.'] ∨ inp = ['.', '.'] then (out, [])
  else
    match inp with
    | '/' :: rest =>
      (out ++ ['/' :: rest.takeWhile (fun c => c ≠ '/')], rest.dropWhile (fun c => c ≠ '/'))
    | _ => (out ++ [inp.takeWhile (fun c => c ≠ '/')], inp.dropWhile (fun c => c ≠ '/'))

/-- RFC 3986 §5.2.4 `remove_dot_segments`, driven by a fuel argument that
the initial call sets to the input length (each step consumes input). -/
def rdsGo (fuel : Nat) (out : List Str) (inp : Str) : Str :=
  match fuel with
  | 0 => out.flatten ++ inp
  | fuel + 1 =>
    if inp = [] then out.flatten
    else
      let s := rdsStep out inp
      rdsGo fuel s.1 s.2

/-- RFC 3986 dot-segment removal. -/
def removeDotSegments (p : Str) : Str := rdsGo (p.length + 1) [] p

/-- RFC 3986 §5.3 merge of a base and a relative path. -/
def mergePaths (base : HxUrl) (rpath : Str) : Str :=
  if base.hasAuth ∧ base.path = [] then '/' :: rpath
  else (base.path.reverse.dropWhile (fun c => c ≠ '/')).reverse ++ rpath

/-- RFC 3986 §5.2.2 reference resolution (`httpx.URL.join`). -/
def hxJoin (base r : HxUrl) : HxUrl :=
  if r.scheme ≠ [] then
    { r with path := removeDotSegments r.path }
  else if r.hasAuth then
    { r with scheme := base.scheme, path := removeDotSegments r.path }
  else if r.path = [] then
    { base with query := (match r.query with | some q => some q | none => base.query),
                fragment := r.fragment }
  else if r.path.headI = '/' then
    { base with path := removeDotSegments r.path, query := r.query, fragment := r.fragment }
  else
    { base with path := removeDotSegments (mergePaths base r.path),
                query := r.query, fragment := r.fragment }

/-- Default ports elided by httpx on reassembly. -/
def defaultPort (scheme : Str) : Option Str :=
  if scheme = "http".data ∨ scheme = "ws".data then some "80".data
  else if scheme = "https".data ∨ scheme = "wss".data then some "443".data
  else if scheme = "ftp".data then some "21".data
  else none

/-- `str(httpx.URL)` reassembly. -/
def hxToStr (x : HxUrl) : Str :=
  let auth :=
    (match x.userinfo with | some ui => ui ++ ['@'] | none => []) ++ x.host ++
      (match x.port with
        | some p => if defaultPort x.scheme = some p then [] else ':' :: p
        | none => [])
  let s1 := if x.scheme ≠ [] then x.scheme ++ [':'] else []
  let s2 := if x.hasAuth then s1 ++ '/' :: '/' :: auth else s1
  let s3 := s2 ++ x.path
  let s4 := match x.query with | some q => s3 ++ '?' :: q | none => s3
  match x.fragment with | some f => s4 ++ '#' :: f | none => s4

/-- `httpx.URL(current_url).join(href)` followed by `str(...)`, as used in
`_extract_and_queue_links`; errors are the `httpx.InvalidURL` exceptions. -/
def hxJoinStrE (current href : Str) : Except Unit Str := do
  let b ← httpxParseE current
  let r ← httpxParseE href
  pure (hxToStr (hxJoin b r))

/-- `get_domain` from `utils/url_utils.py`: `httpx.URL(url).host`, with a
leading `www.` stripped, and the empty string on `InvalidURL`. -/
def get_domain (url : Str) : Str :=
  match httpxParseE url with
  | .error _ => []
  | .ok x =>
    let host := if x.host.headI = '[' then (x.host.drop 1).dropLast else x.host
    if host.take 4 = "www.".data then host.drop 4 else host

/-! ### `slugify` from `utils/page_utils.py` -/

/-- Python regex `\w` (word character), ASCII range: letters, digits and
underscore.  Non-ASCII word characters are outside the model. -/
def isWordCh (c : Char) : Bool :=
  ('a' ≤ c && c ≤ 'z') || ('A' ≤ c && c ≤ 'Z') || ('0' ≤ c && c ≤ '9') || c = '_'

/-- Python regex `\s` / `str.strip` whitespace, ASCII range:
space, `\t`, `\n`, `\r`, `\x0b`, `\x0c`. -/
def isPySpace (c : Char) : Bool :=
  c = ' ' || c = '\t' || c = '\n' || c = '\r' || c.toNat = 0x0b || c.toNat = 0x0c

/-- A character of the class `[-\s]` collapsed by `slugify`. -/
def isRunCh (c : Char) : Bool := c = '-' || isPySpace c

/-- State-machine form of `re.sub(r'[-\s]+', '_', s)`: `inRun` records
whether the previous character belonged to a whitespace/hyphen run; a run
character emits one underscore only when it starts a run. -/
def collapseRunsGo (inRun : Bool) : Str → Str
  | [] => []
  | c :: cs =>
    if isRunCh c then
      if inRun then collapseRunsGo true cs else '_' :: collapseRunsGo true cs
    else c :: collapseRunsGo false cs

/-- `re.sub(r'[-\s]+', '_', s)`: every maximal run of whitespace/hyphen
characters becomes a single underscore. -/
def collapseRuns (l : Str) : Str := collapseRunsGo false l

/-- Python `str.strip('_')`: remove underscores from both ends. -/
def stripUnderscores (l : Str) : Str :=
  ((l.dropWhile (fun c => c = '_')).reverse.dropWhile (fun c => c = '_')).reverse

/-- `slugify` from `utils/page_utils.py`:
`re.sub(r'[^\w\s-]', '', text)` then `re.sub(r'[-\s]+', '_', ...)` then
`.strip('_').lower()`. -/
def slugify (s : Str) : Str :=
  (stripUnderscores (collapseRuns
    (s.filter (fun c => isWordCh c || isPySpace c || c = '-')))).map lowerCh

/-- Alphanumeric (letters or digits, no underscore). -/
def isAlnumCh (c : Char) : Bool :=
  ('a' ≤ c && c ≤ 'z') || ('A' ≤ c && c ≤ 'Z') || ('0' ≤ c && c ≤ '9')

/-- The slugging rule exactly as claim C9 words it: strip all characters
that are not alphanumeric, whitespace, or hyphen (underscores are NOT
kept); collapse whitespace/hyphen runs to `_`; trim `_`; lower-case. -/
def claimSlugify (s : Str) : Str :=
  (stripUnderscores (collapseRuns
    (s.filter (fun c => isAlnumCh c || isPySpace c || c = '-')))).map lowerCh

/-- Pieces of `l` between maximal whitespace/hyphen runs (edge runs give
empty edge pieces), used by the amended formulation of the slugging rule. -/
def splitRuns (l : Str) : List Str :=
  match h : l.dropWhile (fun c => ¬ isRunCh c) with
  | [] => [l.takeWhile (fun c => ¬ isRunCh c)]
  | _ :: rest2 =>
    l.takeWhile (fun c => ¬ isRunCh c) :: splitRuns (rest2.dropWhile isRunCh)
termination_by l.length
decreasing_by
  have h2 : (l.dropWhile (fun c => ¬ isRunCh c)).length ≤ l.length :=
    (List.dropWhile_sublist _).length_le
  rw [h] at h2
  have h4 := (List.dropWhile_sublist (l := rest2) isRunCh).length_le
  simp only [List.length_cons] at h2
  omega

/-- The amended slugging rule, formalised independently of `slugify`:
keep word characters (letters, digits, underscore), whitespace and hyphens;
replace each maximal whitespace/hyphen run by one underscore (joining the
pieces around the runs); trim underscores; lower-case. -/
def amendedSlugify (s : Str) : Str :=
  (stripUnderscores (List.intercalate ['_']
    (splitRuns (s.filter (fun c => isWordCh c || isPySpace c || c = '-'))))).map lowerCh

/-! ### `RecursiveCharacterTextSplitter` (langchain) -/

/-- `chunk_size=1000` set in `crawl_website`. -/
def chunkSize : Int := 1000

/-- `chunk_overlap=200` set in `crawl_website`. -/
def chunkOverlap : Int := 200

/-- Python `str.strip()` (ASCII whitespace model). -/
def pyStrip (l : Str) : Str :=
  ((l.dropWhile isPySpace).reverse.dropWhile isPySpace).reverse

/-- Index of the first occurrence of nonempty `pat` in `s`. -/
def findSubIdx (pat : Str) (s : Str) : Option Nat :=
  match s with
  | [] => none
  | _ :: cs => if pat.isPrefixOf s then some 0 else (findSubIdx pat cs).map (· + 1)

/-- Does nonempty `pat` occur in `s` (`re.search` of the escaped literal)? -/
def isSubstr (pat : Str) (s : Str) : Bool := (findSubIdx pat s).isSome

/-- `re.split` on a nonempty literal separator: the pieces between leftmost
non-overlapping occurrences.  Fuel is set so that it never runs out. -/
def splitOnStrGo (sep : Str) (fuel : Nat) (s : Str) : List Str :=
  match fuel with
  | 0 => [s]
  | fuel + 1 =>
    match findSubIdx sep s with
    | none => [s]
    | some i => s.take i :: splitOnStrGo sep fuel (s.drop (i + sep.length))

/-- Split on a nonempty literal separator. -/
def splitOnStr (sep s : Str) : List Str := splitOnStrGo sep (s.length + 1) s

/-- `_split_text_with_regex(text, sep, keep_separator=True)`: with an empty
separator, `list(text)`; otherwise the first piece followed by each
separator glued onto the piece after it; empty strings are dropped. -/
def splitWithSep (sep text : Str) : List Str :=
  if sep = [] then (text.map (fun c => [c])).filter (fun p => p ≠ [])
  else
    match splitOnStr sep text with
    | [] => []
    | t0 :: ts => (t0 :: ts.map (fun t => sep ++ t)).filter (fun p => p ≠ [])

/-- The separator-selection loop of `RecursiveCharacterTextSplitter
._split_text`: take the first separator that is empty or occurs in the
text (with the remaining separators for recursion), defaulting to the last
separator with no recursion possible. -/
def chooseSep (text dflt : Str) : List Str → Str × List Str
  | [] => (dflt, [])
  | s :: rest =>
    if s = [] then ([], [])
    else if isSubstr s text then (s, rest)
    else chooseSep text dflt rest

/-- `TextSplitter._join_docs(docs, separator)` with `strip_whitespace=True`:
join, strip, `None` when empty. -/
def joinDocs (sep : Str) (docs : List Str) : Option Str :=
  let t := pyStrip (List.intercalate sep docs)
  if t = [] then none else some t

/-- The pop-from-front loop inside `TextSplitter._merge_splits`.  Python
would index `current_doc[0]` with the list empty; that state is unreachable
(the running total is zero there), and the model simply stops. -/
def popLoop (sepLen lenD : Int) : List Str → Int → List Str × Int
  | [], total => ([], total)
  | d0 :: rest, total =>
    if total > chunkOverlap ∨
        (total + lenD + (if (d0 :: rest).length > 1 then sepLen else 0) > chunkSize ∧
          total > 0) then
      popLoop sepLen lenD rest
        (total - ((d0.length : Int) + (if (d0 :: rest).length > 1 then sepLen else 0)))
    else (d0 :: rest, total)

/-- `TextSplitter._merge_splits(splits, separator)` with
`chunk_size=1000`, `chunk_overlap=200`, `length_function=len`. -/
def mergeGo (sep : Str) : List Str → List Str → List Str → Int → List Str
  | [], docs, cur, _ => docs ++ (joinDocs sep cur).toList
  | d :: ds, docs, cur, total =>
    let lenD : Int := d.length
    let sepLen : Int := sep.length
    let flush :=
      if total + lenD + (if cur.length > 0 then sepLen else 0) > chunkSize ∧ cur.length > 0
      then
        let docs2 := docs ++ (joinDocs sep cur).toList
        let pl := popLoop sepLen lenD cur total
        (docs2, pl.1, pl.2)
      else (docs, cur, total)
    let cur2 := flush.2.1 ++ [d]
    mergeGo sep ds flush.1 cur2 (flush.2.2 + lenD + (if cur2.length > 1 then sepLen else 0))

/-- `_merge_splits` entry point. -/
def mergeSplits (sep : Str) (splits : List Str) : List Str :=
  mergeGo sep splits [] [] 0

/-- `RecursiveCharacterTextSplitter._split_text` with `keep_separator=True`
(merging therefore joins with the empty separator).  The fuel bounds the
recursion depth over the separator list and is set so it never runs out. -/
def splitTextFuel (fuel : Nat) (seps : List Str) (text : Str) : List Str :=
  match fuel with
  | 0 => [text]
  | fuel + 1 =>
    let dflt := seps.getLastD []
    let sc := chooseSep text dflt seps
    let splits := splitWithSep sc.1 text
    let step := fun (acc : List Str × List Str) (s : Str) =>
      if (s.length : Int) < chunkSize then (acc.1, acc.2 ++ [s])
      else
        let flushed := if acc.2 ≠ [] then acc.1 ++ mergeSplits [] acc.2 else acc.1
        if sc.2 = [] then (flushed ++ [s], ([] : List Str))
        else (flushed ++ splitTextFuel fuel sc.2 s, [])
    let r := splits.foldl step ([], [])
    if r.2 ≠ [] then r.1 ++ mergeSplits [] r.2 else r.1

/-- The separators of `RecursiveCharacterTextSplitter` with
`is_separator_regex=False`: `["\n\n", "\n", " ", ""]`. -/
def defaultSeparators : List Str := [['\n', '\n'], ['\n'], [' '], []]

/-- `text_splitter.split_text(markdown)` as configured in `crawl_website`. -/
def split_text (text : Str) : List Str :=
  splitTextFuel (defaultSeparators.length + 1) defaultSeparators text

/-! ### BeautifulSoup document model and `clean_html_content` -/

/-- A parsed HTML node: an element with a tag, an optional `href`
attribute and children, or a text node.  A `BeautifulSoup` object is the
document root (tag `[document]`). -/
inductive HNode where
  | elem (tag : String) (href : Option Str) (children : List HNode)
  | textN (s : Str)

/-- The tags removed by `clean_html_content` in `utils/page_utils.py`:
`soup.find_all(["script", "style", "head", "img", "svg", "link", "aside",
"form"])`, each `decompose`d. -/
def removedTags : List String :=
  ["script", "style", "head", "img", "svg", "link", "aside", "form"]

mutual

/-- Remove this node (with its whole subtree) when its tag is in
`removedTags`, otherwise keep it and prune its descendants. -/
def pruneNode : HNode → Option HNode
  | .textN s => some (.textN s)
  | .elem tag href ch =>
    if tag ∈ removedTags then none else some (.elem tag href (pruneList ch))

/-- Prune a list of sibling nodes. -/
def pruneList : List HNode → List HNode
  | [] => []
  | n :: ns =>
    match pruneNode n with
    | some n2 => n2 :: pruneList ns
    | none => pruneList ns

end

/-- `clean_html_content`'s effect on the shared tree: `decompose` every
node whose tag is in `removedTags`.  The root (the `[document]` node of the
soup) is never one of the searched descendants. -/
def cleanSoup : HNode → HNode
  | .textN s => .textN s
  | .elem tag href ch => .elem tag href (pruneList ch)

mutual

/-- First node with the given tag in document (pre-)order, as
`soup.find(tag)` / `soup.body` / `soup.title`. -/
def findTagN (t : String) : HNode → Option HNode
  | .textN _ => none
  | .elem tag href ch =>
    if tag = t then some (.elem tag href ch) else findTagL t ch

/-- First node with the given tag inside a list of siblings. -/
def findTagL (t : String) : List HNode → Option HNode
  | [] => none
  | n :: ns =>
    match findTagN t n with
    | some r => some r
    | none => findTagL t ns

end

mutual

/-- All `href` values of `<a href=...>` elements in document order
(`soup.find_all('a', href=True)`). -/
def findAnchors : HNode → List Str
  | .textN _ => []
  | .elem tag href ch =>
    (if tag = "a" then (match href with | some h => [h] | none => []) else []) ++
      anchorsList ch

/-- Anchors of a list of siblings. -/
def anchorsList : List HNode → List Str
  | [] => []
  | n :: ns => findAnchors n ++ anchorsList ns

end

mutual

/-- All `<a href=...>` values in document order, skipping every subtree
rooted at a tag in `removedTags` (the anchors a crawler would see if
removed elements never contributed links). -/
def findAnchorsSkip : HNode → List Str
  | .textN _ => []
  | .elem tag href ch =>
    if tag ∈ removedTags then []
    else
      (if tag = "a" then (match href with | some h => [h] | none => []) else []) ++
        anchorsSkipList ch

/-- Skipping anchor collection over siblings. -/
def anchorsSkipList : List HNode → List Str
  | [] => []
  | n :: ns => findAnchorsSkip n ++ anchorsSkipList ns

end

/-- The anchors of a soup whose root is kept (as `cleanSoup` keeps it) but
whose descendants are collected with removed subtrees skipped. -/
def anchorsSkipRoot : HNode → List Str
  | .textN _ => []
  | .elem tag href ch =>
    (if tag = "a" then (match href with | some h => [h] | none => []) else []) ++
      anchorsSkipList ch

mutual

/-- Concatenated text content of a node, the model of
`html2text.html2text(str(body))` (markdown decoration abstracted away;
only emptiness and raw character content matter to the claims). -/
def textContent : HNode → Str
  | .textN s => s
  | .elem _ _ ch => textContentList ch

/-- Text content of a list of siblings. -/
def textContentList : List HNode → Str
  | [] => []
  | n :: ns => textContent n ++ textContentList ns

end

/-- bs4 `Tag.string`: the string of a tag with a single text child, the
string of its child for a single element child, `None` otherwise. -/
def nodeString : HNode → Option Str
  | .textN s => some s
  | .elem _ _ [c] => nodeString c
  | .elem _ _ _ => none

/-- `_extract_text_from_html` from `scraper/page_scraper.py`: empty string
when the soup has no body; otherwise `clean_html_content` mutates the
shared tree in place and the (mutated) body is converted to text.  The
mutated soup is returned explicitly because later link extraction observes
it.  If cleaning removed the body itself, Python converts `str(None)`,
producing the text `"None"`. -/
def extractTextFromHtml (soup : HNode) : Str × HNode :=
  match findTagN "body" soup with
  | none => ([], soup)
  | some _ =>
    let soup2 := cleanSoup soup
    let md :=
      match findTagN "body" soup2 with
      | some b => textContent b
      | none => "None\n\n".data
    (md, soup2)

/-! ### `extract_text_from_pdf_url` from `utils/url_utils.py` -/

/-- The environment a PDF fetch runs against: the HTTP response (or a
raised network error), and the result of `pypdf.PdfReader` on the body
(a parse error, or pages whose `extract_text()` may return `None`). -/
structure PdfEnv where
  response : Except Unit (Nat × List Nat)
  parsePdf : List Nat → Except Unit (List (Option Str))

/-- `extract_text_from_pdf_url`: `raise_for_status` raises
`HTTPStatusError` for 4xx/5xx responses; that and every other exception is
caught and yields the empty string; otherwise the page texts are
concatenated with `None` contributing `""`. -/
def extract_text_from_pdf_url (env : PdfEnv) : Str :=
  match env.response with
  | .error _ => []
  | .ok (status, body) =>
    if 400 ≤ status ∧ status ≤ 599 then []
    else
      match env.parsePdf body with
      | .error _ => []
      | .ok pages => pages.flatMap (fun p => p.getD [])

/-! ### The crawl orchestrator `crawl_website` -/

/-- Python exceptions that can cross component boundaries in the crawl. -/
inductive PyErr where
  | attrError
  | ioError
  | driverError
  | osError
  | valueError
  | invalidUrl
deriving DecidableEq

/-- The environment a crawl runs against: directory creation, the Selenium
driver acquisition, the rendered soup per URL (`None` models every failure
`_scrape_html_page` absorbs), the PDF fetch environment per URL, file
write success per path, and the `uuid4` fallback token. -/
structure CrawlEnv where
  makedirsOk : Bool
  getDriver : Except PyErr Unit
  render : Str → Option HNode
  pdf : Str → PdfEnv
  writeOk : String → Bool
  uuidTok : String

/-- Observable crawl state: the visited set, the frontier deque, the
accumulated chunk list, plus logs of the normalized URLs admitted past the
visited check, the URLs handed to the renderer, and the artifacts written. -/
structure CrawlState where
  visited : List Str
  queue : List Str
  texts : List Str
  processedLog : List Str
  renderLog : List Str
  storeLog : List (String × Str)
deriving DecidableEq

/-- How a crawl run ended. -/
inductive CrawlResult where
  | done (texts : List Str)
  | failed (e : PyErr)
  | fuelOut
deriving DecidableEq

/-- `media_extensions_to_skip` from `crawl_website`. -/
def media_extensions_to_skip : List Str :=
  [".jpg", ".jpeg", ".png", ".gif", ".bmp", ".svg", ".webp",
    ".mp4", ".mov", ".avi", ".wmv", ".flv", ".mkv",
    ".mp3", ".wav", ".ogg", ".webm",
    ".ico", ".zip", ".rar", ".tar", ".gz", ".doc", ".docx", ".ppt",
    ".xls"].map String.data

/-- `get_pages_dir(scrape_id)` from `utils/page_utils.py`. -/
def get_pages_dir (scrapeId : String) : String :=
  "scraped_pages/" ++ scrapeId ++ "/pages"

/-- `_extract_and_queue_links`' loop body over the anchor hrefs: resolve
against `current_url` with `httpx.URL(...).join(...)`, normalize, enqueue
when the domain matches the seed domain and the URL is unvisited.  An
`httpx.InvalidURL` exception aborts the loop (the queue keeps the appends
already made, and the error propagates). -/
def eaqGo (current base : Str) (visited : List Str) (queue : List Str) :
    List Str → List Str × Option Unit
  | [] => (queue, none)
  | href :: hs =>
    match hxJoinStrE current href with
    | .error _ => (queue, some ())
    | .ok full =>
      let n := normalize_url full
      let queue2 := if get_domain n = base ∧ n ∉ visited then queue ++ [n] else queue
      eaqGo current base visited queue2 hs

/-- `_extract_and_queue_links(soup, current_url, base_domain, visited_urls,
urls_to_visit)`. -/
def extractAndQueueLinks (soup : HNode) (current base : Str)
    (visited queue : List Str) : List Str × Option Unit :=
  eaqGo current base visited queue (findAnchors soup)

/-- `_process_content_and_store`: skip whitespace-only text; split into
chunks and extend the accumulator; derive the artifact name from the page
title (`soup.title` raises `AttributeError` when `soup` is `None`, and
`.string.strip()` raises when `.string` is `None`), else from the URL path
or netloc (`urlparse` may raise), else a fresh uuid; write the file. -/
def processContentAndStore (env : CrawlEnv) (scrapeId : String) (url : Str)
    (markdown : Str) (texts : List Str) (soup : Option HNode) :
    Except PyErr (List Str × Option (String × Str)) := do
  if pyStrip markdown = [] then pure (texts, none)
  else
    let texts2 := texts ++ split_text markdown
    let s ← match soup with
      | none => Except.error PyErr.attrError
      | some s => pure s
    let titleTag ← match findTagN "title" s with
      | some t =>
        match nodeString t with
        | some ts => pure (pyStrip ts)
        | none => Except.error PyErr.attrError
      | none => pure ([] : Str)
    let base ←
      if titleTag ≠ [] then pure (slugify titleTag)
      else
        match urlparseE url with
        | .ok pr => pure (slugify (if pr.path ≠ [] then pr.path else pr.netloc))
        | .error _ => Except.error PyErr.valueError
    let base2 := if base ≠ [] then String.mk base else env.uuidTok
    let filename := get_pages_dir scrapeId ++ "/" ++ base2 ++ ".md"
    if env.writeOk filename then pure (texts2, some (filename, markdown))
    else Except.error PyErr.ioError

/-- One `while urls_to_visit:` loop of `crawl_website`, driven by fuel
(`fuelOut` only signals that the chosen fuel was insufficient; every
theorem below holds for every fuel).  Mirrors the source order: popleft,
normalize, visited check, visited insert, extension dispatch (PDF fetch on
the normalized URL / binary skip / Selenium render on the raw URL),
whitespace gate, `_process_content_and_store`, link extraction for HTML. -/
def crawlLoop (env : CrawlEnv) (scrapeId : String) (baseDomain : Str) :
    Nat → CrawlState → CrawlResult × CrawlState
  | 0, st => (.fuelOut, st)
  | fuel + 1, st =>
    match st.queue with
    | [] => (.done st.texts, st)
    | current :: rest =>
      let ncur := normalize_url current
      if ncur ∈ st.visited then
        crawlLoop env scrapeId baseDomain fuel { st with queue := rest }
      else
        let st1 : CrawlState :=
          { st with queue := rest, visited := ncur :: st.visited,
                    processedLog := st.processedLog ++ [ncur] }
        let low := ncur.map lowerCh
        if ".pdf".data.isSuffixOf low then
          let markdown := extract_text_from_pdf_url (env.pdf ncur)
          if pyStrip markdown = [] then crawlLoop env scrapeId baseDomain fuel st1
          else
            match processContentAndStore env scrapeId current markdown st1.texts none with
            | .error e => (.failed e, st1)
            | .ok (texts2, art) =>
              let st2 := { st1 with texts := texts2, storeLog := st1.storeLog ++ art.toList }
              crawlLoop env scrapeId baseDomain fuel st2
        else if media_extensions_to_skip.any (fun e => e.isSuffixOf low) then
          crawlLoop env scrapeId baseDomain fuel st1
        else
          let st2 := { st1 with renderLog := st1.renderLog ++ [current] }
          match env.render current with
          | none => crawlLoop env scrapeId baseDomain fuel st2
          | some soup =>
            let em := extractTextFromHtml soup
            if pyStrip em.1 = [] then crawlLoop env scrapeId baseDomain fuel st2
            else
              match processContentAndStore env scrapeId current em.1 st2.texts (some em.2) with
              | .error e => (.failed e, st2)
              | .ok (texts2, art) =>
                let st3 := { st2 with texts := texts2, storeLog := st2.storeLog ++ art.toList }
                let eq := extractAndQueueLinks em.2 current baseDomain st3.visited st3.queue
                let st4 := { st3 with queue := eq.1 }
                match eq.2 with
                | some _ => (.failed .invalidUrl, st4)
                | none => crawlLoop env scrapeId baseDomain fuel st4

/-- The full observable outcome of a crawl. -/
structure CrawlFull where
  result : CrawlResult
  state : CrawlState
  driverAcquired : Bool
  driverReleased : Bool
deriving DecidableEq

/-- The initial crawl state: empty visited set, the seed in the frontier. -/
def initState (startUrl : Str) : CrawlState := ⟨[], [startUrl], [], [], [], []⟩

/-- `crawl_website(start_url, scrape_id)`: `os.makedirs` runs before the
`try` block (its failure propagates with no driver to release); inside the
`try`, the driver is acquired, the loop runs, and the `finally` block
releases the driver on every exit from the `try` — normal completion and
exception alike. -/
def crawl_website (env : CrawlEnv) (startUrl : Str) (scrapeId : String)
    (fuel : Nat) : CrawlFull :=
  if ¬ env.makedirsOk then ⟨.failed .osError, initState startUrl, false, false⟩
  else
    let baseDomain := get_domain startUrl
    match env.getDriver with
    | .error e => ⟨.failed e, initState startUrl, false, false⟩
    | .ok _ =>
      let r := crawlLoop env scrapeId baseDomain fuel (initState startUrl)
      ⟨r.1, r.2, true, true⟩

/-! ### Specification functions and concrete fixtures used by the claims -/

/-- The chunk windows the splitter produces on separator-free text: one
window when at most 1000 characters remain, otherwise a 1000-character
window followed by the windows of the text shifted by 800 (= 1000 - 200
overlap). -/
def gWindows (s : Str) : List Str :=
  if s.length ≤ 1000 then [s] else s.take 1000 :: gWindows (s.drop 800)
termination_by s.length
decreasing_by
  simp only [List.length_drop]
  omega

/-- Sliding-window state function mirroring `_merge_splits` on
single-character splits: `u` is the current window, `v` the unconsumed
characters. -/
def winGo (u : Str) : Str → List Str
  | [] => if u = [] then [] else [u]
  | c :: v =>
    if u.length = 1000 then u :: winGo (u.drop 800 ++ [c]) v
    else winGo (u ++ [c]) v

/-- The C2 seed page: title `Home`, body text, and the three links of the
scenario in document order. -/
def c2SeedPage : HNode :=
  .elem "[document]" none [.elem "html" none
    [.elem "head" none [.elem "title" none [.textN "Home".data]],
     .elem "body" none
       [.textN "Welcome to the site".data,
        .elem "a" (some "https://site.test/about".data) [],
        .elem "a" (some "https://other.test/".data) [],
        .elem "a" (some "https://site.test/logo.png".data) []]]]

/-- The C2 about page: text content and no outgoing links. -/
def c2AboutPage : HNode :=
  .elem "[document]" none [.elem "html" none
    [.elem "body" none [.textN "About page content".data]]]

/-- The C2 crawl environment: the seed and about pages render, everything
else fails to render; storage always succeeds. -/
def c2Env : CrawlEnv where
  makedirsOk := true
  getDriver := .ok ()
  render := fun u =>
    if u = "https://site.test/".data then some c2SeedPage
    else if u = "https://site.test/about".data then some c2AboutPage
    else none
  pdf := fun _ => ⟨.error (), fun _ => .error ()⟩
  writeOk := fun _ => true
  uuidTok := "uuid-1234"

/-- A soup whose body carries the same unvisited same-domain link twice. -/
def c3DupSoup : HNode :=
  .elem "[document]" none [.elem "html" none
    [.elem "body" none
      [.elem "a" (some "https://s.test/a".data) [],
       .elem "a" (some "https://s.test/a".data) []]]]

/-- A soup whose only link sits inside an `<aside>` element: same-domain,
unvisited, yet never discoverable after cleaning. -/
def c10Soup : HNode :=
  .elem "[document]" none [.elem "html" none
    [.elem "body" none
      [.textN "visible text".data,
       .elem "aside" none [.elem "a" (some "https://site.test/hidden".data) []]]]]

/-- A page whose body is exactly the text `T`, with no links and no title. -/
def textOnlyPage (T : Str) : HNode :=
  .elem "[document]" none [.elem "html" none [.elem "body" none [.textN T]]]

/-- The enqueue condition of `_extract_and_queue_links` for one anchor:
the normalized resolved URL when it belongs to the seed domain and is not
yet visited, `none` otherwise (including resolution failure). -/
def linkCandidate (current base : Str) (visited : List Str) (href : Str) :
    Option Str :=
  match hxJoinStrE current href with
  | .ok full =>
    if get_domain (normalize_url full) = base ∧ normalize_url full ∉ visited then
      some (normalize_url full)
    else none
  | .error _ => none

/-- A crawl environment rendering exactly one page at the seed URL. -/
def onePageEnv (seedUrl : Str) (page : HNode) : CrawlEnv where
  makedirsOk := true
  getDriver := .ok ()
  render := fun u => if u = seedUrl then some page else none
  pdf := fun _ => ⟨.error (), fun _ => .error ()⟩
  writeOk := fun _ => true
  uuidTok := "uuid-c4"

/-! ## Theorems -/

/-- C5: the browser session, once acquired, is released on every exit path
of the crawl.  `driverReleased = driverAcquired` over every environment,
seed, storage id and fuel: on the failed-`makedirs` path and the failed
acquisition path nothing was acquired and nothing is released; on every
path that enters the `try` block after `get_web_driver()` succeeds —
normal completion with an empty frontier, any exception propagating out of
the loop, and even fuel exhaustion of the model — the `finally` block has
released the driver, in particular before a `failed` result reaches the
caller.  The browser is never leaked. -/
theorem crawl_releases_driver_iff_acquired (env : CrawlEnv) (startUrl : Str)
    (scrapeId : String) (fuel : Nat) :
    (crawl_website env startUrl scrapeId fuel).driverReleased =
      (crawl_website env startUrl scrapeId fuel).driverAcquired := by
  unfold crawl_website
  split
  · rfl
  · split <;> rfl

/-- C8: for every PDF URL whose fetch returns an HTTP error status
(`raise_for_status` raises for 400–599) or whose content fails to parse as
a PDF, `extract_text_from_pdf_url` returns the empty string; the function
is total over its environment, so no exception crosses the extractor
boundary to abort the crawl. -/
theorem pdf_error_yields_empty (env : PdfEnv) (s : Nat) (b : List Nat)
    (hresp : env.response = .ok (s, b))
    (herr : (400 ≤ s ∧ s ≤ 599) ∨ env.parsePdf b = .error ()) :
    extract_text_from_pdf_url env = [] := by
  have hred : extract_text_from_pdf_url env =
      if 400 ≤ s ∧ s ≤ 599 then [] else
        match env.parsePdf b with
        | .error _ => []
        | .ok pages => pages.flatMap (fun p => p.getD []) := by
    unfold extract_text_from_pdf_url
    rw [hresp]
  rw [hred]
  rcases herr with ⟨h1, h2⟩ | h
  · rw [if_pos ⟨h1, h2⟩]
  · split
    · rfl
    · rw [h]

/-- Witness for C8 at a concrete 404 response. -/
theorem pdf_error_yields_empty_witness :
    (⟨Except.ok (404, []), fun _ => Except.error ()⟩ : PdfEnv).response =
      Except.ok (404, []) ∧
    extract_text_from_pdf_url ⟨Except.ok (404, []), fun _ => Except.error ()⟩ = [] :=
  ⟨rfl, pdf_error_yields_empty _ 404 [] rfl (Or.inl (by omega))⟩

/-- C2 counterexample: with the seed `https://site.test/` whose page links
to `https://site.test/about`, `https://other.test/` and
`https://site.test/logo.png`, the frontier after the seed page is processed
holds BOTH the same-domain page and the skip-listed `logo.png` — the
extension skip list is consulted only at dequeue time in `crawl_website`,
not in `_extract_and_queue_links` — so the claimed frontier
`[https://site.test/about]` is wrong. -/
theorem frontier_after_seed_counterexample :
    (crawl_website c2Env "https://site.test/".data "c2" 1).state.queue =
      ["https://site.test/about".data, "https://site.test/logo.png".data] ∧
    (crawl_website c2Env "https://site.test/".data "c2" 1).state.queue ≠
      ["https://site.test/about".data] := by
  constructor <;> decide

/-- C2 amended: after the seed page of the scenario is processed the
frontier contains exactly `https://site.test/about` followed by
`https://site.test/logo.png`, in link order; the cross-domain link is not
enqueued.  The skip-listed link, though enqueued, is discarded at dequeue
time: the completed crawl rendered only the seed and the about page, wrote
no artifact for `logo.png`, and finished with an empty frontier. -/
theorem frontier_after_seed_amended :
    (crawl_website c2Env "https://site.test/".data "c2" 1).state.queue =
      ["https://site.test/about".data, "https://site.test/logo.png".data] ∧
    (crawl_website c2Env "https://site.test/".data "c2" 10).result =
      .done ["Welcome to the site".data, "About page content".data] ∧
    (crawl_website c2Env "https://site.test/".data "c2" 10).state.renderLog =
      ["https://site.test/".data, "https://site.test/about".data] ∧
    ((crawl_website c2Env "https://site.test/".data "c2" 10).state.storeLog).map
      Prod.fst = ["scraped_pages/c2/pages/uuid-1234.md", "scraped_pages/c2/pages/about.md"] ∧
    (crawl_website c2Env "https://site.test/".data "c2" 10).state.queue = [] := by
  refine ⟨by decide, by decide, by decide, by decide, by decide⟩

/-- C3 counterexample: a page carrying the same unvisited same-domain
anchor twice (`n = 2` anchors, `m = 2` same-domain, `k = 0` visited) has
BOTH occurrences enqueued — `_extract_and_queue_links` checks the visited
set but never deduplicates within one page — while the claimed
`m - k` minus duplicates would be a single enqueue. -/
theorem link_discovery_dedup_counterexample :
    extractAndQueueLinks c3DupSoup "https://s.test/".data "s.test".data
      ["https://s.test/".data] [] =
      (["https://s.test/a".data, "https://s.test/a".data], none) ∧
    (["https://s.test/a".data, "https://s.test/a".data] : List Str) ≠
      ["https://s.test/a".data] := by
  constructor <;> decide

/-- Helper for C3: over any href list in which every href resolves,
`_extract_and_queue_links`' loop appends exactly the qualifying
candidates, in order, one per occurrence. -/
theorem eaqGo_spec (current base : Str) (visited : List Str)
    (hrefs : List Str) :
    ∀ queue : List Str,
      (∀ href ∈ hrefs, (hxJoinStrE current href).isOk = true) →
      eaqGo current base visited queue hrefs =
        (queue ++ hrefs.filterMap (linkCandidate current base visited), none) := by
  induction hrefs with
  | nil => intro queue _; simp [eaqGo]
  | cons href hs ih =>
    intro queue hok
    have hhead := hok href (List.mem_cons_self _ _)
    have htail : ∀ h ∈ hs, (hxJoinStrE current h).isOk = true :=
      fun h hm => hok h (List.mem_cons_of_mem _ hm)
    cases hjoin : hxJoinStrE current href with
    | error e =>
      rw [hjoin] at hhead
      exact absurd hhead (by simp [Except.isOk, Except.toBool])
    | ok full =>
      by_cases hcond : get_domain (normalize_url full) = base ∧
          normalize_url full ∉ visited
      · simp only [eaqGo, hjoin, if_pos hcond]
        rw [ih (queue ++ [normalize_url full]) htail]
        simp [linkCandidate, hjoin, if_pos hcond]
      · simp only [eaqGo, hjoin, if_neg hcond]
        rw [ih queue htail]
        simp [linkCandidate, hjoin, if_neg hcond]

/-- C3 amended: when every anchor href of the page resolves (no
`httpx.InvalidURL`), link discovery appends to the frontier exactly one
entry per anchor occurrence — in document order, duplicates included —
whose resolved, normalized URL has the seed domain and is not in the
visited set; an anchor is enqueued if and only if that condition holds
(`linkCandidate`). -/
theorem link_discovery_amended (soup : HNode) (current base : Str)
    (visited queue : List Str)
    (hok : ∀ href ∈ findAnchors soup, (hxJoinStrE current href).isOk = true) :
    extractAndQueueLinks soup current base visited queue =
      (queue ++ (findAnchors soup).filterMap (linkCandidate current base visited),
        none) := by
  unfold extractAndQueueLinks
  exact eaqGo_spec current base visited (findAnchors soup) queue hok

/-- Witness for C3 amended at the duplicate-anchor page: both occurrences
of the same qualifying link are appended. -/
theorem link_discovery_amended_witness :
    (∀ href ∈ findAnchors c3DupSoup,
        (hxJoinStrE "https://s.test/".data href).isOk = true) ∧
    extractAndQueueLinks c3DupSoup "https://s.test/".data "s.test".data
      ["https://s.test/".data] [] =
      (["https://s.test/a".data, "https://s.test/a".data], none) := by
  refine ⟨by decide, ?_⟩
  rw [link_discovery_amended c3DupSoup _ _ _ _ (by decide)]
  decide

/-- Helper for C10: pruning removed-tag subtrees and then collecting
anchors equals collecting anchors while skipping removed-tag subtrees. -/
theorem anchorsList_pruneList (ns : List HNode) :
    anchorsList (pruneList ns) = anchorsSkipList ns := by
  match ns with
  | [] => rfl
  | .textN s :: rest =>
    simp only [pruneList, pruneNode, anchorsList, findAnchors, anchorsSkipList,
      findAnchorsSkip]
    exact anchorsList_pruneList rest
  | .elem tag href ch :: rest =>
    by_cases htag : tag ∈ removedTags
    · simp only [pruneList, pruneNode, if_pos htag, anchorsSkipList,
        findAnchorsSkip]
      simpa using anchorsList_pruneList rest
    · simp only [pruneList, pruneNode, if_neg htag, anchorsList, findAnchors,
        anchorsSkipList, findAnchorsSkip]
      rw [anchorsList_pruneList ch, anchorsList_pruneList rest]

/-- Helper for C10: the anchors visible on the mutated (cleaned) soup are
exactly the anchors outside removed-tag subtrees. -/
theorem findAnchors_cleanSoup (soup : HNode) :
    findAnchors (cleanSoup soup) = anchorsSkipRoot soup := by
  cases soup with
  | textN s => rfl
  | elem tag href ch =>
    simp only [cleanSoup, findAnchors, anchorsSkipRoot]
    rw [anchorsList_pruneList]

/-- C10: text extraction mutates the shared document tree in place —
`_extract_text_from_html` returns the soup with every `script`, `style`,
`head`, `img`, `svg`, `link`, `aside` and `form` subtree destructively
removed — and `_extract_and_queue_links` then runs on that mutated tree,
so the anchors it resolves and enqueues are exactly those outside the
removed subtrees: an anchor inside any removed element is never resolved
or enqueued, even if it points to an unvisited same-domain URL. -/
theorem hidden_anchors_never_enqueued (soup : HNode) (current base : Str)
    (visited queue : List Str)
    (hbody : (findTagN "body" soup).isSome = true) :
    (extractTextFromHtml soup).2 = cleanSoup soup ∧
    extractAndQueueLinks (extractTextFromHtml soup).2 current base visited queue =
      eaqGo current base visited queue (anchorsSkipRoot soup) := by
  have h2 : (extractTextFromHtml soup).2 = cleanSoup soup := by
    unfold extractTextFromHtml
    cases hfb : findTagN "body" soup with
    | none => rw [hfb] at hbody; exact absurd hbody (by simp)
    | some b => rfl
  refine ⟨h2, ?_⟩
  rw [h2]
  unfold extractAndQueueLinks
  rw [findAnchors_cleanSoup]

/-- Witness for C10: a page whose only link -- same-domain and unvisited --
sits inside an `<aside>` enqueues nothing. -/
theorem hidden_anchors_never_enqueued_witness :
    (findTagN "body" c10Soup).isSome = true ∧
    extractAndQueueLinks (extractTextFromHtml c10Soup).2 "https://site.test/".data
      "site.test".data [] [] = ([], none) := by
  refine ⟨by decide, ?_⟩
  rw [(hidden_anchors_never_enqueued c10Soup "https://site.test/".data
    "site.test".data [] [] (by decide)).2]
  decide

/-- Helper for C1: the loop invariant of `crawl_website`.  Every URL in the
processed log was put into the visited set at the moment it was admitted,
and the log never repeats a normalized URL — preserved by every branch of
the loop (skip, PDF, binary skip, render failure, empty text, store
failure, store success with link discovery), for any environment. -/
theorem crawlLoop_inv (env : CrawlEnv) (scrapeId : String) (baseDomain : Str)
    (fuel : Nat) :
    ∀ st : CrawlState, st.processedLog.Nodup →
      (∀ u ∈ st.processedLog, u ∈ st.visited) →
      (crawlLoop env scrapeId baseDomain fuel st).2.processedLog.Nodup ∧
      ∀ u ∈ (crawlLoop env scrapeId baseDomain fuel st).2.processedLog,
        u ∈ (crawlLoop env scrapeId baseDomain fuel st).2.visited := by
  induction fuel with
  | zero => intro st h1 h2; exact ⟨h1, h2⟩
  | succ fuel ih =>
    intro st h1 h2
    rw [crawlLoop]
    split
    · exact ⟨h1, h2⟩
    · next current rest hq =>
      by_cases hv : normalize_url current ∈ st.visited
      · simp only [if_pos hv]
        exact ih _ h1 h2
      · simp only [if_neg hv]
        have hnotin : normalize_url current ∉ st.processedLog :=
          fun hmem => hv (h2 _ hmem)
        have h1' : (st.processedLog ++ [normalize_url current]).Nodup := by
          simp [List.nodup_append, h1, hnotin]
        have h2' : ∀ u ∈ st.processedLog ++ [normalize_url current],
            u ∈ normalize_url current :: st.visited := by
          intro u hu
          rcases List.mem_append.mp hu with hl | hr
          · exact List.mem_cons_of_mem _ (h2 _ hl)
          · simp at hr; simp [hr]
        split
        · split
          · exact ih _ h1' h2'
          · split
            · exact ⟨h1', h2'⟩
            · exact ih _ h1' h2'
        · split
          · exact ih _ h1' h2'
          · split
            · exact ih _ h1' h2'
            · split
              · exact ih _ h1' h2'
              · split
                · exact ⟨h1', h2'⟩
                · split
                  · exact ⟨h1', h2'⟩
                  · exact ih _ h1' h2'

/-- C1: for every environment (any finite link graph, cycles included,
re-discovery and re-enqueueing allowed), every seed, storage id and fuel,
the crawl orchestrator admits each normalized URL past the visited check
at most once: the log of URLs whose normalized form was added to the
visited set at dequeue time — before any rendering, extraction or link
discovery — contains no duplicates. -/
theorem crawl_never_processes_twice (env : CrawlEnv) (startUrl : Str)
    (scrapeId : String) (fuel : Nat) :
    (crawl_website env startUrl scrapeId fuel).state.processedLog.Nodup := by
  unfold crawl_website
  split
  · simp [initState]
  · split
    · simp [initState]
    · exact (crawlLoop_inv env scrapeId (get_domain startUrl) fuel
        (initState startUrl) (by simp [initState]) (by simp [initState])).1

/-- C9 counterexample: the claimed slugging rule strips every character
that is not alphanumeric, whitespace or hyphen — which would strip the
underscore — but `slugify`'s first substitution keeps `\w` characters, and
`\w` includes the underscore.  On `"a_b"` the code produces `"a_b"` while
the claimed rule produces `"ab"`. -/
theorem slugify_claim_counterexample :
    slugify "a_b".data = "a_b".data ∧ claimSlugify "a_b".data = "ab".data ∧
      slugify "a_b".data ≠ claimSlugify "a_b".data := by
  refine ⟨by decide, by decide, by decide⟩

/-- Helper: `intercalate` over two or more pieces. -/
theorem intercalate_cons₂ (x y : Str) (zs : List Str) :
    List.intercalate ['_'] (x :: y :: zs) =
      x ++ '_' :: List.intercalate ['_'] (y :: zs) := by
  simp [List.intercalate, List.intersperse]

/-- Helper: a head character moves through `intercalate`. -/
theorem intercalate_cons_head (c : Char) (p : Str) (S : List Str) :
    List.intercalate ['_'] ((c :: p) :: S) =
      c :: List.intercalate ['_'] (p :: S) := by
  cases S with
  | nil => simp [List.intercalate, List.intersperse]
  | cons y zs => rw [intercalate_cons₂, intercalate_cons₂]; simp

/-- Helper: `splitRuns` always yields at least one piece. -/
theorem splitRuns_ne_nil (l : Str) : splitRuns l ≠ [] := by
  rw [splitRuns.eq_def]
  split <;> simp

/-- Helper: the run-skipping state of the collapse state machine equals
dropping the run and restarting. -/
theorem collapseRunsGo_true (cs : Str) :
    collapseRunsGo true cs = collapseRunsGo false (cs.dropWhile isRunCh) := by
  induction cs with
  | nil => rfl
  | cons c cs ih =>
    by_cases h : isRunCh c <;>
      simp [collapseRunsGo, List.dropWhile_cons, h, ih]

/-- Helper for C9 amended: collapsing runs to underscores equals splitting
at the runs and rejoining with single underscores. -/
theorem collapse_eq_intercalate (l : Str) :
    collapseRunsGo false l = List.intercalate ['_'] (splitRuns l) := by
  match l with
  | [] =>
    rw [splitRuns.eq_def]
    simp [collapseRunsGo, List.intercalate, List.intersperse]
  | c :: cs =>
    by_cases h : isRunCh c
    · have hlhs : collapseRunsGo false (c :: cs) =
          '_' :: collapseRunsGo false (cs.dropWhile isRunCh) := by
        simp [collapseRunsGo, h, collapseRunsGo_true]
      rw [hlhs, collapse_eq_intercalate (cs.dropWhile isRunCh)]
      have hdw : (c :: cs).dropWhile (fun x => ¬ isRunCh x) = c :: cs := by
        simp [List.dropWhile_cons, h]
      have hsr : splitRuns (c :: cs) = [] :: splitRuns (cs.dropWhile isRunCh) := by
        rw [splitRuns.eq_def]
        split
        · next heq => rw [hdw] at heq; exact absurd heq (by simp)
        · next head rest2 heq =>
          rw [hdw] at heq
          injection heq with h1 h2
          subst h1; subst h2
          simp [List.takeWhile_cons, h]
      rw [hsr]
      cases hS : splitRuns (cs.dropWhile isRunCh) with
      | nil => exact absurd hS (splitRuns_ne_nil _)
      | cons y zs => rw [intercalate_cons₂]; rfl
    · have hlhs : collapseRunsGo false (c :: cs) = c :: collapseRunsGo false cs := by
        simp [collapseRunsGo, h]
      rw [hlhs, collapse_eq_intercalate cs]
      have hdw : (c :: cs).dropWhile (fun x => ¬ isRunCh x) =
          cs.dropWhile (fun x => ¬ isRunCh x) := by
        simp [List.dropWhile_cons, h]
      cases hd : cs.dropWhile (fun x => ¬ isRunCh x) with
      | nil =>
        have hs1 : splitRuns (c :: cs) =
            [(c :: cs).takeWhile (fun x => ¬ isRunCh x)] := by
          rw [splitRuns.eq_def]
          split
          · rfl
          · next head rest2 heq => rw [hdw, hd] at heq; exact absurd heq.symm (by simp)
        have hs2 : splitRuns cs = [cs.takeWhile (fun x => ¬ isRunCh x)] := by
          rw [splitRuns.eq_def]
          split
          · rfl
          · next head rest2 heq => rw [hd] at heq; exact absurd heq.symm (by simp)
        rw [hs1, hs2]
        simp [List.intercalate, List.intersperse, List.takeWhile_cons, h]
      | cons d rest2 =>
        have hs1 : splitRuns (c :: cs) =
            (c :: cs.takeWhile (fun x => ¬ isRunCh x)) ::
              splitRuns (rest2.dropWhile isRunCh) := by
          rw [splitRuns.eq_def]
          split
          · next heq => rw [hdw, hd] at heq; exact absurd heq (by simp)
          · next head rest2x heq =>
            rw [hdw, hd] at heq
            injection heq with h1 h2
            subst h1; subst h2
            simp [List.takeWhile_cons, h]
        have hs2 : splitRuns cs =
            cs.takeWhile (fun x => ¬ isRunCh x) ::
              splitRuns (rest2.dropWhile isRunCh) := by
          rw [splitRuns.eq_def]
          split
          · next heq => rw [hd] at heq; exact absurd heq (by simp)
          · next head rest2x heq =>
            rw [hd] at heq
            injection heq with h1 h2
            subst h1; subst h2
            rfl
        rw [hs1, hs2, intercalate_cons_head]
termination_by l.length
decreasing_by
  · exact Nat.lt_succ_of_le ((List.dropWhile_sublist _).length_le)
  · simp [List.length]

/-- C9 amended: the artifact slug keeps word characters (alphanumeric or
underscore), whitespace and hyphens; each maximal whitespace/hyphen run
becomes one underscore; leading and trailing underscores are trimmed; the
result is lower-cased.  Proved against an independent split-and-rejoin
formulation of that rule. -/
theorem slugify_amended (s : Str) : slugify s = amendedSlugify s := by
  unfold slugify amendedSlugify collapseRuns
  rw [collapse_eq_intercalate]

/-! ### C4 helpers: the splitter on whitespace-free text -/

/-- Helper: a pattern starting with a whitespace character never occurs in
whitespace-free text. -/
theorem findSubIdx_ws_none (c0 : Char) (pat : Str) (s : Str)
    (hc0 : isPySpace c0 = true) (hs : ∀ c ∈ s, isPySpace c = false) :
    findSubIdx (c0 :: pat) s = none := by
  induction s with
  | nil => rfl
  | cons a as ih =>
    have ha : isPySpace a = false := hs a (List.mem_cons_self _ _)
    have hne : (c0 == a) = false := by
      rw [beq_eq_false_iff_ne]
      intro hEq
      rw [hEq, ha] at hc0
      exact Bool.false_ne_true hc0
    have htail : findSubIdx (c0 :: pat) as = none :=
      ih (fun c hc => hs c (List.mem_cons_of_mem _ hc))
    simp [findSubIdx, List.isPrefixOf, hne, htail]

/-- Helper: on whitespace-free text the separator search falls through to
the empty separator. -/
theorem chooseSep_no_ws (text dflt : Str)
    (hs : ∀ c ∈ text, isPySpace c = false) :
    chooseSep text dflt defaultSeparators = ([], []) := by
  have h1 : findSubIdx ['\n', '\n'] text = none :=
    findSubIdx_ws_none '\n' ['\n'] text (by decide) hs
  have h2 : findSubIdx ['\n'] text = none :=
    findSubIdx_ws_none '\n' [] text (by decide) hs
  have h3 : findSubIdx [' '] text = none :=
    findSubIdx_ws_none ' ' [] text (by decide) hs
  simp [defaultSeparators, chooseSep, isSubstr, h1, h2, h3]

/-- Helper: `dropWhile` with a predicate false on every element. -/
theorem dropWhile_eq_self_of_all (p : Char → Bool) (s : Str)
    (h : ∀ c ∈ s, p c = false) : s.dropWhile p = s := by
  cases s with
  | nil => rfl
  | cons a as => simp [List.dropWhile_cons, h a (List.mem_cons_self _ _)]

/-- Helper: stripping whitespace from whitespace-free text is a no-op. -/
theorem pyStrip_no_ws (s : Str) (hs : ∀ c ∈ s, isPySpace c = false) :
    pyStrip s = s := by
  unfold pyStrip
  rw [dropWhile_eq_self_of_all _ _ hs,
    dropWhile_eq_self_of_all _ _ (fun c hc => hs c (by simpa using hc)),
    List.reverse_reverse]

/-- Helper: joining single-character documents with the empty separator
yields the characters back. -/
theorem flatten_map_singleton (u : Str) :
    (u.map (fun c => ([c] : Str))).flatten = u := by
  induction u with
  | nil => rfl
  | cons c cs ih => simp [ih]

/-- Helper: `intercalate` over two or more pieces, general separator. -/
theorem intercalate_cons₂' (sep x y : Str) (zs : List Str) :
    List.intercalate sep (x :: y :: zs) =
      x ++ sep ++ List.intercalate sep (y :: zs) := by
  simp [List.intercalate, List.intersperse]

/-- Helper: `intercalate` with the empty separator is `flatten`. -/
theorem intercalate_nil_sep (l : List Str) :
    List.intercalate [] l = l.flatten := by
  induction l with
  | nil => rfl
  | cons x xs ih =>
    cases xs with
    | nil => simp [List.intercalate, List.intersperse]
    | cons y ys => rw [intercalate_cons₂', ih]; simp

/-- Helper: `_join_docs` on whitespace-free single-character documents. -/
theorem joinDocs_singletons (u : Str) (hs : ∀ c ∈ u, isPySpace c = false) :
    joinDocs [] (u.map (fun c => ([c] : Str))) =
      if u = [] then none else some u := by
  unfold joinDocs
  rw [intercalate_nil_sep, flatten_map_singleton, pyStrip_no_ws u hs]

/-- Helper: the pop loop over single-character documents with a pending
one-character document reduces the window to its last 200 characters. -/
theorem popLoop_singletons (w : Str) (hlen : 200 ≤ w.length)
    (hmax : w.length ≤ 1000) :
    popLoop 0 1 (w.map (fun c => ([c] : Str))) (w.length : Int) =
      ((w.drop (w.length - 200)).map (fun c => ([c] : Str)), 200) := by
  induction w with
  | nil => simp at hlen
  | cons c cs ih =>
    simp only [List.map_cons]
    rw [popLoop]
    simp only [ite_self, List.length_cons, List.length_map, List.length_nil,
      Nat.zero_add, chunkOverlap, chunkSize]
    split
    · next hcond =>
      have hgt : 200 < cs.length + 1 := by
        rcases hcond with hbig | ⟨hbig, _⟩ <;> (push_cast at hbig; omega)
      have hlen' : 200 ≤ cs.length := by omega
      have hmax' : cs.length ≤ 1000 := by
        simp only [List.length_cons] at hmax; omega
      push_cast
      norm_num
      rw [ih hlen' hmax']
      rw [show cs.length - 199 = (cs.length - 200) + 1 from by omega,
        List.drop_succ_cons]
      simp [List.map_drop]
    · next hcond =>
      have heq : cs.length + 1 = 200 := by
        simp only [List.length_cons] at hlen
        push_cast at hcond
        omega
      rw [show cs.length + 1 - 200 = 0 from by omega, List.drop_zero,
        List.map_cons, heq]
      norm_num

/-- Helper for C4: `_merge_splits` over single-character whitespace-free
splits is the 1000/200 sliding window process. -/
theorem mergeGo_win (v : Str) :
    ∀ (u : Str) (docs : List Str), u.length ≤ 1000 →
      (∀ c ∈ u, isPySpace c = false) → (∀ c ∈ v, isPySpace c = false) →
      mergeGo [] (v.map (fun c => ([c] : Str))) docs
          (u.map (fun c => ([c] : Str))) (u.length : Int) =
        docs ++ winGo u v := by
  induction v with
  | nil =>
    intro u docs hu hwsu _
    simp only [List.map_nil, mergeGo, winGo]
    rw [joinDocs_singletons u hwsu]
    split <;> simp
  | cons c v ih =>
    intro u docs hu hwsu hwsv
    have hwsc : isPySpace c = false := hwsv c (List.mem_cons_self _ _)
    have hwsv' : ∀ x ∈ v, isPySpace x = false :=
      fun x hx => hwsv x (List.mem_cons_of_mem _ hx)
    simp only [List.map_cons, mergeGo, List.length_nil, List.length_singleton,
      List.length_map, ite_self, Nat.cast_zero, Nat.cast_one, add_zero]
    split
    · next hcond =>
      have hfull : u.length = 1000 := by
        simp only [chunkSize] at hcond
        rcases hcond with ⟨hbig, hpos⟩
        push_cast at hbig
        omega
      have hune : u ≠ [] := by
        intro h; rw [h] at hfull; simp at hfull
      rw [joinDocs_singletons u hwsu, if_neg hune]
      rw [popLoop_singletons u (by omega) hu]
      have hwsu' : ∀ x ∈ u.drop 800 ++ [c], isPySpace x = false := by
        intro x hx
        rcases List.mem_append.mp hx with h1 | h2
        · exact hwsu x (List.mem_of_mem_drop h1)
        · simp at h2; rw [h2]; exact hwsc
      have hwin : winGo u (c :: v) = u :: winGo (u.drop 800 ++ [c]) v := by
        rw [winGo, if_pos hfull]
      rw [hwin, show docs ++ (u :: winGo (u.drop 800 ++ [c]) v) =
        (docs ++ [u]) ++ winGo (u.drop 800 ++ [c]) v from by simp]
      rw [hfull]
      convert ih (u.drop 800 ++ [c]) (docs ++ [u])
        (by simp [List.length_drop, hfull]) hwsu' hwsv' using 2
      · simp
      · simp [List.length_drop, hfull]
    · next hcond =>
      have hlt : u.length < 1000 := by
        simp only [chunkSize] at hcond
        rw [not_and_or] at hcond
        rcases hcond with hbig | hpos
        · push_cast at hbig; omega
        · rcases Nat.eq_zero_or_pos u.length with h0 | hp
          · omega
          · exact absurd hp hpos
      have hwsu' : ∀ x ∈ u ++ [c], isPySpace x = false := by
        intro x hx
        rcases List.mem_append.mp hx with h1 | h2
        · exact hwsu x h1
        · simp at h2; rw [h2]; exact hwsc
      have hwin : winGo u (c :: v) = winGo (u ++ [c]) v := by
        rw [winGo, if_neg (by omega)]
      rw [hwin]
      convert ih (u ++ [c]) docs (by simp; omega) hwsu' hwsv' using 2
      · simp
      · simp

/-- Helper: a fold whose step appends each singleton document to the
accumulator. -/
theorem foldl_singleton_step (f : List Str × List Str → Str → List Str × List Str)
    (hf : ∀ A G (c : Char), f (A, G) [c] = (A, G ++ [[c]])) (w : Str) :
    ∀ A G : List Str,
      (w.map (fun c => ([c] : Str))).foldl f (A, G) =
        (A, G ++ w.map (fun c => ([c] : Str))) := by
  induction w with
  | nil => intro A G; simp
  | cons c cs ih =>
    intro A G
    simp only [List.map_cons, List.foldl_cons, hf]
    rw [ih A (G ++ [[c]])]
    simp

/-- Helper for C4: on nonempty whitespace-free text the splitter reaches
the empty separator, splits into single characters, and merges them. -/
theorem splitTextFuel_no_ws (fuel : Nat) (s : Str) (hne : s ≠ [])
    (hws : ∀ c ∈ s, isPySpace c = false) :
    splitTextFuel (fuel + 1) defaultSeparators s =
      mergeSplits [] (s.map (fun c => ([c] : Str))) := by
  rw [splitTextFuel]
  rw [chooseSep_no_ws s (defaultSeparators.getLastD []) hws]
  have hsplits : splitWithSep [] s = s.map (fun c => ([c] : Str)) := by
    unfold splitWithSep
    rw [if_pos rfl]
    apply List.filter_eq_self.mpr
    intro p hp
    obtain ⟨c, _, hc⟩ := List.mem_map.mp hp
    simp [← hc]
  simp only [hsplits]
  rw [foldl_singleton_step _ (fun A G c => by norm_num [chunkSize]) s [] []]
  have hmapne : s.map (fun c => ([c] : Str)) ≠ [] := by
    simpa using hne
  simp [hmapne]

/-- Helper for C4: the window process started on `u ++ v` produces the
`gWindows` chunks. -/
theorem winGo_gWindows (v : Str) :
    ∀ u : Str, 0 < u.length → u.length ≤ 1000 →
      winGo u v = gWindows (u ++ v) := by
  induction v with
  | nil =>
    intro u h0 h1000
    rw [winGo, List.append_nil, gWindows]
    rw [if_pos h1000, if_neg (by intro h; rw [h] at h0; simp at h0)]
  | cons c v ih =>
    intro u h0 h1000
    rw [winGo]
    by_cases hfull : u.length = 1000
    · rw [if_pos hfull]
      conv_rhs => rw [gWindows]
      rw [if_neg (by
        simp only [List.length_append, List.length_cons, hfull]
        omega)]
      have htake : (u ++ c :: v).take 1000 = u := by
        rw [← hfull, List.take_left]
      have hdrop : (u ++ c :: v).drop 800 = u.drop 800 ++ c :: v := by
        rw [List.drop_append_of_le_length (by omega)]
      rw [htake, hdrop,
        ih (u.drop 800 ++ [c]) (by simp) (by simp [List.length_drop, hfull])]
      simp
    · rw [if_neg hfull, ih (u ++ [c]) (by simp) (by simp; omega)]
      simp

/-- Helper for C4: the chunk count of the window process. -/
theorem gWindows_length (s : Str) (h0 : 0 < s.length) :
    (gWindows s).length =
      if s.length ≤ 1000 then 1 else (s.length - 200 + 799) / 800 := by
  by_cases h : s.length ≤ 1000
  · rw [gWindows, if_pos h, if_pos h]
    rfl
  · rw [gWindows, if_neg h, if_neg h]
    have hrec := gWindows_length (s.drop 800)
      (by simp only [List.length_drop]; omega)
    simp only [List.length_cons, hrec, List.length_drop]
    split <;> omega
termination_by s.length
decreasing_by
  simp only [List.length_drop]
  omega

/-- Helper for C4: `split_text` on nonempty whitespace-free text is the
1000/200 sliding window decomposition. -/
theorem split_text_no_ws (s : Str) (hne : s ≠ [])
    (hws : ∀ c ∈ s, isPySpace c = false) :
    split_text s = gWindows s := by
  have h1 : split_text s = mergeSplits [] (s.map (fun c => ([c] : Str))) :=
    splitTextFuel_no_ws defaultSeparators.length s hne hws
  rw [h1]
  unfold mergeSplits
  have h2 := mergeGo_win s [] [] (by simp) (by simp) hws
  simp only [List.map_nil, List.length_nil, Nat.cast_zero] at h2
  rw [h2]
  cases s with
  | nil => exact absurd rfl hne
  | cons c cs =>
    rw [winGo, if_neg (by simp)]
    simp only [List.nil_append]
    rw [winGo_gWindows cs [c] (by simp) (by simp)]
    simp

/-- Helper for C4: the chunk windows of a 2400-character text are
0–1000, 800–1800 and 1600–2400. -/
theorem gWindows_replicate_2400 :
    gWindows (List.replicate 2400 'a') =
      [List.replicate 1000 'a', List.replicate 1000 'a',
       List.replicate 800 'a'] := by
  rw [gWindows]
  norm_num [List.take_replicate, List.drop_replicate]
  rw [gWindows]
  norm_num [List.take_replicate, List.drop_replicate]
  rw [gWindows]
  norm_num

/-- Helper for C4: a single-page crawl of a page whose body is exactly the
nonempty text `T` renders the page once, stores one artifact named from
the URL path, accumulates the chunks of `T`, leaves the frontier empty and
terminates in the done state. -/
theorem c4_scenario_run (T : Str) (hT : pyStrip T ≠ []) :
    crawl_website (onePageEnv "https://c4.test/page".data (textOnlyPage T))
        "https://c4.test/page".data "c4" 3 =
      ⟨.done (split_text T),
       ⟨["https://c4.test/page".data], [], split_text T,
        ["https://c4.test/page".data], ["https://c4.test/page".data],
        [("scraped_pages/c4/pages/page.md", T)]⟩, true, true⟩ := by
  have hem : extractTextFromHtml (textOnlyPage T) = (T, textOnlyPage T) := by
    show (T ++ [], textOnlyPage T) = (T, textOnlyPage T)
    rw [List.append_nil]
  have hpcs :
      processContentAndStore
          (onePageEnv "https://c4.test/page".data (textOnlyPage T)) "c4"
          "https://c4.test/page".data T [] (some (textOnlyPage T)) =
        .ok (split_text T, some ("scraped_pages/c4/pages/page.md", T)) := by
    unfold processContentAndStore
    rw [if_neg hT]
    rfl
  have hn : normalize_url "https://c4.test/page".data =
      "https://c4.test/page".data := by decide
  have hrender : (onePageEnv "https://c4.test/page".data
      (textOnlyPage T)).render "https://c4.test/page".data =
      some (textOnlyPage T) := by
    simp [onePageEnv]
  have heaq : ∀ bd : Str,
      extractAndQueueLinks (textOnlyPage T) "https://c4.test/page".data bd
        ["https://c4.test/page".data] [] = ([], none) := fun _ => rfl
  have hloop : ∀ bd : Str,
      crawlLoop (onePageEnv "https://c4.test/page".data (textOnlyPage T))
          "c4" bd 3 (initState "https://c4.test/page".data) =
        (.done (split_text T),
         ⟨["https://c4.test/page".data], [], split_text T,
          ["https://c4.test/page".data], ["https://c4.test/page".data],
          [("scraped_pages/c4/pages/page.md", T)]⟩) := by
    intro bd
    show crawlLoop _ _ _ (2 + 1) _ = _
    rw [crawlLoop]
    dsimp only [initState]
    rw [hn]
    rw [if_neg (by simp)]
    rw [if_neg (by decide)]
    rw [if_neg (by decide)]
    rw [hrender]
    dsimp only
    rw [hem]
    dsimp only
    rw [if_neg hT]
    rw [hpcs]
    dsimp only [List.nil_append, Option.toList]
    rw [heaq bd]
    dsimp only
    show crawlLoop _ _ _ (1 + 1) _ = _
    rw [crawlLoop]
  have hassemble :
      crawl_website (onePageEnv "https://c4.test/page".data (textOnlyPage T))
          "https://c4.test/page".data "c4" 3 =
        ⟨(crawlLoop (onePageEnv "https://c4.test/page".data (textOnlyPage T))
            "c4" (get_domain "https://c4.test/page".data) 3
            (initState "https://c4.test/page".data)).1,
         (crawlLoop (onePageEnv "https://c4.test/page".data (textOnlyPage T))
            "c4" (get_domain "https://c4.test/page".data) 3
            (initState "https://c4.test/page".data)).2, true, true⟩ := rfl
  rw [hassemble, hloop (get_domain "https://c4.test/page".data)]

/-- C4 counterexample: for text of length `L ≤ 1000` the splitter does NOT
always produce one chunk equal to the whole text — `_join_docs` strips
whitespace (`strip_whitespace=True`), so the two-character text `"a "`
yields the single chunk `"a"`, not `"a "`. -/
theorem chunking_claim_counterexample :
    split_text "a ".data = ["a".data] ∧ split_text "a ".data ≠ ["a ".data] := by
  constructor <;> decide

/-- C4 amended: on whitespace-free text the claimed counts hold exactly:
one chunk equal to the whole text when `L ≤ 1000`, and
`ceil((L-200)/800) = (L-200+799)/800` chunks following the 1000-wide /
800-stride sliding window when `L > 1000` (texts containing whitespace may
additionally have chunk-edge whitespace stripped).  The end-to-end
scenario holds as claimed: a single page whose body text is exactly 2400
characters yields one persisted artifact, the three chunks covering
characters 0–1000, 800–1800 and 1600–2400, an empty frontier, and
termination in the DONE state. -/
theorem chunking_amended (s : Str) (hne : s ≠ [])
    (hws : ∀ c ∈ s, isPySpace c = false) :
    (s.length ≤ 1000 → split_text s = [s]) ∧
    (1000 < s.length →
      split_text s = gWindows s ∧
      (split_text s).length = (s.length - 200 + 799) / 800) ∧
    crawl_website (onePageEnv "https://c4.test/page".data
        (textOnlyPage (List.replicate 2400 'a')))
        "https://c4.test/page".data "c4" 3 =
      ⟨.done [List.replicate 1000 'a', List.replicate 1000 'a',
              List.replicate 800 'a'],
       ⟨["https://c4.test/page".data], [],
        [List.replicate 1000 'a', List.replicate 1000 'a',
         List.replicate 800 'a'],
        ["https://c4.test/page".data], ["https://c4.test/page".data],
        [("scraped_pages/c4/pages/page.md", List.replicate 2400 'a')]⟩,
       true, true⟩ := by
  have hws24 : ∀ c ∈ List.replicate 2400 'a', isPySpace c = false := by
    intro c hc
    rw [List.eq_of_mem_replicate hc]
    rfl
  have hne24 : (List.replicate 2400 'a' : Str) ≠ [] := by
    intro h
    have hl := congrArg List.length h
    rw [List.length_replicate, List.length_nil] at hl
    exact absurd hl (by decide)
  have hT24 : pyStrip (List.replicate 2400 'a') ≠ [] := by
    rw [pyStrip_no_ws _ hws24]
    exact hne24
  refine ⟨?_, ?_, ?_⟩
  · intro hle
    rw [split_text_no_ws s hne hws, gWindows, if_pos hle]
  · intro hgt
    refine ⟨split_text_no_ws s hne hws, ?_⟩
    rw [split_text_no_ws s hne hws, gWindows_length s (by omega),
      if_neg (by omega)]
  · rw [c4_scenario_run (List.replicate 2400 'a') hT24,
      split_text_no_ws _ hne24 hws24, gWindows_replicate_2400]

/-- C4 witness: the amended chunking theorem applied to the concrete
whitespace-free text `abc` (length 3 ≤ 1000): one chunk, the whole
text. -/
theorem chunking_amended_witness :
    split_text "abc".data = ["abc".data] :=
  (chunking_amended "abc".data (by decide) (by decide)).1 (by decide)

/-- C7: canonicalization never raises.  `normalize_url` and `get_domain`
are total functions of the input string (the `try`/`except` in
`utils/url_utils.py` catches every parser exception inside the function,
so nothing propagates to the caller), and on parse failure they fail soft:
`normalize_url` returns the input string unchanged, and `get_domain`
returns the empty domain token. -/
theorem canonicalization_never_raises (u : Str) :
    (∀ e : Unit, urlparseE u = .error e → normalize_url u = u) ∧
    (∀ e : Unit, httpxParseE u = .error e → get_domain u = []) := by
  constructor
  · intro e h
    unfold normalize_url
    rw [h]
  · intro e h
    unfold get_domain
    rw [h]

/-- C7 witness: `http://[x` (unmatched bracket) fails `urllib` parsing and
is passed through `normalize_url` unchanged; `http://h:9x/` (non-digit
port) fails `httpx` parsing and gets the empty domain token. -/
theorem canonicalization_never_raises_witness :
    normalize_url "http://[x".data = "http://[x".data ∧
    get_domain "http://h:9x/".data = [] :=
  ⟨(canonicalization_never_raises "http://[x".data).1 () (by rfl),
   (canonicalization_never_raises "http://h:9x/".data).2 () (by rfl)⟩

/-! ### C6 lemma stack, stage 1: character-level facts -/

/-- Helper: the code point of a valid scalar value below the surrogates. -/
theorem char_toNat_ofNat (n : Nat) (h : n < 0xd800) :
    (Char.ofNat n).toNat = n := by
  unfold Char.ofNat
  rw [dif_pos (Or.inl h)]
  rfl

/-- Helper: characters with equal code points are equal. -/
theorem char_eq_of_toNat (a b : Char) (h : a.toNat = b.toNat) : a = b :=
  Char.eq_of_val_eq (UInt32.ext h)

/-- Helper: every character's code point is below 0x110000, and never a
surrogate. -/
theorem char_valid_ranges (c : Char) :
    c.toNat < 0xd800 ∨ (0xdfff < c.toNat ∧ c.toNat < 0x110000) := by
  have hv : c.toNat = c.val.toNat := rfl
  rcases c.valid with h | h
  · left; omega
  · right; omega

/-- Helper: the value of `lowerCh` on an upper-case letter. -/
theorem lowerCh_upper (c : Char) (h : 'A' ≤ c ∧ c ≤ 'Z') :
    lowerCh c = Char.ofNat (c.toNat + 32) := by
  unfold lowerCh
  rw [if_pos h]

/-- Helper: the value of `lowerCh` outside the upper-case range. -/
theorem lowerCh_other (c : Char) (h : ¬ ('A' ≤ c ∧ c ≤ 'Z')) :
    lowerCh c = c := by
  unfold lowerCh
  rw [if_neg h]

/-- Helper: `Char` order is the code-point order. -/
theorem char_le_char (a b : Char) (h : a.toNat ≤ b.toNat) : a ≤ b := h

/-- Helper: ASCII lower-casing is idempotent. -/
theorem lowerCh_idem (c : Char) : lowerCh (lowerCh c) = lowerCh c := by
  by_cases h : 'A' ≤ c ∧ c ≤ 'Z'
  · have h1 : (65 : Nat) ≤ c.toNat := h.1
    have h2 : c.toNat ≤ (90 : Nat) := h.2
    have ht : (Char.ofNat (c.toNat + 32)).toNat = c.toNat + 32 :=
      char_toNat_ofNat _ (by omega)
    rw [lowerCh_upper c h, lowerCh_other]
    intro hcontra
    have h3 : (65 : Nat) ≤ (Char.ofNat (c.toNat + 32)).toNat := hcontra.1
    have h4 : (Char.ofNat (c.toNat + 32)).toNat ≤ (90 : Nat) := hcontra.2
    omega
  · simp only [lowerCh_other c h]

/-- Helper: lower-casing preserves scheme characters. -/
theorem lowerCh_schemeChar (c : Char) (h : isSchemeChar c = true) :
    isSchemeChar (lowerCh c) = true := by
  by_cases hu : 'A' ≤ c ∧ c ≤ 'Z'
  · have h1 : (65 : Nat) ≤ c.toNat := hu.1
    have h2 : c.toNat ≤ (90 : Nat) := hu.2
    have ht : (Char.ofNat (c.toNat + 32)).toNat = c.toNat + 32 :=
      char_toNat_ofNat _ (by omega)
    rw [lowerCh_upper c hu]
    unfold isSchemeChar
    simp only [Bool.or_eq_true, Bool.and_eq_true, decide_eq_true_eq]
    refine Or.inl (Or.inl (Or.inl (Or.inl (Or.inl ⟨?_, ?_⟩))))
    · exact char_le_char _ _ (by
        rw [ht, show ('a' : Char).toNat = 97 from rfl]
        omega)
    · exact char_le_char _ _ (by
        rw [ht, show ('z' : Char).toNat = 122 from rfl]
        omega)
  · rw [lowerCh_other c hu]
    exact h

/-- Helper: lower-casing maps ASCII letters to lower-case ASCII letters. -/
theorem lowerCh_alpha (c : Char) (h : isAsciiAlpha c = true) :
    isAsciiAlpha (lowerCh c) = true := by
  by_cases hu : 'A' ≤ c ∧ c ≤ 'Z'
  · have h1 : (65 : Nat) ≤ c.toNat := hu.1
    have h2 : c.toNat ≤ (90 : Nat) := hu.2
    have ht : (Char.ofNat (c.toNat + 32)).toNat = c.toNat + 32 :=
      char_toNat_ofNat _ (by omega)
    rw [lowerCh_upper c hu]
    unfold isAsciiAlpha
    simp only [Bool.or_eq_true, Bool.and_eq_true, decide_eq_true_eq]
    refine Or.inl ⟨?_, ?_⟩
    · exact char_le_char _ _ (by
        rw [ht, show ('a' : Char).toNat = 97 from rfl]
        omega)
    · exact char_le_char _ _ (by
        rw [ht, show ('z' : Char).toNat = 122 from rfl]
        omega)
  · rw [lowerCh_other c hu]
    exact h

/-- Helper: the code-point facts shared by all always-safe characters. -/
theorem alwaysSafe_toNat (c : Char) (h : alwaysSafe c = true) :
    0x20 < c.toNat ∧ c.toNat < 0x80 ∧ c.toNat ≠ 35 ∧ c.toNat ≠ 63 ∧
    c.toNat ≠ 58 ∧ c.toNat ≠ 47 ∧ c.toNat ≠ 38 ∧ c.toNat ≠ 61 ∧
    c.toNat ≠ 37 ∧ c.toNat ≠ 43 ∧ c.toNat ≠ 59 ∧ c.toNat ≠ 64 ∧
    c.toNat ≠ 91 ∧ c.toNat ≠ 93 := by
  unfold alwaysSafe at h
  simp only [Bool.or_eq_true, Bool.and_eq_true, decide_eq_true_eq] at h
  rcases h with (((((⟨a1, a2⟩ | ⟨a1, a2⟩) | ⟨a1, a2⟩) | he) | he) | he) | he
  · have b1 : (97 : Nat) ≤ c.toNat := a1
    have b2 : c.toNat ≤ (122 : Nat) := a2
    omega
  · have b1 : (65 : Nat) ≤ c.toNat := a1
    have b2 : c.toNat ≤ (90 : Nat) := a2
    omega
  · have b1 : (48 : Nat) ≤ c.toNat := a1
    have b2 : c.toNat ≤ (57 : Nat) := a2
    omega
  · have hb := congrArg Char.toNat he
    rw [show ('_' : Char).toNat = 95 from rfl] at hb
    omega
  · have hb := congrArg Char.toNat he
    rw [show ('.' : Char).toNat = 46 from rfl] at hb
    omega
  · have hb := congrArg Char.toNat he
    rw [show ('-' : Char).toNat = 45 from rfl] at hb
    omega
  · have hb := congrArg Char.toNat he
    rw [show ('~' : Char).toNat = 126 from rfl] at hb
    omega

/-- Helper: characters with different code points differ. -/
theorem char_ne_of_toNat_ne (a b : Char) (h : a.toNat ≠ b.toNat) : a ≠ b :=
  fun he => h (congrArg Char.toNat he)

/-- Helper: every byte of the UTF-8 encoding is below 256. -/
theorem utf8Encode_lt_256 (c : Char) (b : Nat) (hb : b ∈ utf8Encode c) :
    b < 256 := by
  have hval : c.toNat < 0x110000 := by
    rcases char_valid_ranges c with h | h
    · omega
    · omega
  unfold utf8Encode at hb
  dsimp only at hb
  split at hb
  next h1 =>
    simp only [List.mem_singleton] at hb
    omega
  next h1 =>
    split at hb
    next h2 =>
      simp only [List.mem_cons, List.mem_singleton, List.not_mem_nil,
        or_false] at hb
      rcases hb with hb | hb <;> omega
    next h2 =>
      split at hb
      next h3 =>
        simp only [List.mem_cons, List.mem_singleton, List.not_mem_nil,
          or_false] at hb
        rcases hb with hb | hb | hb <;> omega
      next h3 =>
        simp only [List.mem_cons, List.mem_singleton, List.not_mem_nil,
          or_false] at hb
        rcases hb with hb | hb | hb | hb <;> omega

/-- Helper: upper-case hex digits are always-safe characters. -/
theorem hexDigUpper_safe (n : Nat) (h : n < 16) :
    alwaysSafe (hexDigUpper n) = true := by
  unfold hexDigUpper alwaysSafe
  split
  next h10 =>
    have ht : (Char.ofNat ('0'.toNat + n)).toNat = '0'.toNat + n :=
      char_toNat_ofNat _ (by
        rw [show ('0' : Char).toNat = 48 from rfl]
        omega)
    simp only [Bool.or_eq_true, Bool.and_eq_true, decide_eq_true_eq]
    refine Or.inl (Or.inl (Or.inl (Or.inl (Or.inr ⟨?_, ?_⟩))))
    · exact char_le_char _ _ (by
        rw [ht]
        omega)
    · exact char_le_char _ _ (by
        rw [ht, show ('9' : Char).toNat = 57 from rfl,
          show ('0' : Char).toNat = 48 from rfl]
        omega)
  next h10 =>
    have ht : (Char.ofNat ('A'.toNat + n - 10)).toNat = 'A'.toNat + n - 10 :=
      char_toNat_ofNat _ (by
        rw [show ('A' : Char).toNat = 65 from rfl]
        omega)
    simp only [Bool.or_eq_true, Bool.and_eq_true, decide_eq_true_eq]
    refine Or.inl (Or.inl (Or.inl (Or.inl (Or.inl (Or.inr ⟨?_, ?_⟩)))))
    · exact char_le_char _ _ (by
        rw [ht]
        omega)
    · exact char_le_char _ _ (by
        rw [ht, show ('Z' : Char).toNat = 90 from rfl,
          show ('A' : Char).toNat = 65 from rfl]
        omega)

/-- Helper: every character of a `quote_plus` encoding is always-safe, a
`+`, or a `%`. -/
theorem quotePlus_alphabet (v : Str) (c : Char) (hc : c ∈ quotePlus v) :
    alwaysSafe c = true ∨ c = '+' ∨ c = '%' := by
  unfold quotePlus at hc
  rw [List.mem_flatMap] at hc
  obtain ⟨a, _, hmem⟩ := hc
  by_cases h1 : alwaysSafe a
  · rw [if_pos h1, List.mem_singleton] at hmem
    subst hmem
    exact Or.inl h1
  · rw [if_neg h1] at hmem
    by_cases h2 : a = ' '
    · rw [if_pos h2, List.mem_singleton] at hmem
      subst hmem
      exact Or.inr (Or.inl rfl)
    · rw [if_neg h2, List.mem_flatMap] at hmem
      obtain ⟨b, hb, hcm⟩ := hmem
      have hb256 : b < 256 := utf8Encode_lt_256 a b hb
      unfold pctByte at hcm
      simp only [List.mem_cons, List.mem_singleton, List.not_mem_nil,
        or_false] at hcm
      rcases hcm with h | h | h
      · subst h
        exact Or.inr (Or.inr rfl)
      · subst h
        exact Or.inl (hexDigUpper_safe _ (by omega))
      · subst h
        exact Or.inl (hexDigUpper_safe _ (by omega))

/-- Helper: a character of an encoded `k=v` field is quote-safe or `=`. -/
theorem field_alphabet (kv : Str × Str) (c : Char)
    (hc : c ∈ quotePlus kv.1 ++ '=' :: quotePlus kv.2) :
    alwaysSafe c = true ∨ c = '+' ∨ c = '%' ∨ c = '=' ∨ c = '&' := by
  rcases List.mem_append.mp hc with h | h
  · rcases quotePlus_alphabet kv.1 c h with h | h | h
    · exact Or.inl h
    · exact Or.inr (Or.inl h)
    · exact Or.inr (Or.inr (Or.inl h))
  · rcases List.mem_cons.mp h with h | h
    · exact Or.inr (Or.inr (Or.inr (Or.inl h)))
    · rcases quotePlus_alphabet kv.2 c h with h2 | h2 | h2
      · exact Or.inl h2
      · exact Or.inr (Or.inl h2)
      · exact Or.inr (Or.inr (Or.inl h2))

/-- Helper: the characters an `urlencode` output can contain. -/
theorem urlencode_alphabet (items : List (Str × Str)) (c : Char)
    (hc : c ∈ urlencode items) :
    alwaysSafe c = true ∨ c = '+' ∨ c = '%' ∨ c = '=' ∨ c = '&' := by
  induction items with
  | nil => simp [urlencode, List.intercalate] at hc
  | cons kv rest ih =>
    cases rest with
    | nil =>
      have hu : urlencode [kv] = quotePlus kv.1 ++ '=' :: quotePlus kv.2 := by
        simp [urlencode, List.intercalate]
      rw [hu] at hc
      exact field_alphabet kv c hc
    | cons kv2 rest2 =>
      have hu : urlencode (kv :: kv2 :: rest2) =
          (quotePlus kv.1 ++ '=' :: quotePlus kv.2) ++ ['&'] ++
            urlencode (kv2 :: rest2) := by
        unfold urlencode
        rw [List.map_cons, List.map_cons, intercalate_cons₂']
      rw [hu] at hc
      rcases List.mem_append.mp hc with h | h
      · rcases List.mem_append.mp h with h2 | h2
        · exact field_alphabet kv c h2
        · rw [List.mem_singleton] at h2
          exact Or.inr (Or.inr (Or.inr (Or.inr h2)))
      · exact ih h

/-! ### C6 lemma stack, stage 2: UTF-8 round trip -/

/-- Helper: decoding the encoding of one character yields that character
and consumes exactly its continuation bytes. -/
theorem utf8Step_encode (c : Char) (rest : List Nat) :
    ∃ b bs, utf8Encode c = b :: bs ∧ utf8Step b (bs ++ rest) = ([c], bs.length) := by
  have hval := char_valid_ranges c
  by_cases h1 : c.toNat < 0x80
  · refine ⟨c.toNat, [], ?_, ?_⟩
    · unfold utf8Encode
      dsimp only
      rw [if_pos h1]
    · unfold utf8Step
      rw [if_pos h1, Char.ofNat_toNat]
      rfl
  · by_cases h2 : c.toNat < 0x800
    · refine ⟨0xC0 + c.toNat / 64, [0x80 + c.toNat % 64], ?_, ?_⟩
      · unfold utf8Encode
        dsimp only
        rw [if_neg h1, if_pos h2]
      · simp only [List.cons_append, List.nil_append]
        unfold utf8Step
        rw [if_neg (by omega),
          if_pos (show (0xC2 : Nat) ≤ 0xC0 + c.toNat / 64 ∧
            0xC0 + c.toNat / 64 ≤ (0xDF : Nat) by omega)]
        dsimp only
        rw [if_pos (show isContByte (0x80 + c.toNat % 64) = true by
          unfold isContByte
          simp only [Bool.and_eq_true, decide_eq_true_eq]
          omega)]
        rw [show (0xC0 + c.toNat / 64 - 0xC0) * 64 +
            (0x80 + c.toNat % 64 - 0x80) = c.toNat from by omega,
          Char.ofNat_toNat]
        rfl
    · by_cases h3 : c.toNat < 0x10000
      · refine ⟨0xE0 + c.toNat / 4096,
          [0x80 + c.toNat / 64 % 64, 0x80 + c.toNat % 64], ?_, ?_⟩
        · unfold utf8Encode
          dsimp only
          rw [if_neg h1, if_neg h2, if_pos h3]
        · simp only [List.cons_append, List.nil_append]
          unfold utf8Step
          rw [if_neg (by omega), if_neg (by omega),
            if_pos (show (0xE0 : Nat) ≤ 0xE0 + c.toNat / 4096 ∧
              0xE0 + c.toNat / 4096 ≤ (0xEF : Nat) by omega)]
          dsimp only
          rw [if_pos (show
            (if (0xE0 + c.toNat / 4096 : Nat) = 0xE0 then (0xA0 : Nat) else 0x80) ≤
              0x80 + c.toNat / 64 % 64 ∧
            0x80 + c.toNat / 64 % 64 ≤
              (if (0xE0 + c.toNat / 4096 : Nat) = 0xED then (0x9F : Nat) else 0xBF)
            from by constructor <;> split <;> omega)]
          rw [if_pos (show isContByte (0x80 + c.toNat % 64) = true by
            unfold isContByte
            simp only [Bool.and_eq_true, decide_eq_true_eq]
            omega)]
          rw [show (0xE0 + c.toNat / 4096 - 0xE0) * 4096 +
              (0x80 + c.toNat / 64 % 64 - 0x80) * 64 +
              (0x80 + c.toNat % 64 - 0x80) = c.toNat from by omega,
            Char.ofNat_toNat]
          rfl
      · refine ⟨0xF0 + c.toNat / 262144,
          [0x80 + c.toNat / 4096 % 64, 0x80 + c.toNat / 64 % 64,
           0x80 + c.toNat % 64], ?_, ?_⟩
        · unfold utf8Encode
          dsimp only
          rw [if_neg h1, if_neg h2, if_neg h3]
        · simp only [List.cons_append, List.nil_append]
          unfold utf8Step
          rw [if_neg (by omega), if_neg (by omega), if_neg (by omega),
            if_pos (show (0xF0 : Nat) ≤ 0xF0 + c.toNat / 262144 ∧
              0xF0 + c.toNat / 262144 ≤ (0xF4 : Nat) by omega)]
          dsimp only
          rw [if_pos (show
            (if (0xF0 + c.toNat / 262144 : Nat) = 0xF0 then (0x90 : Nat) else 0x80) ≤
              0x80 + c.toNat / 4096 % 64 ∧
            0x80 + c.toNat / 4096 % 64 ≤
              (if (0xF0 + c.toNat / 262144 : Nat) = 0xF4 then (0x8F : Nat) else 0xBF)
            from by constructor <;> split <;> omega)]
          rw [if_pos (show isContByte (0x80 + c.toNat / 64 % 64) = true by
            unfold isContByte
            simp only [Bool.and_eq_true, decide_eq_true_eq]
            omega)]
          rw [if_pos (show isContByte (0x80 + c.toNat % 64) = true by
            unfold isContByte
            simp only [Bool.and_eq_true, decide_eq_true_eq]
            omega)]
          rw [show (0xF0 + c.toNat / 262144 - 0xF0) * 262144 +
              (0x80 + c.toNat / 4096 % 64 - 0x80) * 4096 +
              (0x80 + c.toNat / 64 % 64 - 0x80) * 64 +
              (0x80 + c.toNat % 64 - 0x80) = c.toNat from by omega,
            Char.ofNat_toNat]
          rfl

/-- Helper: the fuelled UTF-8 decoder inverts the encoder when the fuel
covers the character count. -/
theorem utf8DecGo_encode (l : Str) :
    ∀ fuel : Nat, l.length ≤ fuel →
      utf8DecGo fuel (l.flatMap utf8Encode) = l := by
  induction l with
  | nil =>
    intro fuel _
    cases fuel with
    | zero => rfl
    | succ f => rfl
  | cons c cs ih =>
    intro fuel hf
    cases fuel with
    | zero => simp at hf
    | succ f =>
      obtain ⟨b, bs, henc, hstep⟩ := utf8Step_encode c (cs.flatMap utf8Encode)
      rw [List.flatMap_cons, henc, List.cons_append, utf8DecGo, hstep]
      simp only [List.drop_left]
      rw [ih f (by simpa using hf)]
      rfl

/-- Helper: each character contributes at least one byte. -/
theorem length_le_flatMap_utf8 (l : Str) :
    l.length ≤ (l.flatMap utf8Encode).length := by
  induction l with
  | nil => simp
  | cons c cs ih =>
    obtain ⟨b, bs, henc, _⟩ := utf8Step_encode c []
    rw [List.flatMap_cons, henc]
    simp only [List.length_append, List.length_cons]
    omega

/-- Helper: lossy UTF-8 decoding inverts UTF-8 encoding. -/
theorem utf8Dec_encode (l : Str) : utf8Dec (l.flatMap utf8Encode) = l := by
  unfold utf8Dec
  exact utf8DecGo_encode l _ (length_le_flatMap_utf8 l)

/-! ### C6 lemma stack, stage 3: quote/unquote round trip -/

/-- Helper: upper-case hex digits decode back to their value. -/
theorem hexDigUpper_roundtrip (n : Nat) (h : n < 16) :
    isHexDig (hexDigUpper n) = true ∧ hexVal (hexDigUpper n) = n := by
  interval_cases n <;> exact ⟨by decide, by decide⟩

/-- Helper: a non-`%` head character contributes its own code point. -/
theorem percentRunToBytes_cons (c : Char) (rest : Str) (h : c ≠ '%') :
    percentRunToBytes (c :: rest) = c.toNat :: percentRunToBytes rest := by
  rw [percentRunToBytes.eq_def]
  split
  next heq => exact absurd heq (by simp)
  next a b r heq =>
    injection heq with h1 _
    exact absurd h1 h
  next c2 r hne heq =>
    injection heq with h1 h2
    rw [h1, h2]

/-- Helper: a percent triple decodes to its byte. -/
theorem percentRunToBytes_pct (b : Nat) (hb : b < 256) (rest : Str) :
    percentRunToBytes (pctByte b ++ rest) = b :: percentRunToBytes rest := by
  obtain ⟨hh1, hv1⟩ := hexDigUpper_roundtrip (b / 16) (by omega)
  obtain ⟨hh2, hv2⟩ := hexDigUpper_roundtrip (b % 16) (by omega)
  unfold pctByte
  simp only [List.cons_append, List.nil_append]
  rw [percentRunToBytes.eq_def]
  split
  next heq => exact absurd heq (by simp)
  next a b2 r heq =>
    injection heq with h1 h2
    injection h2 with h2a h2b
    injection h2b with h2c h2d
    subst h2a
    subst h2c
    subst h2d
    rw [if_pos (by rw [hh1, hh2]; rfl), hv1, hv2]
    congr 1
    omega
  next c2 r hne heq =>
    injection heq with h1 h2
    exact (hne (hexDigUpper (b / 16)) (hexDigUpper (b % 16)) rest
      h1.symm h2.symm).elim

/-- Helper: the bytes of all percent triples of an encoding decode back. -/
theorem percentRunToBytes_pcts (bytes : List Nat) (hb : ∀ b ∈ bytes, b < 256)
    (rest : Str) :
    percentRunToBytes (bytes.flatMap pctByte ++ rest) =
      bytes ++ percentRunToBytes rest := by
  induction bytes with
  | nil => simp
  | cons b bs ih =>
    rw [List.flatMap_cons, List.append_assoc,
      percentRunToBytes_pct b (hb b (by simp)) _,
      ih (fun x hx => hb x (by simp [hx]))]
    rfl

/-- Helper: a map that fixes every element of a list is the identity. -/
theorem map_id_of_mem (f : Char → Char) (l : Str) (h : ∀ x ∈ l, f x = x) :
    l.map f = l := by
  induction l with
  | nil => rfl
  | cons a as ih =>
    rw [List.map_cons, h a (by simp), ih (fun x hx => h x (by simp [hx]))]

/-- Helper: `quote_plus` unfolds one character at a time. -/
theorem quotePlus_cons (c : Char) (cs : Str) :
    quotePlus (c :: cs) =
      (if alwaysSafe c then [c]
       else if c = ' ' then ['+']
       else (utf8Encode c).flatMap pctByte) ++ quotePlus cs := by
  unfold quotePlus
  rw [List.flatMap_cons]

/-- Helper: the plus-to-space image of a `quote_plus` encoding, decomposed
per source character. -/
theorem quotePlus_mapPlus (v : Str) :
    (quotePlus v).map (fun c => if c = '+' then ' ' else c) =
      v.flatMap (fun c =>
        if alwaysSafe c then [c]
        else if c = ' ' then [' ']
        else (utf8Encode c).flatMap pctByte) := by
  induction v with
  | nil => rfl
  | cons c cs ih =>
    rw [quotePlus_cons, List.map_append, ih, List.flatMap_cons]
    congr 1
    by_cases h1 : alwaysSafe c
    · rw [if_pos h1, if_pos h1, List.map_cons, List.map_nil, if_neg]
      exact char_ne_of_toNat_ne c '+' (by
        have hf := alwaysSafe_toNat c h1
        rw [show ('+' : Char).toNat = 43 from rfl]
        omega)
    · rw [if_neg h1, if_neg h1]
      by_cases h2 : c = ' '
      · rw [if_pos h2, if_pos h2]
        rfl
      · rw [if_neg h2, if_neg h2]
        apply map_id_of_mem
        intro x hx
        rw [List.mem_flatMap] at hx
        obtain ⟨b, hb, hxb⟩ := hx
        have hb256 := utf8Encode_lt_256 c b hb
        unfold pctByte at hxb
        simp only [List.mem_cons, List.mem_singleton, List.not_mem_nil,
          or_false] at hxb
        rcases hxb with h | h | h
        · subst h
          rfl
        · subst h
          rw [if_neg]
          exact char_ne_of_toNat_ne _ '+' (by
            have hf := alwaysSafe_toNat _ (hexDigUpper_safe (b / 16) (by omega))
            rw [show ('+' : Char).toNat = 43 from rfl]
            omega)
        · subst h
          rw [if_neg]
          exact char_ne_of_toNat_ne _ '+' (by
            have hf := alwaysSafe_toNat _ (hexDigUpper_safe (b % 16) (by omega))
            rw [show ('+' : Char).toNat = 43 from rfl]
            omega)

/-- Helper: `takeWhile` keeps a list all of whose elements satisfy the
predicate. -/
theorem takeWhile_eq_self_of_all (p : Char → Bool) (s : Str)
    (h : ∀ c ∈ s, p c = true) : s.takeWhile p = s := by
  induction s with
  | nil => rfl
  | cons c cs ih =>
    rw [List.takeWhile_cons, if_pos (h c (by simp)),
      ih (fun x hx => h x (by simp [hx]))]

/-- Helper: `dropWhile` drops a list all of whose elements satisfy the
predicate. -/
theorem dropWhile_eq_nil_of_all (p : Char → Bool) (s : Str)
    (h : ∀ c ∈ s, p c = true) : s.dropWhile p = [] := by
  induction s with
  | nil => rfl
  | cons c cs ih =>
    rw [List.dropWhile_cons, if_pos (h c (by simp)),
      ih (fun x hx => h x (by simp [hx]))]

/-- Helper: the fuelled unquote driver on the empty string. -/
theorem pyUnquoteGo_nil (fuel : Nat) : pyUnquoteGo fuel [] = [] := by
  cases fuel with
  | zero => rfl
  | succ f => rfl

/-- Helper: `unquote` of an all-ASCII string percent-decodes the whole
string as one run. -/
theorem pyUnquote_ascii (s : Str) (h : ∀ c ∈ s, isAsciiCh c = true) :
    pyUnquote s = utf8Dec (percentRunToBytes s) := by
  cases s with
  | nil => rfl
  | cons c cs =>
    unfold pyUnquote
    rw [show (c :: cs).length = cs.length + 1 from rfl, pyUnquoteGo,
      if_pos (h c (by simp)), takeWhile_eq_self_of_all _ _ h,
      dropWhile_eq_nil_of_all _ _ h, pyUnquoteGo_nil, List.append_nil]

/-- Helper: percent-decoding the per-character chunks of a plus-decoded
`quote_plus` image yields the UTF-8 bytes of the original text. -/
theorem percentRun_chunks (v : Str) :
    percentRunToBytes (v.flatMap (fun c =>
        if alwaysSafe c then [c]
        else if c = ' ' then [' ']
        else (utf8Encode c).flatMap pctByte)) =
      v.flatMap utf8Encode := by
  induction v with
  | nil => rfl
  | cons c cs ih =>
    rw [List.flatMap_cons, List.flatMap_cons]
    by_cases h1 : alwaysSafe c
    · rw [if_pos h1]
      have hf := alwaysSafe_toNat c h1
      rw [List.cons_append, List.nil_append,
        percentRunToBytes_cons c _ (char_ne_of_toNat_ne c '%' (by
          rw [show ('%' : Char).toNat = 37 from rfl]
          omega)), ih]
      rw [show utf8Encode c = [c.toNat] from by
        unfold utf8Encode
        dsimp only
        rw [if_pos (by omega)]]
      rfl
    · rw [if_neg h1]
      by_cases h2 : c = ' '
      · rw [if_pos h2, List.cons_append, List.nil_append,
          percentRunToBytes_cons _ _ (by decide), ih, h2]
        rfl
      · rw [if_neg h2,
          percentRunToBytes_pcts _ (fun b hb => utf8Encode_lt_256 c b hb) _,
          ih]

/-- Helper: every character of a plus-decoded `quote_plus` image is
ASCII. -/
theorem chunks_ascii (v : Str) (c2 : Char)
    (hc : c2 ∈ v.flatMap (fun c =>
        if alwaysSafe c then [c]
        else if c = ' ' then [' ']
        else (utf8Encode c).flatMap pctByte)) :
    isAsciiCh c2 = true := by
  rw [List.mem_flatMap] at hc
  obtain ⟨a, _, hmem⟩ := hc
  unfold isAsciiCh
  simp only [decide_eq_true_eq]
  by_cases h1 : alwaysSafe a
  · rw [if_pos h1, List.mem_singleton] at hmem
    subst hmem
    have hf := alwaysSafe_toNat _ h1
    omega
  · rw [if_neg h1] at hmem
    by_cases h2 : a = ' '
    · rw [if_pos h2, List.mem_singleton] at hmem
      subst hmem
      rw [show (' ' : Char).toNat = 32 from rfl]
      omega
    · rw [if_neg h2, List.mem_flatMap] at hmem
      obtain ⟨b, hb, hcm⟩ := hmem
      have hb256 := utf8Encode_lt_256 a b hb
      unfold pctByte at hcm
      simp only [List.mem_cons, List.mem_singleton, List.not_mem_nil,
        or_false] at hcm
      rcases hcm with h | h | h
      · subst h
        rw [show ('%' : Char).toNat = 37 from rfl]
        omega
      · subst h
        have hf := alwaysSafe_toNat _ (hexDigUpper_safe (b / 16) (by omega))
        omega
      · subst h
        have hf := alwaysSafe_toNat _ (hexDigUpper_safe (b % 16) (by omega))
        omega

/-- Helper: `unquote_plus` inverts `quote_plus`. -/
theorem pyUnquotePlus_quotePlus (v : Str) :
    pyUnquotePlus (quotePlus v) = v := by
  unfold pyUnquotePlus
  rw [quotePlus_mapPlus, pyUnquote_ascii _ (chunks_ascii v),
    percentRun_chunks]
  exact utf8Dec_encode v

/-- Helper: `utf8Step` always emits at least one character. -/
theorem utf8Step_fst_ne_nil (b : Nat) (bs : List Nat) :
    (utf8Step b bs).1 ≠ [] := by
  unfold utf8Step
  repeat'
    first
    | simp
    | split

/-- Helper: percent-decoding a nonempty run yields at least one byte. -/
theorem percentRunToBytes_ne_nil (l : Str) (h : l ≠ []) :
    percentRunToBytes l ≠ [] := by
  rw [percentRunToBytes.eq_def]
  split
  · exact absurd rfl h
  · split <;> simp
  · simp

/-- Helper: decoding a nonempty byte list yields a nonempty string. -/
theorem utf8Dec_ne_nil (l : List Nat) (h : l ≠ []) : utf8Dec l ≠ [] := by
  cases l with
  | nil => exact absurd rfl h
  | cons b bs =>
    unfold utf8Dec
    rw [show (b :: bs).length = bs.length + 1 from rfl, utf8DecGo]
    intro hcontra
    exact utf8Step_fst_ne_nil b bs (List.append_eq_nil.mp hcontra).1

/-- Helper: `unquote` of a nonempty string is nonempty. -/
theorem pyUnquote_ne_nil (s : Str) (h : s ≠ []) : pyUnquote s ≠ [] := by
  cases s with
  | nil => exact absurd rfl h
  | cons c cs =>
    unfold pyUnquote
    rw [show (c :: cs).length = cs.length + 1 from rfl, pyUnquoteGo]
    split
    next hA =>
      intro hcontra
      rcases List.append_eq_nil.mp hcontra with ⟨hl, _⟩
      refine utf8Dec_ne_nil _ (percentRunToBytes_ne_nil _ ?_) hl
      rw [List.takeWhile_cons, if_pos hA]
      simp
    next hA => simp

/-- Helper: `unquote_plus` of a nonempty string is nonempty. -/
theorem pyUnquotePlus_ne_nil (v : Str) (h : v ≠ []) :
    pyUnquotePlus v ≠ [] := by
  unfold pyUnquotePlus
  apply pyUnquote_ne_nil
  simpa using h

/-! ### C6 lemma stack, stage 4: parse_qsl inverts urlencode -/

/-- Helper: `quote_plus` output contains neither `=` nor `&`. -/
theorem quotePlus_ne_eq_amp (v : Str) (c : Char) (hc : c ∈ quotePlus v) :
    c ≠ '=' ∧ c ≠ '&' := by
  rcases quotePlus_alphabet v c hc with h | h | h
  · have hf := alwaysSafe_toNat c h
    constructor
    · exact char_ne_of_toNat_ne c '=' (by
        rw [show ('=' : Char).toNat = 61 from rfl]
        omega)
    · exact char_ne_of_toNat_ne c '&' (by
        rw [show ('&' : Char).toNat = 38 from rfl]
        omega)
  · subst h
    exact ⟨by decide, by decide⟩
  · subst h
    exact ⟨by decide, by decide⟩

/-- Helper: `quote_plus` of a nonempty string is nonempty. -/
theorem quotePlus_ne_nil (v : Str) (h : v ≠ []) : quotePlus v ≠ [] := by
  cases v with
  | nil => exact absurd rfl h
  | cons c cs =>
    rw [quotePlus_cons]
    intro hcontra
    rcases List.append_eq_nil.mp hcontra with ⟨h1, _⟩
    by_cases hs : alwaysSafe c
    · rw [if_pos hs] at h1
      simp at h1
    · rw [if_neg hs] at h1
      by_cases hsp : c = ' '
      · rw [if_pos hsp] at h1
        simp at h1
      · rw [if_neg hsp] at h1
        obtain ⟨b, bs, henc, _⟩ := utf8Step_encode c []
        rw [henc, List.flatMap_cons] at h1
        rcases List.append_eq_nil.mp h1 with ⟨h2, _⟩
        unfold pctByte at h2
        simp at h2

/-- Helper: `takeWhile` stops exactly at the first failing element. -/
theorem takeWhile_append_cons (p : Char → Bool) (x : Str) (s : Char) (z : Str)
    (hx : ∀ c ∈ x, p c = true) (hs : p s = false) :
    (x ++ s :: z).takeWhile p = x := by
  induction x with
  | nil => simp [List.takeWhile_cons, hs]
  | cons a as ih =>
    rw [List.cons_append, List.takeWhile_cons, if_pos (hx a (by simp)),
      ih (fun c hc => hx c (by simp [hc]))]

/-- Helper: dropping past a marker element. -/
theorem drop_append_cons (x : Str) (s : Char) (z : Str) :
    (x ++ s :: z).drop (x.length + 1) = z := by
  rw [← List.drop_drop, List.drop_left]
  rfl

/-- Helper: splitting a separator-free string is the identity. -/
theorem splitOnChar_all (sep : Char) (x : Str)
    (hx : ∀ c ∈ x, c ≠ sep) : splitOnChar sep x = [x] := by
  induction x with
  | nil => rfl
  | cons c cs ih =>
    rw [splitOnChar.eq_def]
    dsimp only
    rw [ih (fun c2 hc2 => hx c2 (by simp [hc2]))]
    rw [if_neg (hx c (by simp))]

/-- Helper: splitting consumes the first separator occurrence. -/
theorem splitOnChar_append (sep : Char) (x : Str) (z : Str)
    (hx : ∀ c ∈ x, c ≠ sep) :
    splitOnChar sep (x ++ sep :: z) = x :: splitOnChar sep z := by
  induction x with
  | nil =>
    rw [List.nil_append, splitOnChar.eq_def]
    dsimp only
    rw [if_pos rfl]
  | cons c cs ih =>
    rw [List.cons_append, splitOnChar.eq_def]
    dsimp only
    rw [ih (fun c2 hc2 => hx c2 (by simp [hc2]))]
    rw [if_neg (hx c (by simp))]

/-- Helper: an encoded field is never empty. -/
theorem field_ne_nil (k v : Str) :
    quotePlus k ++ '=' :: quotePlus v ≠ [] := by
  simp

/-- Helper: one encoded field is accepted by the `parse_qsl` field filter
and unquotes to its source pair. -/
theorem parse_qsl_field (k v : Str) (hv : v ≠ []) :
    (if (quotePlus k ++ '=' :: quotePlus v : Str) = []
     then (none : Option (Str × Str))
     else
       let name := (quotePlus k ++ '=' :: quotePlus v).takeWhile
         (fun c => c ≠ '=')
       if name.length = (quotePlus k ++ '=' :: quotePlus v).length then none
       else
         let value := (quotePlus k ++ '=' :: quotePlus v).drop
           (name.length + 1)
         if value = [] then none
         else some (pyUnquotePlus name, pyUnquotePlus value)) =
      some (k, v) := by
  have hqv : quotePlus v ≠ [] := quotePlus_ne_nil v hv
  have hname : (quotePlus k ++ '=' :: quotePlus v).takeWhile
      (fun c => (c ≠ '=' : Bool)) = quotePlus k := by
    apply takeWhile_append_cons
    · intro c hc
      simp only [decide_eq_true_eq]
      exact (quotePlus_ne_eq_amp k c hc).1
    · simp
  rw [if_neg (field_ne_nil k v)]
  dsimp only
  rw [hname]
  rw [if_neg (by
    simp only [List.length_append, List.length_cons]
    omega)]
  rw [drop_append_cons]
  rw [if_neg hqv]
  rw [pyUnquotePlus_quotePlus, pyUnquotePlus_quotePlus]

/-- Helper: `urlencode` of a nonempty item list is nonempty. -/
theorem urlencode_cons_ne_nil (kv : Str × Str) (rest : List (Str × Str)) :
    urlencode (kv :: rest) ≠ [] := by
  cases rest with
  | nil =>
    rw [show urlencode [kv] = quotePlus kv.1 ++ '=' :: quotePlus kv.2 from by
      simp [urlencode, List.intercalate]]
    simp
  | cons a b =>
    rw [show urlencode (kv :: a :: b) =
        (quotePlus kv.1 ++ '=' :: quotePlus kv.2) ++ '&' ::
          urlencode (a :: b) from by
      unfold urlencode
      rw [List.map_cons, List.map_cons, intercalate_cons₂']
      simp [List.append_assoc]]
    simp

/-- Helper: `parse_qsl` inverts `urlencode` on pair lists with nonempty
values. -/
theorem parse_qsl_urlencode (items : List (Str × Str))
    (hv : ∀ kv ∈ items, kv.2 ≠ []) :
    parse_qsl (urlencode items) = items := by
  induction items with
  | nil => rfl
  | cons kv rest ih =>
    have hfield : ∀ c ∈ quotePlus kv.1 ++ '=' :: quotePlus kv.2, c ≠ '&' := by
      intro c hc
      rcases List.mem_append.mp hc with h | h
      · exact (quotePlus_ne_eq_amp kv.1 c h).2
      · rcases List.mem_cons.mp h with h | h
        · subst h
          decide
        · exact (quotePlus_ne_eq_amp kv.2 c h).2
    cases rest with
    | nil =>
      have hu : urlencode [kv] = quotePlus kv.1 ++ '=' :: quotePlus kv.2 := by
        simp [urlencode, List.intercalate]
      rw [hu]
      unfold parse_qsl
      rw [if_neg (field_ne_nil kv.1 kv.2)]
      rw [splitOnChar_all '&' _ hfield, List.filterMap_cons,
        parse_qsl_field kv.1 kv.2 (hv kv (by simp))]
      rfl
    | cons kv2 rest2 =>
      have hu : urlencode (kv :: kv2 :: rest2) =
          (quotePlus kv.1 ++ '=' :: quotePlus kv.2) ++ '&' ::
            urlencode (kv2 :: rest2) := by
        unfold urlencode
        rw [List.map_cons, List.map_cons, intercalate_cons₂']
        simp [List.append_assoc]
      rw [hu]
      unfold parse_qsl
      rw [if_neg (by simp)]
      rw [splitOnChar_append '&' _ _ hfield, List.filterMap_cons,
        parse_qsl_field kv.1 kv.2 (hv kv (by simp))]
      have hrest := ih (fun kv3 h3 => hv kv3 (by simp [h3]))
      unfold parse_qsl at hrest
      rw [if_neg (urlencode_cons_ne_nil kv2 rest2)] at hrest
      rw [hrest]

/-! ### C6 lemma stack, stage 5: parse_qs grouping and item sorting -/

/-- Helper: updating a dict under a fresh key appends a new entry. -/
theorem qsUpdate_new_key (D : List (Str × List Str)) (k : Str) (v : Str)
    (h : ∀ e ∈ D, e.1 ≠ k) : qsUpdate D k v = D ++ [(k, [v])] := by
  induction D with
  | nil => rfl
  | cons e rest ih =>
    cases e with
    | mk k0 vs0 =>
      show (if k0 = k then (k0, vs0 ++ [v]) :: rest
            else (k0, vs0) :: qsUpdate rest k v) = _
      rw [if_neg (h (k0, vs0) (by simp)),
        ih (fun e he => h e (by simp [he]))]
      rfl

/-- Helper: updating a dict whose matching entry is last appends there. -/
theorem qsUpdate_last_key (D : List (Str × List Str)) (k : Str)
    (a : List Str) (v : Str) (h : ∀ e ∈ D, e.1 ≠ k) :
    qsUpdate (D ++ [(k, a)]) k v = D ++ [(k, a ++ [v])] := by
  induction D with
  | nil =>
    show (if k = k then (k, a ++ [v]) :: [] else (k, a) :: qsUpdate [] k v) = _
    rw [if_pos rfl]
    rfl
  | cons e rest ih =>
    cases e with
    | mk k0 vs0 =>
      show (if k0 = k then (k0, vs0 ++ [v]) :: (rest ++ [(k, a)])
            else (k0, vs0) :: qsUpdate (rest ++ [(k, a)]) k v) = _
      rw [if_neg (h (k0, vs0) (by simp)),
        ih (fun e he => h e (by simp [he]))]
      rfl

/-- Helper: folding the pairs of one key run onto its open entry. -/
theorem foldl_upd_run (k : Str) (vs : List Str) :
    ∀ (D : List (Str × List Str)) (a : List Str), (∀ e ∈ D, e.1 ≠ k) →
      (vs.map (fun v => (k, v))).foldl
        (fun acc kv => qsUpdate acc kv.1 kv.2) (D ++ [(k, a)]) =
      D ++ [(k, a ++ vs)] := by
  induction vs with
  | nil =>
    intro D a _
    simp
  | cons v vs2 ih =>
    intro D a h
    rw [List.map_cons, List.foldl_cons]
    dsimp only
    rw [qsUpdate_last_key D k a v h, ih D (a ++ [v]) h]
    simp

/-- Helper: folding a whole key run into a dict without that key. -/
theorem foldl_upd_first_run (k : Str) (vs : List Str) (hvs : vs ≠ [])
    (D : List (Str × List Str)) (h : ∀ e ∈ D, e.1 ≠ k) :
    (vs.map (fun v => (k, v))).foldl
      (fun acc kv => qsUpdate acc kv.1 kv.2) D = D ++ [(k, vs)] := by
  cases vs with
  | nil => exact absurd rfl hvs
  | cons v vs2 =>
    rw [List.map_cons, List.foldl_cons]
    dsimp only
    rw [qsUpdate_new_key D k v h, foldl_upd_run k vs2 D [v] h]
    rfl

/-- Helper: grouping the flattened pairs of a key-grouped list rebuilds
that list. -/
theorem foldl_upd_flat (KV : List (Str × List Str)) :
    ∀ D : List (Str × List Str),
      (∀ e ∈ KV, e.2 ≠ []) →
      List.Pairwise (fun a b : Str × List Str => a.1 ≠ b.1) KV →
      (∀ e ∈ KV, ∀ d ∈ D, d.1 ≠ e.1) →
      (KV.flatMap (fun e => e.2.map (fun v => (e.1, v)))).foldl
        (fun acc kv => qsUpdate acc kv.1 kv.2) D = D ++ KV := by
  induction KV with
  | nil =>
    intro D _ _ _
    simp
  | cons e rest ih =>
    intro D hvals hpw hdisj
    obtain ⟨hhead, htail⟩ := List.pairwise_cons.mp hpw
    rw [List.flatMap_cons, List.foldl_append,
      foldl_upd_first_run e.1 e.2 (hvals e (by simp)) D
        (fun d hd => hdisj e (by simp) d hd),
      ih (D ++ [(e.1, e.2)]) (fun e2 h2 => hvals e2 (by simp [h2])) htail]
    · simp
    · intro e2 h2 d hd
      rcases List.mem_append.mp hd with h | h
      · exact hdisj e2 (by simp [h2]) d h
      · rw [List.mem_singleton] at h
        subst h
        exact hhead e2 h2

/-- Helper: dict lookup at the head key. -/
theorem lookup_cons_self (k : Str) (b : List Str)
    (es : List (Str × List Str)) :
    List.lookup k ((k, b) :: es) = some b := by
  simp [List.lookup]

/-- Helper: dict lookup skips a non-matching head. -/
theorem lookup_cons_ne (k a : Str) (b : List Str)
    (es : List (Str × List Str)) (h : k ≠ a) :
    List.lookup k ((a, b) :: es) = List.lookup k es := by
  simp only [List.lookup]
  rw [show (k == a) = false from by simp [h]]

/-- Helper: every `parse_qsl` pair has a nonempty value. -/
theorem parse_qsl_values_ne_nil (q : Str) (kv : Str × Str)
    (h : kv ∈ parse_qsl q) : kv.2 ≠ [] := by
  unfold parse_qsl at h
  split at h
  · simp at h
  · rw [List.mem_filterMap] at h
    obtain ⟨nv, _, hf⟩ := h
    by_cases h1 : nv = []
    · rw [if_pos h1] at hf
      exact absurd hf (by simp)
    · rw [if_neg h1] at hf
      dsimp only at hf
      split at hf
      · exact absurd hf (by simp)
      · split at hf
        · exact absurd hf (by simp)
        next hval =>
          injection hf with hf2
          rw [← hf2]
          exact pyUnquotePlus_ne_nil _ hval

/-- Helper: keys of an updated dict are old keys or the new key. -/
theorem qsUpdate_key_mem (D : List (Str × List Str)) (k : Str) (v : Str) :
    ∀ e ∈ qsUpdate D k v, e.1 ∈ D.map Prod.fst ∨ e.1 = k := by
  induction D with
  | nil =>
    intro e he
    have he2 : e ∈ [(k, [v])] := he
    rw [List.mem_singleton] at he2
    subst he2
    right
    rfl
  | cons d rest ih =>
    cases d with
    | mk k0 vs0 =>
      intro e he
      by_cases hk : k0 = k
      · rw [show qsUpdate ((k0, vs0) :: rest) k v = (k0, vs0 ++ [v]) :: rest
          from by
            show (if k0 = k then (k0, vs0 ++ [v]) :: rest
                  else (k0, vs0) :: qsUpdate rest k v) = _
            rw [if_pos hk]] at he
        rcases List.mem_cons.mp he with h | h
        · subst h
          left
          simp
        · left
          rw [List.map_cons, List.mem_cons]
          right
          exact List.mem_map.mpr ⟨e, h, rfl⟩
      · rw [show qsUpdate ((k0, vs0) :: rest) k v =
            (k0, vs0) :: qsUpdate rest k v from by
            show (if k0 = k then (k0, vs0 ++ [v]) :: rest
                  else (k0, vs0) :: qsUpdate rest k v) = _
            rw [if_neg hk]] at he
        rcases List.mem_cons.mp he with h | h
        · subst h
          left
          simp
        · rcases ih e h with h2 | h2
          · left
            rw [List.map_cons, List.mem_cons]
            exact Or.inr h2
          · right
            exact h2

/-- Helper: one dict update preserves distinct keys, nonempty value lists
and nonempty value elements. -/
theorem qsUpdate_pres (D : List (Str × List Str)) (k : Str) (v : Str)
    (hpw : List.Pairwise (fun a b : Str × List Str => a.1 ≠ b.1) D)
    (hvals : ∀ e ∈ D, e.2 ≠ [] ∧ ∀ w ∈ e.2, w ≠ []) (hv : v ≠ []) :
    List.Pairwise (fun a b : Str × List Str => a.1 ≠ b.1) (qsUpdate D k v) ∧
    ∀ e ∈ qsUpdate D k v, e.2 ≠ [] ∧ ∀ w ∈ e.2, w ≠ [] := by
  induction D with
  | nil =>
    constructor
    · show List.Pairwise _ [(k, [v])]
      simp
    · intro e he
      have he2 : e ∈ [(k, [v])] := he
      rw [List.mem_singleton] at he2
      subst he2
      refine ⟨by simp, ?_⟩
      intro w hw
      rw [List.mem_singleton] at hw
      subst hw
      exact hv
  | cons d rest ih =>
    cases d with
    | mk k0 vs0 =>
      obtain ⟨hhead, htail⟩ := List.pairwise_cons.mp hpw
      by_cases hk : k0 = k
      · rw [show qsUpdate ((k0, vs0) :: rest) k v = (k0, vs0 ++ [v]) :: rest
          from by
            show (if k0 = k then (k0, vs0 ++ [v]) :: rest
                  else (k0, vs0) :: qsUpdate rest k v) = _
            rw [if_pos hk]]
        constructor
        · exact List.pairwise_cons.mpr ⟨fun e he => hhead e he, htail⟩
        · intro e he
          rcases List.mem_cons.mp he with h | h
          · subst h
            obtain ⟨_, hw0⟩ := hvals (k0, vs0) (by simp)
            refine ⟨by simp, ?_⟩
            intro w hw
            rcases List.mem_append.mp hw with h2 | h2
            · exact hw0 w h2
            · rw [List.mem_singleton] at h2
              subst h2
              exact hv
          · exact hvals e (by simp [h])
      · rw [show qsUpdate ((k0, vs0) :: rest) k v =
            (k0, vs0) :: qsUpdate rest k v from by
            show (if k0 = k then (k0, vs0 ++ [v]) :: rest
                  else (k0, vs0) :: qsUpdate rest k v) = _
            rw [if_neg hk]]
        obtain ⟨ihpw, ihvals⟩ := ih htail (fun e he => hvals e (by simp [he]))
        constructor
        · refine List.pairwise_cons.mpr ⟨?_, ihpw⟩
          intro e he
          rcases qsUpdate_key_mem rest k v e he with h2 | h2
          · rw [List.mem_map] at h2
            obtain ⟨e2, he2, hfst⟩ := h2
            rw [← hfst]
            exact hhead e2 he2
          · rw [h2]
            exact hk
        · intro e he
          rcases List.mem_cons.mp he with h | h
          · subst h
            exact hvals (k0, vs0) (by simp)
          · exact ihvals e h

/-- Helper: the grouping fold preserves the dict invariants. -/
theorem foldl_upd_pres (P : List (Str × Str)) :
    ∀ D : List (Str × List Str),
      (∀ kv ∈ P, kv.2 ≠ []) →
      List.Pairwise (fun a b : Str × List Str => a.1 ≠ b.1) D →
      (∀ e ∈ D, e.2 ≠ [] ∧ ∀ w ∈ e.2, w ≠ []) →
      List.Pairwise (fun a b : Str × List Str => a.1 ≠ b.1)
        (P.foldl (fun acc kv => qsUpdate acc kv.1 kv.2) D) ∧
      ∀ e ∈ P.foldl (fun acc kv => qsUpdate acc kv.1 kv.2) D,
        e.2 ≠ [] ∧ ∀ w ∈ e.2, w ≠ [] := by
  induction P with
  | nil =>
    intro D _ hpw hvals
    exact ⟨hpw, hvals⟩
  | cons kv rest ih =>
    intro D hsrc hpw hvals
    rw [List.foldl_cons]
    obtain ⟨h1, h2⟩ := qsUpdate_pres D kv.1 kv.2 hpw hvals (hsrc kv (by simp))
    exact ih _ (fun kv2 h => hsrc kv2 (by simp [h])) h1 h2

/-- Helper: the grouped query dict has distinct keys, nonempty value lists
and nonempty values. -/
theorem parse_qs_facts (q : Str) :
    List.Pairwise (fun a b : Str × List Str => a.1 ≠ b.1) (parse_qs q) ∧
    ∀ e ∈ parse_qs q, e.2 ≠ [] ∧ ∀ w ∈ e.2, w ≠ [] := by
  unfold parse_qs
  exact foldl_upd_pres (parse_qsl q) [] (parse_qsl_values_ne_nil q)
    (by simp) (by simp)

/-- Helper: `flatMap` respects pointwise equality on members. -/
theorem flatMap_congr_mem (f g : Str → List (Str × Str)) (l : List Str)
    (h : ∀ x ∈ l, f x = g x) : l.flatMap f = l.flatMap g := by
  induction l with
  | nil => rfl
  | cons a as ih =>
    rw [List.flatMap_cons, List.flatMap_cons, h a (by simp),
      ih (fun x hx => h x (by simp [hx]))]

/-- Helper: insertion sort fixes a sorted list. -/
theorem insertionSort_sorted_fix (l : List Str) (h : l.Sorted (· ≤ ·)) :
    List.insertionSort (· ≤ ·) l = l :=
  List.eq_of_perm_of_sorted (List.perm_insertionSort _ l)
    (List.sorted_insertionSort _ l) h

/-- Helper: looking up a member's key in a distinct-key dict finds its
value list. -/
theorem lookup_of_mem (d : List (Str × List Str)) (e : Str × List Str)
    (hpw : List.Pairwise (fun a b : Str × List Str => a.1 ≠ b.1) d)
    (he : e ∈ d) : d.lookup e.1 = some e.2 := by
  induction d with
  | nil => simp at he
  | cons d0 rest ih =>
    obtain ⟨hhead, htail⟩ := List.pairwise_cons.mp hpw
    cases d0 with
    | mk k0 vs0 =>
      rcases List.mem_cons.mp he with h | h
      · subst h
        exact lookup_cons_self _ _ _
      · rw [lookup_cons_ne e.1 k0 vs0 rest
          (fun hc => hhead e h (by rw [hc])), ih htail h]

/-- Helper: `sortedQueryItems` on an already key-sorted dict of sorted
value lists flattens it in place. -/
theorem sortedQueryItems_canonical (KV : List (Str × List Str))
    (hvals : ∀ e ∈ KV, e.2.Sorted (· ≤ ·))
    (hkeys : List.Pairwise (fun a b : Str × List Str => a.1 < b.1) KV) :
    sortedQueryItems KV =
      KV.flatMap (fun e => e.2.map (fun v => (e.1, v))) := by
  unfold sortedQueryItems
  have hk : List.insertionSort (· ≤ ·) (KV.map Prod.fst) = KV.map Prod.fst := by
    apply insertionSort_sorted_fix
    rw [List.Sorted, List.pairwise_map]
    exact hkeys.imp (fun h => le_of_lt h)
  rw [hk]
  clear hk
  induction KV with
  | nil => rfl
  | cons e rest ih =>
    cases e with
    | mk k0 vs0 =>
      obtain ⟨hhead, htail⟩ := List.pairwise_cons.mp hkeys
      rw [List.map_cons, List.flatMap_cons, List.flatMap_cons]
      congr 1
      · rw [lookup_cons_self]
        rw [show (some vs0).getD [] = vs0 from rfl,
          insertionSort_sorted_fix vs0 (hvals (k0, vs0) (by simp))]
      · rw [flatMap_congr_mem _
          (fun k => (List.insertionSort (· ≤ ·)
            ((rest.lookup k).getD [])).map (fun v => (k, v)))]
        · exact ih (fun e2 h2 => hvals e2 (by simp [h2])) htail
        · intro k hkmem
          rw [List.mem_map] at hkmem
          obtain ⟨e2, he2, hfst⟩ := hkmem
          rw [lookup_cons_ne k k0 vs0 rest (by
            rw [← hfst]
            exact fun hc => absurd (hc ▸ hhead e2 he2) (lt_irrefl _))]

/-- Helper: the canonical key-grouped list built by `normalize_url` from
any distinct-key dict: strictly sorted keys. -/
theorem KV_pairwise_lt (d : List (Str × List Str))
    (hpw : List.Pairwise (fun a b : Str × List Str => a.1 ≠ b.1) d) :
    List.Pairwise (fun a b : Str × List Str => a.1 < b.1)
      ((List.insertionSort (· ≤ ·) (d.map Prod.fst)).map
        (fun k => (k, List.insertionSort (· ≤ ·) ((d.lookup k).getD [])))) := by
  rw [List.pairwise_map]
  have hnd : (List.insertionSort (· ≤ ·) (d.map Prod.fst)).Nodup :=
    (List.perm_insertionSort (· ≤ ·) (d.map Prod.fst)).symm.nodup
      (List.pairwise_map.mpr hpw)
  have hs : (List.insertionSort (· ≤ ·) (d.map Prod.fst)).Sorted (· ≤ ·) :=
    List.sorted_insertionSort _ _
  have hlt := (List.Pairwise.and hs hnd).imp
    (fun hab => lt_of_le_of_ne hab.1 hab.2)
  exact hlt.imp (fun h => h)

/-- Helper: the canonical key-grouped list has nonempty value lists. -/
theorem KV_vals_ne_nil (d : List (Str × List Str))
    (hpw : List.Pairwise (fun a b : Str × List Str => a.1 ≠ b.1) d)
    (hvals : ∀ e ∈ d, e.2 ≠ [] ∧ ∀ w ∈ e.2, w ≠ []) :
    ∀ e ∈ (List.insertionSort (· ≤ ·) (d.map Prod.fst)).map
        (fun k => (k, List.insertionSort (· ≤ ·) ((d.lookup k).getD []))),
      e.2 ≠ [] := by
  intro e he
  rw [List.mem_map] at he
  obtain ⟨k, hk, heq⟩ := he
  subst heq
  have hk2 : k ∈ d.map Prod.fst :=
    (List.perm_insertionSort (· ≤ ·) (d.map Prod.fst)).mem_iff.mp hk
  rw [List.mem_map] at hk2
  obtain ⟨e0, he0, hfst⟩ := hk2
  rw [show k = e0.1 from hfst.symm, lookup_of_mem d e0 hpw he0]
  show List.insertionSort (· ≤ ·) ((some e0.2).getD []) ≠ []
  rw [show (some e0.2).getD [] = e0.2 from rfl]
  intro hcontra
  apply (hvals e0 he0).1
  have hperm : List.Perm e0.2 (List.insertionSort (· ≤ ·) e0.2) :=
    (List.perm_insertionSort _ _).symm
  rw [hcontra] at hperm
  exact List.Perm.eq_nil hperm

/-- Helper: every flattened pair of the canonical key-grouped list has a
nonempty value. -/
theorem KV_pair_vals_ne_nil (d : List (Str × List Str))
    (hpw : List.Pairwise (fun a b : Str × List Str => a.1 ≠ b.1) d)
    (hvals : ∀ e ∈ d, e.2 ≠ [] ∧ ∀ w ∈ e.2, w ≠ []) :
    ∀ kv ∈ ((List.insertionSort (· ≤ ·) (d.map Prod.fst)).map
        (fun k => (k, List.insertionSort (· ≤ ·)
          ((d.lookup k).getD [])))).flatMap
        (fun e => e.2.map (fun v => (e.1, v))),
      kv.2 ≠ [] := by
  intro kv hkv
  rw [List.mem_flatMap] at hkv
  obtain ⟨e, he, hkv2⟩ := hkv
  rw [List.mem_map] at he
  obtain ⟨k, hk, heq⟩ := he
  subst heq
  rw [List.mem_map] at hkv2
  obtain ⟨v, hv, hkveq⟩ := hkv2
  subst hkveq
  have hk2 : k ∈ d.map Prod.fst :=
    (List.perm_insertionSort (· ≤ ·) (d.map Prod.fst)).mem_iff.mp hk
  rw [List.mem_map] at hk2
  obtain ⟨e0, he0, hfst⟩ := hk2
  rw [show k = e0.1 from hfst.symm, lookup_of_mem d e0 hpw he0] at hv
  have hv2 : v ∈ e0.2 :=
    (List.perm_insertionSort (· ≤ ·) ((some e0.2).getD [])).mem_iff.mp hv
  exact (hvals e0 he0).2 v hv2

/-- Helper: the sorted items of a distinct-key dict survive an
encode/parse/regroup/resort round trip. -/
theorem canonItems_roundtrip (d : List (Str × List Str))
    (hpw : List.Pairwise (fun a b : Str × List Str => a.1 ≠ b.1) d)
    (hvals : ∀ e ∈ d, e.2 ≠ [] ∧ ∀ w ∈ e.2, w ≠ []) :
    parse_qsl (urlencode (sortedQueryItems d)) = sortedQueryItems d ∧
    sortedQueryItems ((sortedQueryItems d).foldl
      (fun acc kv => qsUpdate acc kv.1 kv.2) []) = sortedQueryItems d := by
  have hKVeq : sortedQueryItems d =
      ((List.insertionSort (· ≤ ·) (d.map Prod.fst)).map
        (fun k => (k, List.insertionSort (· ≤ ·)
          ((d.lookup k).getD [])))).flatMap
        (fun e => e.2.map (fun v => (e.1, v))) := by
    unfold sortedQueryItems
    rw [List.flatMap_map]
  constructor
  · rw [hKVeq, parse_qsl_urlencode _ (KV_pair_vals_ne_nil d hpw hvals)]
  · rw [hKVeq, foldl_upd_flat _ []
      (KV_vals_ne_nil d hpw hvals)
      ((KV_pairwise_lt d hpw).imp (fun h => ne_of_lt h))
      (by simp)]
    rw [List.nil_append]
    exact sortedQueryItems_canonical _
      (fun e he => by
        rw [List.mem_map] at he
        obtain ⟨k, _, heq⟩ := he
        subst heq
        exact List.sorted_insertionSort _ _)
      (KV_pairwise_lt d hpw)

/-- Helper: the canonical query string is a fixed point of
canonicalization. -/
theorem canonQuery_idem (q : Str) :
    canonQuery (canonQuery q) = canonQuery q := by
  obtain ⟨hpw, hvals⟩ := parse_qs_facts q
  obtain ⟨h1, h2⟩ := canonItems_roundtrip (parse_qs q) hpw hvals
  show urlencode (sortedQueryItems (parse_qs (canonQuery q))) = canonQuery q
  rw [show parse_qs (canonQuery q) = (parse_qsl (canonQuery q)).foldl
      (fun acc kv => qsUpdate acc kv.1 kv.2) [] from rfl]
  rw [show canonQuery q = urlencode (sortedQueryItems (parse_qs q)) from rfl]
  rw [h1, h2]

/-- C6 counterexample: normalization is NOT idempotent on every URL.  For
`http://////x` the first parse yields an empty netloc with path `////x`;
`urlunsplit` then skips the `//` re-insertion because the path already
starts with `//`, producing `http:////x`, which re-parses differently and
normalizes to `http://x`. -/
theorem normalize_idempotence_counterexample :
    normalize_url (normalize_url "http://////x".data) ≠
      normalize_url "http://////x".data := by
  decide

/-! ### C6 lemma stack, stage 6: splitScheme and splitparams stability -/

/-- Helper: `dropWhile` exposes a failing head. -/
theorem dropWhile_head_false (p : Char → Bool) (l : List Char) (c : Char)
    (r : List Char) (h : l.dropWhile p = c :: r) : p c = false := by
  induction l with
  | nil => simp at h
  | cons a as ih =>
    rw [List.dropWhile_cons] at h
    split at h
    · exact ih h
    · next hp =>
      injection h with h1 _
      subst h1
      simpa using hp

/-- Helper: `dropWhile` skips nothing when the head already fails. -/
theorem dropWhile_eq_self_of_head (p : Char → Bool) (l : List Char)
    (h : ∀ c r, l = c :: r → p c = false) : l.dropWhile p = l := by
  cases l with
  | nil => rfl
  | cons c r =>
    rw [List.dropWhile_cons, if_neg (by simp [h c r rfl])]

/-- Helper: `dropWhile` past a run up to a marker. -/
theorem dropWhile_append_cons (p : Char → Bool) (x : Str) (s : Char) (z : Str)
    (hx : ∀ c ∈ x, p c = true) (hs : p s = false) :
    (x ++ s :: z).dropWhile p = s :: z := by
  induction x with
  | nil => simp [List.dropWhile_cons, hs]
  | cons a as ih =>
    rw [List.cons_append, List.dropWhile_cons, if_pos (hx a (by simp)),
      ih (fun c hc => hx c (by simp [hc]))]

/-- Helper: a valid lower-case scheme splits back off cleanly. -/
theorem splitScheme_valid (s r : Str) (hne : s ≠ [])
    (halpha : isAsciiAlpha s.headI = true)
    (hchars : ∀ c ∈ s, isSchemeChar c = true)
    (hlow : s.map lowerCh = s) :
    splitScheme (s ++ ':' :: r) = (s, r) := by
  have hnc : ∀ c ∈ s, (c ≠ ':' : Bool) = true := by
    intro c hc
    simp only [decide_eq_true_eq]
    intro heq
    subst heq
    have := hchars ':' hc
    simp [isSchemeChar] at this
  unfold splitScheme
  rw [takeWhile_append_cons _ s ':' r hnc (by simp)]
  rw [if_pos ?_]
  · rw [hlow, drop_append_cons]
  · refine ⟨by simp, hne, halpha, ?_⟩
    rw [List.all_eq_true]
    exact hchars

/-- Helper: no scheme is split off when the head is not a letter. -/
theorem splitScheme_head_not_alpha (x : Str)
    (h : isAsciiAlpha x.headI = false) : splitScheme x = ([], x) := by
  unfold splitScheme
  rw [if_neg]
  intro hcond
  obtain ⟨_, hne, halpha, _⟩ := hcond
  cases x with
  | nil => exact hne rfl
  | cons c r =>
    rw [List.takeWhile_cons] at hne halpha
    by_cases hc : c = ':'
    · subst hc
      rw [if_neg (by simp)] at hne
      exact hne rfl
    · rw [if_pos (by simp [hc])] at halpha
      rw [show ((c :: r.takeWhile (fun c => (c ≠ ':' : Bool))).headI) = c
        from rfl] at halpha
      rw [show (c :: r).headI = c from rfl] at h
      rw [halpha] at h
      exact absurd h (by simp)

/-- Helper: no scheme is split off when no colon occurs. -/
theorem splitScheme_no_colon (x : Str) (h : ∀ c ∈ x, c ≠ ':') :
    splitScheme x = ([], x) := by
  unfold splitScheme
  rw [takeWhile_eq_self_of_all _ x (by
    intro c hc
    simp only [decide_eq_true_eq]
    exact h c hc)]
  rw [if_neg]
  intro hcond
  exact absurd hcond.1 (by simp)

/-- Helper: the leading strip is the identity when the head is above
0x20. -/
theorem dropWhile_ctrl_eq_self (l : Str)
    (h : ∀ c r, l = c :: r → 0x20 < c.toNat) :
    l.dropWhile (fun c => c.toNat ≤ 0x20) = l := by
  apply dropWhile_eq_self_of_head
  intro c r hl
  simp only [decide_eq_false_iff_not, not_le]
  exact h c r hl

/-- Helper: decompose a list at the first predicate failure. -/
theorem takeWhile_decomp (p : Char → Bool) (l : Str)
    (hne : l.dropWhile p ≠ []) :
    ∃ d r, l = l.takeWhile p ++ d :: r ∧ p d = false ∧
      l.dropWhile p = d :: r := by
  cases hdw : l.dropWhile p with
  | nil => exact absurd hdw hne
  | cons d r =>
    refine ⟨d, r, ?_, dropWhile_head_false p l d r hdw, rfl⟩
    conv_lhs => rw [← List.takeWhile_append_dropWhile (p := p) (l := l)]
    rw [hdw]

/-- Helper: a marker member makes `dropWhile` up to it nonempty. -/
theorem dropWhile_marker_ne_nil (a : Char) (l : Str) (h : a ∈ l) :
    l.dropWhile (fun c => c ≠ a) ≠ [] := by
  intro hcontra
  have htw : l.takeWhile (fun c => (c ≠ a : Bool)) = l := by
    conv_rhs => rw [← List.takeWhile_append_dropWhile
      (p := fun c => (c ≠ a : Bool)) (l := l)]
    rw [hcontra, List.append_nil]
  have := List.mem_takeWhile_imp (by rw [htw]; exact h)
  simp at this

/-- Helper: the tail after the last slash of an explicit decomposition. -/
theorem afterLastSlash_append (x y : Str) (hy : ∀ c ∈ y, c ≠ '/') :
    afterLastSlash (x ++ '/' :: y) = y := by
  unfold afterLastSlash
  rw [List.reverse_append, List.reverse_cons, List.append_assoc,
    List.singleton_append,
    takeWhile_append_cons _ y.reverse '/' x.reverse
      (by
        intro c hc
        simp only [decide_eq_true_eq]
        exact hy c (List.mem_reverse.mp hc))
      (by simp),
    List.reverse_reverse]

/-- Helper: the tail after the last slash of a slash-free string. -/
theorem afterLastSlash_free (x : Str) (hx : ∀ c ∈ x, c ≠ '/') :
    afterLastSlash x = x := by
  unfold afterLastSlash
  rw [takeWhile_eq_self_of_all _ x.reverse (by
      intro c hc
      simp only [decide_eq_true_eq]
      exact hx c (List.mem_reverse.mp hc)),
    List.reverse_reverse]

/-- Helper: decompose at the last slash. -/
theorem lastSlash_decomp (p0 : Str) (h : '/' ∈ p0) :
    ∃ front, p0 = front ++ '/' :: afterLastSlash p0 ∧
      ∀ c ∈ afterLastSlash p0, c ≠ '/' := by
  obtain ⟨d, r, hdec, hpd, _⟩ := takeWhile_decomp (fun c => (c ≠ '/' : Bool))
    p0.reverse (dropWhile_marker_ne_nil '/' p0.reverse
      (List.mem_reverse.mpr h))
  have hd : d = '/' := by simpa using hpd
  subst hd
  have htail : afterLastSlash p0 =
      (p0.reverse.takeWhile (fun c => (c ≠ '/' : Bool))).reverse := rfl
  refine ⟨r.reverse, ?_, ?_⟩
  · rw [htail]
    have h2 := congrArg List.reverse hdec
    rw [List.reverse_reverse, List.reverse_append, List.reverse_cons,
      List.append_assoc, List.singleton_append] at h2
    exact h2
  · intro c hc
    rw [htail, List.mem_reverse] at hc
    have := List.mem_takeWhile_imp hc
    simpa using this

/-- Helper: `splitparams` on a full path-semicolon decomposition with a
slash. -/
theorem splitparams_slash_semi (pre keep rest : Str)
    (hkeep1 : ∀ c ∈ keep, c ≠ '/') (hkeep2 : ∀ c ∈ keep, c ≠ ';')
    (hrest : ∀ c ∈ rest, c ≠ '/') :
    splitparams (pre ++ '/' :: (keep ++ ';' :: rest)) =
      (pre ++ '/' :: keep, rest) := by
  have hy : ∀ c ∈ keep ++ ';' :: rest, c ≠ '/' := by
    intro c hc
    rcases List.mem_append.mp hc with h | h
    · exact hkeep1 c h
    · rcases List.mem_cons.mp h with h | h
      · subst h
        decide
      · exact hrest c h
  unfold splitparams
  rw [if_pos (List.elem_iff.mpr (by simp))]
  dsimp only
  rw [afterLastSlash_append pre (keep ++ ';' :: rest) hy]
  rw [if_pos (List.elem_iff.mpr (by simp))]
  rw [takeWhile_append_cons _ keep ';' rest
    (by
      intro c hc
      simp only [decide_eq_true_eq]
      exact hkeep2 c hc)
    (by simp)]
  rw [drop_append_cons]
  have hlen : (pre ++ '/' :: (keep ++ ';' :: rest)).length -
      (keep ++ ';' :: rest).length = pre.length + 1 := by
    simp only [List.length_append, List.length_cons]
    omega
  rw [hlen, List.take_append 1]
  simp

/-- Helper: `splitparams` leaves the path alone when the final segment has
no semicolon. -/
theorem splitparams_no_semi_tail (x : Str) (h1 : '/' ∈ x)
    (h2 : ∀ c ∈ afterLastSlash x, c ≠ ';') :
    splitparams x = (x, []) := by
  unfold splitparams
  rw [if_pos (List.elem_iff.mpr h1)]
  dsimp only
  rw [if_neg (by
    intro hc
    have := List.elem_iff.mp hc
    exact h2 ';' this rfl)]

/-- Helper: `splitparams` on a slash-free semicolon decomposition. -/
theorem splitparams_no_slash (keep rest : Str)
    (hfree : ∀ c ∈ keep ++ ';' :: rest, c ≠ '/')
    (hkeep : ∀ c ∈ keep, c ≠ ';') :
    splitparams (keep ++ ';' :: rest) = (keep, rest) := by
  unfold splitparams
  rw [if_neg (by
    intro hc
    exact hfree '/' (List.elem_iff.mp hc) rfl)]
  dsimp only
  rw [takeWhile_append_cons _ keep ';' rest
    (by
      intro c hc
      simp only [decide_eq_true_eq]
      exact hkeep c hc)
    (by simp)]
  rw [drop_append_cons]

/-- Helper: a failing scheme split is preserved under replacing everything
after the candidate prefix by colon-free text. -/
theorem splitScheme_transfer (a b z : Str)
    (h : splitScheme (a ++ b) = ([], a ++ b))
    (hz : ∀ c ∈ z, c ≠ ':') :
    splitScheme (a ++ z) = ([], a ++ z) := by
  by_cases hca : ':' ∈ a
  · obtain ⟨d, r, hdec, hpd, _⟩ := takeWhile_decomp (fun c => (c ≠ ':' : Bool))
      a (dropWhile_marker_ne_nil ':' a hca)
    have hd : d = ':' := by simpa using hpd
    subst hd
    have htw : ∀ c ∈ a.takeWhile (fun c => (c ≠ ':' : Bool)),
        (c ≠ ':' : Bool) = true := by
      intro c hc
      exact List.mem_takeWhile_imp (p := fun c => (c ≠ ':' : Bool)) hc
    have hpre : ∀ w : Str, (a ++ w).takeWhile (fun c => (c ≠ ':' : Bool)) =
        a.takeWhile (fun c => (c ≠ ':' : Bool)) := by
      intro w
      conv_lhs => rw [hdec]
      rw [List.append_assoc, List.cons_append,
        takeWhile_append_cons _ _ ':' _ htw (by simp)]
    have hcond : ¬ ((a ++ b).takeWhile (fun c => (c ≠ ':' : Bool)) ≠ [] ∧
        isAsciiAlpha ((a ++ b).takeWhile
          (fun c => (c ≠ ':' : Bool))).headI = true ∧
        ((a ++ b).takeWhile (fun c => (c ≠ ':' : Bool))).all
          isSchemeChar = true) := by
      intro hcontra
      unfold splitScheme at h
      rw [if_pos ?_] at h
      · injection h with h1 _
        exact hcontra.1 (List.map_eq_nil_iff.mp h1)
      · refine ⟨?_, hcontra.1, hcontra.2.1, hcontra.2.2⟩
        rw [hpre b]
        have : a.length = (a.takeWhile
            (fun c => (c ≠ ':' : Bool))).length + 1 + r.length := by
          conv_lhs => rw [hdec]
          rw [List.length_append, List.length_cons]
          omega
        simp only [List.length_append]
        omega
    unfold splitScheme
    rw [if_neg]
    intro hcontra
    apply hcond
    rw [hpre b]
    rw [hpre z] at hcontra
    exact ⟨hcontra.2.1, hcontra.2.2.1, hcontra.2.2.2⟩
  · apply splitScheme_no_colon
    intro c hc
    rcases List.mem_append.mp hc with h2 | h2
    · intro heq
      subst heq
      exact hca h2
    · exact hz c h2

/-! ### C6 lemma stack, stage 7: reparsing an unsplit URL -/

/-- Helper: scheme characters are printable ASCII and none of the URL
delimiters. -/
theorem schemeChar_facts (c : Char) (h : isSchemeChar c = true) :
    0x20 < c.toNat ∧ c.toNat < 0x80 ∧ c.toNat ≠ 58 ∧ c.toNat ≠ 35 ∧
    c.toNat ≠ 63 ∧ c.toNat ≠ 47 := by
  unfold isSchemeChar at h
  simp only [Bool.or_eq_true, Bool.and_eq_true, decide_eq_true_eq] at h
  rcases h with ((((⟨a1, a2⟩ | ⟨a1, a2⟩) | ⟨a1, a2⟩) | he) | he) | he
  · have b1 : (97 : Nat) ≤ c.toNat := a1
    have b2 : c.toNat ≤ (122 : Nat) := a2
    omega
  · have b1 : (65 : Nat) ≤ c.toNat := a1
    have b2 : c.toNat ≤ (90 : Nat) := a2
    omega
  · have b1 : (48 : Nat) ≤ c.toNat := a1
    have b2 : c.toNat ≤ (57 : Nat) := a2
    omega
  · have hb := congrArg Char.toNat he
    rw [show ('+' : Char).toNat = 43 from rfl] at hb
    omega
  · have hb := congrArg Char.toNat he
    rw [show ('-' : Char).toNat = 45 from rfl] at hb
    omega
  · have hb := congrArg Char.toNat he
    rw [show ('.' : Char).toNat = 46 from rfl] at hb
    omega

/-- Helper: query-alphabet characters are printable and none of the URL
delimiters. -/
theorem queryChar_facts (c : Char)
    (h : alwaysSafe c = true ∨ c = '+' ∨ c = '%' ∨ c = '=' ∨ c = '&') :
    0x20 < c.toNat ∧ c.toNat ≠ 35 ∧ c.toNat ≠ 63 ∧ c.toNat ≠ 58 ∧
    c.toNat ≠ 47 := by
  rcases h with h | h | h | h | h
  · have hf := alwaysSafe_toNat c h
    omega
  all_goals
    subst h
    refine ⟨by decide, by decide, by decide, by decide, by decide⟩

/-- Helper: ASCII letters are printable. -/
theorem alpha_gt_space (c : Char) (h : isAsciiAlpha c = true) :
    0x20 < c.toNat := by
  unfold isAsciiAlpha at h
  simp only [Bool.or_eq_true, Bool.and_eq_true, decide_eq_true_eq] at h
  rcases h with ⟨a1, _⟩ | ⟨a1, _⟩
  · have b1 : (97 : Nat) ≤ c.toNat := a1
    omega
  · have b1 : (65 : Nat) ≤ c.toNat := a1
    omega

/-- Helper: a nested conditional collapses when the inner guard follows
from the outer one. -/
theorem if_nested_collapse {α : Type} (A B : Prop) [Decidable A]
    [Decidable B] (x y : α) (h : A → B) :
    (if A then if B then x else y else x) = x := by
  split
  · next ha => rw [if_pos (h ha)]
  · rfl

/-- Helper: re-splitting an authority-form URL without a scheme recovers
its components. -/
theorem urlsplitE_auth_noscheme (n p2 q2 : Str)
    (hnd : ∀ c ∈ n, isNetlocDelim c = false)
    (hnt : ∀ c ∈ n, c ≠ '\t' ∧ c ≠ '\r' ∧ c ≠ '\n')
    (hnb1 : n.contains '[' = n.contains ']')
    (hnb2 : n.contains '[' = true → n.contains ']' = true →
      bracketedHostOk (((n.dropWhile (fun c => c ≠ '[')).drop 1).takeWhile
        (fun c => c ≠ ']')) = true)
    (hp2 : ∀ c ∈ p2, c ≠ '#' ∧ c ≠ '?' ∧ c ≠ '\t' ∧ c ≠ '\r' ∧ c ≠ '\n')
    (hp2shape : p2 = [] ∨ ∃ t, p2 = '/' :: t)
    (hq : ∀ c ∈ q2, alwaysSafe c = true ∨ c = '+' ∨ c = '%' ∨ c = '=' ∨ c = '&') :
    urlsplitE ('/' :: '/' :: (n ++ (p2 ++
        (if q2 ≠ [] then '?' :: q2 else [])))) =
      .ok ⟨[], n, p2, q2, []⟩ := by
  have hqp : ∀ c ∈ (if q2 ≠ [] then '?' :: q2 else []),
      c ≠ '#' ∧ c ≠ '\t' ∧ c ≠ '\r' ∧ c ≠ '\n' := by
    intro c hc
    split at hc
    · rcases List.mem_cons.mp hc with h | h
      · subst h
        refine ⟨by decide, by decide, by decide, by decide⟩
      · obtain ⟨hgt, h35, _, _, _⟩ := queryChar_facts c (hq c h)
        refine ⟨char_ne_of_toNat_ne c '#' (by
            rw [show ('#' : Char).toNat = 35 from rfl]; omega), ?_, ?_, ?_⟩
        · exact char_ne_of_toNat_ne c '\t' (by
            rw [show ('\t' : Char).toNat = 9 from rfl]; omega)
        · exact char_ne_of_toNat_ne c '\r' (by
            rw [show ('\r' : Char).toNat = 13 from rfl]; omega)
        · exact char_ne_of_toNat_ne c '\n' (by
            rw [show ('\n' : Char).toNat = 10 from rfl]; omega)
    · simp at hc
  have htail : ∀ c ∈ p2 ++ (if q2 ≠ [] then '?' :: q2 else []),
      c ≠ '#' ∧ c ≠ '\t' ∧ c ≠ '\r' ∧ c ≠ '\n' := by
    intro c hc
    rcases List.mem_append.mp hc with h | h
    · obtain ⟨h1, _, h3, h4, h5⟩ := hp2 c h
      exact ⟨h1, h3, h4, h5⟩
    · exact hqp c h
  have hrest : ∃ tail0, (tail0 = p2 ++ (if q2 ≠ [] then '?' :: q2 else [])) ∧
      (n ++ (p2 ++ (if q2 ≠ [] then '?' :: q2 else []))).takeWhile
        (fun c => (¬ isNetlocDelim c : Bool)) = n ∧
      (n ++ (p2 ++ (if q2 ≠ [] then '?' :: q2 else []))).dropWhile
        (fun c => (¬ isNetlocDelim c : Bool)) = tail0 := by
    refine ⟨_, rfl, ?_, ?_⟩
    · rcases hp2shape with hp0 | ⟨t, hpt⟩
      · subst hp0
        by_cases hq2 : q2 = []
        · subst hq2
          simp only [ne_eq, not_true_eq_false, if_false, List.nil_append,
            List.append_nil]
          apply takeWhile_eq_self_of_all
          intro c hc
          simp [hnd c hc]
        · rw [if_pos hq2, List.nil_append]
          apply takeWhile_append_cons
          · intro c hc
            simp [hnd c hc]
          · simp [isNetlocDelim]
      · rw [hpt, List.cons_append]
        apply takeWhile_append_cons
        · intro c hc
          simp [hnd c hc]
        · simp [isNetlocDelim]
    · rcases hp2shape with hp0 | ⟨t, hpt⟩
      · subst hp0
        by_cases hq2 : q2 = []
        · subst hq2
          simp only [ne_eq, not_true_eq_false, if_false, List.nil_append,
            List.append_nil]
          apply dropWhile_eq_nil_of_all
          intro c hc
          simp [hnd c hc]
        · rw [if_pos hq2, List.nil_append]
          rw [dropWhile_append_cons _ n '?' q2
            (by intro c hc; simp [hnd c hc])
            (by simp [isNetlocDelim])]
      · rw [hpt, List.cons_append]
        rw [dropWhile_append_cons _ n '/' (t ++ _)
          (by intro c hc; simp [hnd c hc])
          (by simp [isNetlocDelim])]
  obtain ⟨tail0, htail0, htw, hdw⟩ := hrest
  have hu5 : tail0.takeWhile (fun c => (c ≠ '#' : Bool)) = tail0 := by
    rw [htail0]
    apply takeWhile_eq_self_of_all
    intro c hc
    simp [(htail c hc).1]
  have hpath : tail0.takeWhile (fun c => (c ≠ '?' : Bool)) = p2 := by
    rw [htail0]
    by_cases hq2 : q2 = []
    · subst hq2
      simp only [ne_eq, not_true_eq_false, if_false, List.append_nil]
      apply takeWhile_eq_self_of_all
      intro c hc
      simp [(hp2 c hc).2.1]
    · rw [if_pos hq2]
      apply takeWhile_append_cons
      · intro c hc
        simp [(hp2 c hc).2.1]
      · simp
  have hquery : tail0.drop (p2.length + 1) = q2 := by
    rw [htail0]
    by_cases hq2 : q2 = []
    · subst hq2
      simp only [ne_eq, not_true_eq_false, if_false, List.append_nil]
      exact List.drop_eq_nil_of_le (by omega)
    · rw [if_pos hq2, drop_append_cons]
  unfold urlsplitE
  dsimp only
  rw [dropWhile_ctrl_eq_self _ (by
    intro c r hl
    injection hl with h1 _
    subst h1
    decide)]
  rw [List.filter_eq_self.mpr (by
    intro c hc
    simp only [Bool.and_eq_true, decide_eq_true_eq]
    rcases List.mem_cons.mp hc with h | h
    · subst h
      refine ⟨⟨by decide, by decide⟩, by decide⟩
    rcases List.mem_cons.mp h with h | h
    · subst h
      refine ⟨⟨by decide, by decide⟩, by decide⟩
    rcases List.mem_append.mp h with h | h
    · obtain ⟨h3, h4, h5⟩ := hnt c h
      exact ⟨⟨h3, h4⟩, h5⟩
    · obtain ⟨_, h3, h4, h5⟩ := htail c h
      exact ⟨⟨h3, h4⟩, h5⟩)]
  rw [splitScheme_head_not_alpha ('/' :: '/' :: (n ++ (p2 ++
    (if q2 ≠ [] then '?' :: q2 else [])))) rfl]
  dsimp only [Except.instMonad, Except.bind, Except.pure, Bind.bind,
    Pure.pure]
  split
  next rest heq =>
    injection heq with h1 heq2
    injection heq2 with h2 heq3
    subst heq3
    rw [htw, hdw]
    rw [if_neg (by rw [hnb1]; simp)]
    rw [if_nested_collapse _ _ _ _ (fun hlb => hnb2 hlb.1 hlb.2)]
    rw [hu5, hpath, hquery]
    rw [List.drop_eq_nil_of_le (le_of_lt (by omega))]
    simp
  next x heq =>
    exact (heq (n ++ (p2 ++ (if q2 ≠ [] then '?' :: q2 else []))) rfl).elim

/-- Helper: re-splitting a scheme-free, authority-free URL recovers its
path and query. -/
theorem urlsplitE_noauth_noscheme (pc q2 : Str)
    (hpc : ∀ c ∈ pc, c ≠ '#' ∧ c ≠ '?' ∧ c ≠ '\t' ∧ c ≠ '\r' ∧ c ≠ '\n')
    (hH2 : pc.take 2 ≠ ['/', '/'])
    (hhead : ∀ c r, pc = c :: r → 0x20 < c.toNat)
    (hns : splitScheme (pc ++ (if q2 ≠ [] then '?' :: q2 else [])) =
      ([], pc ++ (if q2 ≠ [] then '?' :: q2 else [])))
    (hq : ∀ c ∈ q2, alwaysSafe c = true ∨ c = '+' ∨ c = '%' ∨ c = '=' ∨ c = '&') :
    urlsplitE (pc ++ (if q2 ≠ [] then '?' :: q2 else [])) =
      .ok ⟨[], [], pc, q2, []⟩ := by
  have hqp : ∀ c ∈ (if q2 ≠ [] then '?' :: q2 else []),
      c ≠ '#' ∧ c ≠ '\t' ∧ c ≠ '\r' ∧ c ≠ '\n' := by
    intro c hc
    split at hc
    · rcases List.mem_cons.mp hc with h | h
      · subst h
        refine ⟨by decide, by decide, by decide, by decide⟩
      · obtain ⟨hgt, h35, _, _, _⟩ := queryChar_facts c (hq c h)
        refine ⟨char_ne_of_toNat_ne c '#' (by
            rw [show ('#' : Char).toNat = 35 from rfl]; omega), ?_, ?_, ?_⟩
        · exact char_ne_of_toNat_ne c '\t' (by
            rw [show ('\t' : Char).toNat = 9 from rfl]; omega)
        · exact char_ne_of_toNat_ne c '\r' (by
            rw [show ('\r' : Char).toNat = 13 from rfl]; omega)
        · exact char_ne_of_toNat_ne c '\n' (by
            rw [show ('\n' : Char).toNat = 10 from rfl]; omega)
    · simp at hc
  have hall : ∀ c ∈ pc ++ (if q2 ≠ [] then '?' :: q2 else []),
      c ≠ '#' ∧ c ≠ '\t' ∧ c ≠ '\r' ∧ c ≠ '\n' := by
    intro c hc
    rcases List.mem_append.mp hc with h | h
    · obtain ⟨h1, _, h3, h4, h5⟩ := hpc c h
      exact ⟨h1, h3, h4, h5⟩
    · exact hqp c h
  have hu5 : (pc ++ (if q2 ≠ [] then '?' :: q2 else [])).takeWhile
      (fun c => (c ≠ '#' : Bool)) =
      pc ++ (if q2 ≠ [] then '?' :: q2 else []) := by
    apply takeWhile_eq_self_of_all
    intro c hc
    simp [(hall c hc).1]
  have hpath : (pc ++ (if q2 ≠ [] then '?' :: q2 else [])).takeWhile
      (fun c => (c ≠ '?' : Bool)) = pc := by
    by_cases hq2 : q2 = []
    · subst hq2
      simp only [ne_eq, not_true_eq_false, if_false, List.append_nil]
      apply takeWhile_eq_self_of_all
      intro c hc
      simp [(hpc c hc).2.1]
    · rw [if_pos hq2]
      apply takeWhile_append_cons
      · intro c hc
        simp [(hpc c hc).2.1]
      · simp
  have hquery : (pc ++ (if q2 ≠ [] then '?' :: q2 else [])).drop
      (pc.length + 1) = q2 := by
    by_cases hq2 : q2 = []
    · subst hq2
      simp only [ne_eq, not_true_eq_false, if_false, List.append_nil]
      exact List.drop_eq_nil_of_le (by omega)
    · rw [if_pos hq2, drop_append_cons]
  unfold urlsplitE
  dsimp only
  rw [dropWhile_ctrl_eq_self _ (by
    intro c r hl
    cases pc with
    | nil =>
      rw [List.nil_append] at hl
      split at hl
      · injection hl with h1 _
        subst h1
        decide
      · simp at hl
    | cons c0 r0 =>
      rw [List.cons_append] at hl
      injection hl with h1 _
      subst h1
      exact hhead c0 r0 rfl)]
  rw [List.filter_eq_self.mpr (by
    intro c hc
    simp only [Bool.and_eq_true, decide_eq_true_eq]
    obtain ⟨_, h3, h4, h5⟩ := hall c hc
    exact ⟨⟨h3, h4⟩, h5⟩)]
  rw [hns]
  dsimp only [Except.instMonad, Except.bind, Except.pure, Bind.bind,
    Pure.pure]
  split
  next rest heq =>
    exfalso
    cases pc with
    | nil =>
      rw [List.nil_append] at heq
      split at heq
      · injection heq with h1 _
        exact absurd h1 (by decide)
      · simp at heq
    | cons c1 r1 =>
      cases r1 with
      | nil =>
        rw [List.cons_append, List.nil_append] at heq
        injection heq with h1 heq2
        subst h1
        split at heq2
        · injection heq2 with h2 _
          exact absurd h2 (by decide)
        · simp at heq2
      | cons c2 r2 =>
        rw [List.cons_append, List.cons_append] at heq
        injection heq with h1 heq2
        injection heq2 with h2 _
        subst h1
        subst h2
        exact hH2 rfl
  next x heq =>
    rw [hu5, hpath, hquery]
    rw [List.drop_eq_nil_of_le (le_of_lt (by omega))]
    simp

/-- Helper: re-splitting a scheme-ful, authority-free URL recovers its
components. -/
theorem urlsplitE_scheme_noauth (s pc q2 : Str)
    (hsne : s ≠ []) (hsa : isAsciiAlpha s.headI = true)
    (hsc : ∀ c ∈ s, isSchemeChar c = true) (hsl : s.map lowerCh = s)
    (hpc : ∀ c ∈ pc, c ≠ '#' ∧ c ≠ '?' ∧ c ≠ '\t' ∧ c ≠ '\r' ∧ c ≠ '\n')
    (hH2 : pc.take 2 ≠ ['/', '/'])
    (hq : ∀ c ∈ q2, alwaysSafe c = true ∨ c = '+' ∨ c = '%' ∨ c = '=' ∨ c = '&') :
    urlsplitE (s ++ ':' :: (pc ++ (if q2 ≠ [] then '?' :: q2 else []))) =
      .ok ⟨s, [], pc, q2, []⟩ := by
  have hqp : ∀ c ∈ (if q2 ≠ [] then '?' :: q2 else []),
      c ≠ '#' ∧ c ≠ '\t' ∧ c ≠ '\r' ∧ c ≠ '\n' := by
    intro c hc
    split at hc
    · rcases List.mem_cons.mp hc with h | h
      · subst h
        refine ⟨by decide, by decide, by decide, by decide⟩
      · obtain ⟨hgt, h35, _, _, _⟩ := queryChar_facts c (hq c h)
        refine ⟨char_ne_of_toNat_ne c '#' (by
            rw [show ('#' : Char).toNat = 35 from rfl]; omega), ?_, ?_, ?_⟩
        · exact char_ne_of_toNat_ne c '\t' (by
            rw [show ('\t' : Char).toNat = 9 from rfl]; omega)
        · exact char_ne_of_toNat_ne c '\r' (by
            rw [show ('\r' : Char).toNat = 13 from rfl]; omega)
        · exact char_ne_of_toNat_ne c '\n' (by
            rw [show ('\n' : Char).toNat = 10 from rfl]; omega)
    · simp at hc
  have hall : ∀ c ∈ pc ++ (if q2 ≠ [] then '?' :: q2 else []),
      c ≠ '#' ∧ c ≠ '\t' ∧ c ≠ '\r' ∧ c ≠ '\n' := by
    intro c hc
    rcases List.mem_append.mp hc with h | h
    · obtain ⟨h1, _, h3, h4, h5⟩ := hpc c h
      exact ⟨h1, h3, h4, h5⟩
    · exact hqp c h
  have hu5 : (pc ++ (if q2 ≠ [] then '?' :: q2 else [])).takeWhile
      (fun c => (c ≠ '#' : Bool)) =
      pc ++ (if q2 ≠ [] then '?' :: q2 else []) := by
    apply takeWhile_eq_self_of_all
    intro c hc
    simp [(hall c hc).1]
  have hpath : (pc ++ (if q2 ≠ [] then '?' :: q2 else [])).takeWhile
      (fun c => (c ≠ '?' : Bool)) = pc := by
    by_cases hq2 : q2 = []
    · subst hq2
      simp only [ne_eq, not_true_eq_false, if_false, List.append_nil]
      apply takeWhile_eq_self_of_all
      intro c hc
      simp [(hpc c hc).2.1]
    · rw [if_pos hq2]
      apply takeWhile_append_cons
      · intro c hc
        simp [(hpc c hc).2.1]
      · simp
  have hquery : (pc ++ (if q2 ≠ [] then '?' :: q2 else [])).drop
      (pc.length + 1) = q2 := by
    by_cases hq2 : q2 = []
    · subst hq2
      simp only [ne_eq, not_true_eq_false, if_false, List.append_nil]
      exact List.drop_eq_nil_of_le (by omega)
    · rw [if_pos hq2, drop_append_cons]
  unfold urlsplitE
  dsimp only
  rw [dropWhile_ctrl_eq_self _ (by
    intro c r hl
    cases s with
    | nil => exact absurd rfl hsne
    | cons c0 r0 =>
      rw [List.cons_append] at hl
      injection hl with h1 _
      subst h1
      exact alpha_gt_space c0 hsa)]
  rw [List.filter_eq_self.mpr (by
    intro c hc
    simp only [Bool.and_eq_true, decide_eq_true_eq]
    rcases List.mem_append.mp hc with h2 | h2
    · obtain ⟨hgt, _, _, _, _, _⟩ := schemeChar_facts c (hsc c h2)
      refine ⟨⟨?_, ?_⟩, ?_⟩
      · exact char_ne_of_toNat_ne c '\t' (by
          rw [show ('\t' : Char).toNat = 9 from rfl]; omega)
      · exact char_ne_of_toNat_ne c '\r' (by
          rw [show ('\r' : Char).toNat = 13 from rfl]; omega)
      · exact char_ne_of_toNat_ne c '\n' (by
          rw [show ('\n' : Char).toNat = 10 from rfl]; omega)
    · rcases List.mem_cons.mp h2 with h3 | h3
      · subst h3
        refine ⟨⟨by decide, by decide⟩, by decide⟩
      · obtain ⟨_, h3, h4, h5⟩ := hall c h3
        exact ⟨⟨h3, h4⟩, h5⟩)]
  rw [splitScheme_valid s (pc ++ (if q2 ≠ [] then '?' :: q2 else []))
    hsne hsa hsc hsl]
  dsimp only [Except.instMonad, Except.bind, Except.pure, Bind.bind,
    Pure.pure]
  split
  next rest heq =>
    exfalso
    cases pc with
    | nil =>
      rw [List.nil_append] at heq
      split at heq
      · injection heq with h1 _
        exact absurd h1 (by decide)
      · simp at heq
    | cons c1 r1 =>
      cases r1 with
      | nil =>
        rw [List.cons_append, List.nil_append] at heq
        injection heq with h1 heq2
        subst h1
        split at heq2
        · injection heq2 with h2 _
          exact absurd h2 (by decide)
        · simp at heq2
      | cons c2 r2 =>
        rw [List.cons_append, List.cons_append] at heq
        injection heq with h1 heq2
        injection heq2 with h2 _
        subst h1
        subst h2
        exact hH2 rfl
  next x heq =>
    rw [hu5, hpath, hquery]
    rw [List.drop_eq_nil_of_le (le_of_lt (by omega))]
    simp

/-- Helper: prepending a valid lower-case scheme to a clean schemeless URL
shifts the parse by the scheme only. -/
theorem urlsplitE_scheme_shift (s X nl p q f : Str)
    (hsne : s ≠ []) (hsa : isAsciiAlpha s.headI = true)
    (hsc : ∀ c ∈ s, isSchemeChar c = true) (hsl : s.map lowerCh = s)
    (hX1 : X.dropWhile (fun c => c.toNat ≤ 0x20) = X)
    (hX2 : X.filter (fun c => c ≠ '\t' && c ≠ '\r' && c ≠ '\n') = X)
    (hXns : splitScheme X = ([], X))
    (h : urlsplitE X = .ok ⟨[], nl, p, q, f⟩) :
    urlsplitE (s ++ ':' :: X) = .ok ⟨s, nl, p, q, f⟩ := by
  unfold urlsplitE
  dsimp only
  rw [dropWhile_ctrl_eq_self _ (by
    intro c r hl
    cases s with
    | nil => exact absurd rfl hsne
    | cons c0 r0 =>
      rw [List.cons_append] at hl
      injection hl with h1 _
      subst h1
      exact alpha_gt_space c0 hsa)]
  rw [List.filter_eq_self.mpr (by
    intro c hc
    rcases List.mem_append.mp hc with h2 | h2
    · obtain ⟨hgt, _, _, _, _, _⟩ := schemeChar_facts c (hsc c h2)
      simp only [Bool.and_eq_true, decide_eq_true_eq]
      refine ⟨⟨?_, ?_⟩, ?_⟩
      · exact char_ne_of_toNat_ne c '\t' (by
          rw [show ('\t' : Char).toNat = 9 from rfl]; omega)
      · exact char_ne_of_toNat_ne c '\r' (by
          rw [show ('\r' : Char).toNat = 13 from rfl]; omega)
      · exact char_ne_of_toNat_ne c '\n' (by
          rw [show ('\n' : Char).toNat = 10 from rfl]; omega)
    · rcases List.mem_cons.mp h2 with h3 | h3
      · subst h3
        decide
      · exact List.filter_eq_self.mp hX2 c h3)]
  rw [splitScheme_valid s X hsne hsa hsc hsl]
  dsimp only [Except.instMonad, Except.bind, Except.pure, Bind.bind,
    Pure.pure]
  unfold urlsplitE at h
  dsimp only at h
  rw [hX1, hX2, hXns] at h
  dsimp only [Except.instMonad, Except.bind, Except.pure, Bind.bind,
    Pure.pure] at h
  split at h
  next rest heq =>
    split at h
    · exact absurd h (by simp)
    · next hbr =>
      split at h
      · next hlb =>
        split at h
        · next hok =>
          rw [if_neg hbr, if_pos hlb, if_pos hok]
          injection h with h2
          rw [show nl = _ from (congrArg SplitParts.netloc h2).symm,
            show p = _ from (congrArg SplitParts.path h2).symm,
            show q = _ from (congrArg SplitParts.query h2).symm,
            show f = _ from (congrArg SplitParts.fragment h2).symm]
        · exact absurd h (by simp)
      · next hlb =>
        rw [if_neg hbr, if_neg hlb]
        injection h with h2
        rw [show nl = _ from (congrArg SplitParts.netloc h2).symm,
          show p = _ from (congrArg SplitParts.path h2).symm,
          show q = _ from (congrArg SplitParts.query h2).symm,
          show f = _ from (congrArg SplitParts.fragment h2).symm]
  next x heq =>
    injection h with h2
    rw [show nl = _ from (congrArg SplitParts.netloc h2).symm,
      show p = _ from (congrArg SplitParts.path h2).symm,
      show q = _ from (congrArg SplitParts.query h2).symm,
      show f = _ from (congrArg SplitParts.fragment h2).symm]

/-- Helper: a split-off scheme is empty (with the URL untouched) or a
valid, lower-cased scheme. -/
theorem splitScheme_facts (u s r : Str) (h : splitScheme u = (s, r)) :
    (s = [] ∧ r = u) ∨
    (s ≠ [] ∧ isAsciiAlpha s.headI = true ∧
      (∀ c ∈ s, isSchemeChar c = true) ∧ s.map lowerCh = s) := by
  unfold splitScheme at h
  dsimp only at h
  split at h
  · next hcond =>
    injection h with h1 h2
    obtain ⟨hlen, hne, halpha, hall⟩ := hcond
    subst h1
    right
    refine ⟨?_, ?_, ?_, ?_⟩
    · intro hn
      exact hne (List.map_eq_nil_iff.mp hn)
    · cases hp : u.takeWhile (fun c => (c ≠ ':' : Bool)) with
      | nil => exact absurd hp hne
      | cons a as =>
        rw [List.map_cons]
        rw [hp] at halpha
        exact lowerCh_alpha a halpha
    · intro c hc
      rw [List.mem_map] at hc
      obtain ⟨d, hd, hdc⟩ := hc
      subst hdc
      exact lowerCh_schemeChar d (List.all_eq_true.mp hall d hd)
    · rw [List.map_map]
      apply List.map_congr_left
      intro a _
      exact lowerCh_idem a
  · injection h with h1 h2
    exact Or.inl ⟨h1.symm, h2.symm⟩

/-- Helper: the remainder of a scheme split is part of the input. -/
theorem splitScheme_snd_subset (u s r : Str) (h : splitScheme u = (s, r)) :
    ∀ c ∈ r, c ∈ u := by
  unfold splitScheme at h
  dsimp only at h
  split at h
  · injection h with _ h2
    subst h2
    intro c hc
    exact (List.drop_sublist _ _).mem hc
  · injection h with _ h2
    subst h2
    intro c hc
    exact hc

/-- Helper: the `urlunsplit` slash fix is invariant: re-unsplitting the
slash-fixed path yields the same URL. -/
theorem urlunsplitU_slashfix (s n pc q2 : Str)
    (hC : n ≠ [] ∨ (s ≠ [] ∧ s ∈ uses_netloc ∧ pc.take 2 ≠ ['/', '/'])) :
    urlunsplitU s n (if pc ≠ [] ∧ pc.headI ≠ '/' then '/' :: pc else pc)
      q2 [] = urlunsplitU s n pc q2 [] := by
  unfold urlunsplitU
  dsimp only
  by_cases hfix : pc ≠ [] ∧ pc.headI ≠ '/'
  · rw [if_pos hfix]
    have hCC2 : n ≠ [] ∨
        (s ≠ [] ∧ s ∈ uses_netloc ∧ ('/' :: pc).take 2 ≠ ['/', '/']) := by
      rcases hC with h | ⟨h1, h2, h3⟩
      · exact Or.inl h
      · right
        refine ⟨h1, h2, ?_⟩
        intro hcontra
        rw [show List.take 2 ('/' :: pc) = '/' :: List.take 1 pc from rfl]
          at hcontra
        injection hcontra with _ h4
        cases pc with
        | nil => exact hfix.1 rfl
        | cons a as =>
          rw [show List.take 1 (a :: as) = [a] from rfl] at h4
          injection h4 with h5 _
          exact hfix.2 h5
    rw [if_pos hCC2, if_pos hC]
    rw [if_neg (show ¬(('/' :: pc) ≠ [] ∧ ('/' :: pc).headI ≠ '/') from
      fun hcontra => hcontra.2 rfl)]
  · rw [if_neg hfix, if_neg hfix]

/-- Helper: the `urlparse` params split recombines to a prefix of the split
path, and recombination is stable under a further params split, also after
prepending a slash. -/
theorem params_recomb_stable (s P p0 pm : Str)
    (hdef : if s ∈ uses_params ∧ P.contains ';' = true
            then (p0, pm) = splitparams P else (p0 = P ∧ pm = [])) :
    (∃ e, (if pm ≠ [] then p0 ++ ';' :: pm else p0) ++ e = P) ∧
    (∀ x, (x = (if pm ≠ [] then p0 ++ ';' :: pm else p0) ∨
           x = '/' :: (if pm ≠ [] then p0 ++ ';' :: pm else p0)) →
      s ∈ uses_params → x.contains ';' = true →
      (if (splitparams x).2 ≠ [] then
         (splitparams x).1 ++ ';' :: (splitparams x).2
       else (splitparams x).1) = x) := by
  split at hdef
  case isFalse hcond =>
    obtain ⟨hp0, hpm⟩ := hdef
    subst hpm
    rw [hp0]
    constructor
    · refine ⟨[], ?_⟩
      rw [if_neg (by simp), List.append_nil]
    · intro x hx hsu hxsemi
      exfalso
      have hPsemi : P.contains ';' = false := by
        cases hcv : P.contains ';' with
        | false => rfl
        | true => exact absurd ⟨hsu, hcv⟩ hcond
      rw [if_neg (by simp)] at hx
      have hmem : ';' ∈ x := List.elem_iff.mp hxsemi
      rcases hx with hx | hx
      · rw [hx] at hmem
        have h2 : P.contains ';' = true := List.elem_iff.mpr hmem
        rw [h2] at hPsemi
        exact Bool.noConfusion hPsemi
      · rw [hx] at hmem
        rcases List.mem_cons.mp hmem with h | h
        · exact absurd h (by decide)
        · have h2 : P.contains ';' = true := List.elem_iff.mpr h
          rw [h2] at hPsemi
          exact Bool.noConfusion hPsemi
  case isTrue hcond =>
    have hsemiP : ';' ∈ P := List.elem_iff.mp hcond.2
    by_cases hslash : '/' ∈ P
    · obtain ⟨front, hPdec, htailfree⟩ := lastSlash_decomp P hslash
      by_cases hts : ';' ∈ afterLastSlash P
      · -- a semicolon after the last slash: the split is real
        obtain ⟨d, r0, htdec, hpd, _⟩ :=
          takeWhile_decomp (fun c => (c ≠ ';' : Bool)) (afterLastSlash P)
            (dropWhile_marker_ne_nil ';' (afterLastSlash P) hts)
        have hd : d = ';' := by simpa using hpd
        subst hd
        have hkeepsemi : ∀ c ∈ (afterLastSlash P).takeWhile
            (fun c => (c ≠ ';' : Bool)), c ≠ ';' := by
          intro c hc
          have := List.mem_takeWhile_imp (p := fun c => (c ≠ ';' : Bool)) hc
          simpa using this
        have hkeepslash : ∀ c ∈ (afterLastSlash P).takeWhile
            (fun c => (c ≠ ';' : Bool)), c ≠ '/' := by
          intro c hc
          exact htailfree c ((List.takeWhile_sublist _).mem hc)
        have hr0slash : ∀ c ∈ r0, c ≠ '/' := by
          intro c hc
          apply htailfree
          rw [htdec]
          exact List.mem_append.mpr (Or.inr (List.mem_cons.mpr (Or.inr hc)))
        have hPfull : P = front ++ '/' ::
            ((afterLastSlash P).takeWhile (fun c => (c ≠ ';' : Bool)) ++
              ';' :: r0) := by
          conv_lhs => rw [hPdec]
          rw [← htdec]
        have hspP : splitparams P =
            (front ++ '/' :: (afterLastSlash P).takeWhile
              (fun c => (c ≠ ';' : Bool)), r0) := by
          conv_lhs => rw [hPfull]
          exact splitparams_slash_semi front _ r0 hkeepslash hkeepsemi hr0slash
        rw [hspP] at hdef
        injection hdef with h1 h2
        rw [h1, h2]
        by_cases hr0 : r0 = []
        · -- params empty: the path drops the trailing semicolon
          subst hr0
          rw [if_neg (by simp)]
          constructor
          · refine ⟨[';'], ?_⟩
            conv_rhs => rw [hPfull]
            rw [List.append_assoc, List.cons_append]
          · intro x hx _ _
            rcases hx with hx | hx
            · subst hx
              rw [splitparams_no_semi_tail _
                (by exact List.mem_append.mpr (Or.inr (by simp)))
                (by
                  rw [afterLastSlash_append front _ hkeepslash]
                  exact hkeepsemi)]
              simp
            · subst hx
              rw [show '/' :: (front ++ '/' :: (afterLastSlash P).takeWhile
                    (fun c => (c ≠ ';' : Bool))) =
                  ('/' :: front) ++ '/' :: (afterLastSlash P).takeWhile
                    (fun c => (c ≠ ';' : Bool)) from rfl]
              rw [splitparams_no_semi_tail _
                (by exact List.mem_append.mpr (Or.inr (by simp)))
                (by
                  rw [afterLastSlash_append ('/' :: front) _ hkeepslash]
                  exact hkeepsemi)]
              simp
        · -- params nonempty: recombination rebuilds the split path
          rw [if_pos hr0]
          constructor
          · refine ⟨[], ?_⟩
            rw [List.append_nil]
            conv_rhs => rw [hPfull]
            rw [List.append_assoc, List.cons_append]
          · intro x hx _ _
            rcases hx with hx | hx
            · subst hx
              rw [show (front ++ '/' :: (afterLastSlash P).takeWhile
                    (fun c => (c ≠ ';' : Bool))) ++ ';' :: r0 =
                  front ++ '/' :: ((afterLastSlash P).takeWhile
                    (fun c => (c ≠ ';' : Bool)) ++ ';' :: r0) from by
                rw [List.append_assoc, List.cons_append]]
              rw [splitparams_slash_semi front _ r0 hkeepslash hkeepsemi
                hr0slash]
              rw [if_pos hr0]
              rw [List.append_assoc, List.cons_append]
            · subst hx
              rw [show '/' :: ((front ++ '/' :: (afterLastSlash P).takeWhile
                    (fun c => (c ≠ ';' : Bool))) ++ ';' :: r0) =
                  ('/' :: front) ++ '/' :: ((afterLastSlash P).takeWhile
                    (fun c => (c ≠ ';' : Bool)) ++ ';' :: r0) from by
                rw [List.append_assoc, List.cons_append]
                rfl]
              rw [splitparams_slash_semi ('/' :: front) _ r0 hkeepslash
                hkeepsemi hr0slash]
              rw [if_pos hr0]
              rw [List.append_assoc, List.cons_append]
              rfl
      · -- no semicolon after the last slash: the path is untouched
        have htailsemi : ∀ c ∈ afterLastSlash P, c ≠ ';' := by
          intro c hc heq
          subst heq
          exact hts hc
        have hspP : splitparams P = (P, []) :=
          splitparams_no_semi_tail P hslash htailsemi
        rw [hspP] at hdef
        injection hdef with h1 h2
        rw [h1, h2]
        rw [if_neg (by simp)]
        constructor
        · exact ⟨[], List.append_nil P⟩
        · intro x hx _ _
          rcases hx with hx | hx
          · subst hx
            rw [hspP]
            simp
          · subst hx
            have hx2 : '/' :: P = ('/' :: front) ++ '/' :: afterLastSlash P := by
              conv_lhs => rw [hPdec]
              rfl
            rw [hx2]
            rw [splitparams_no_semi_tail _
              (by exact List.mem_append.mpr (Or.inr (by simp)))
              (by
                rw [afterLastSlash_append ('/' :: front) _ htailfree]
                exact htailsemi)]
            simp
    · -- slash-free path: split at the first semicolon
      have hPfree : ∀ c ∈ P, c ≠ '/' := by
        intro c hc heq
        subst heq
        exact hslash hc
      obtain ⟨d, r0, htdec, hpd, _⟩ :=
        takeWhile_decomp (fun c => (c ≠ ';' : Bool)) P
          (dropWhile_marker_ne_nil ';' P hsemiP)
      have hd : d = ';' := by simpa using hpd
      subst hd
      have hkeepsemi : ∀ c ∈ P.takeWhile (fun c => (c ≠ ';' : Bool)),
          c ≠ ';' := by
        intro c hc
        have := List.mem_takeWhile_imp (p := fun c => (c ≠ ';' : Bool)) hc
        simpa using this
      have hspP : splitparams P = (P.takeWhile (fun c => (c ≠ ';' : Bool)),
          r0) := by
        conv_lhs => rw [htdec]
        exact splitparams_no_slash _ r0 (by rw [← htdec]; exact hPfree)
          hkeepsemi
      rw [hspP] at hdef
      injection hdef with h1 h2
      rw [h1, h2]
      by_cases hr0 : r0 = []
      · -- params empty and the kept path has no semicolon: vacuous
        subst hr0
        rw [if_neg (by simp)]
        constructor
        · refine ⟨';' :: [], ?_⟩
          rw [← htdec]
        · intro x hx _ hxsemi
          exfalso
          have hmem : ';' ∈ x := List.elem_iff.mp hxsemi
          rcases hx with hx | hx
          · subst hx
            exact hkeepsemi ';' hmem rfl
          · subst hx
            rcases List.mem_cons.mp hmem with h | h
            · exact absurd h (by decide)
            · exact hkeepsemi ';' h rfl
      · rw [if_pos hr0]
        constructor
        · refine ⟨[], ?_⟩
          rw [List.append_nil, ← htdec]
        · intro x hx _ _
          rcases hx with hx | hx
          · subst hx
            rw [show splitparams (P.takeWhile (fun c => (c ≠ ';' : Bool)) ++
                  ';' :: r0) = (P.takeWhile (fun c => (c ≠ ';' : Bool)), r0)
                from by rw [← htdec]; exact hspP]
            rw [if_pos hr0]
          · subst hx
            rw [show '/' :: (P.takeWhile (fun c => (c ≠ ';' : Bool)) ++
                  ';' :: r0) = [] ++ '/' :: (P.takeWhile
                    (fun c => (c ≠ ';' : Bool)) ++ ';' :: r0) from rfl]
            rw [splitparams_slash_semi [] _ r0
              (by
                intro c hc
                apply hPfree
                exact (List.takeWhile_sublist _).mem hc)
              hkeepsemi
              (by
                intro c hc
                apply hPfree
                rw [htdec]
                exact List.mem_append.mpr
                  (Or.inr (List.mem_cons.mpr (Or.inr hc))))]
            rw [if_pos hr0]
            rfl

/-- Helper: a nonempty `takeWhile` result starts the list. -/
theorem takeWhile_head (p : Char → Bool) (l : Str) (c : Char) (t : Str)
    (h : l.takeWhile p = c :: t) : ∃ w, l = c :: w := by
  cases l with
  | nil => exact absurd h (by simp)
  | cons a as =>
    rw [List.takeWhile_cons] at h
    split at h
    · injection h with h1 _
      subst h1
      exact ⟨as, rfl⟩
    · exact absurd h (by simp)

/-- Helper: an empty `takeWhile` on a nonempty list refutes the head. -/
theorem takeWhile_nil_head (p : Char → Bool) (d : Char) (ds : Str)
    (h : (d :: ds).takeWhile p = []) : p d = false := by
  rw [List.takeWhile_cons] at h
  split at h
  · exact absurd h (by simp)
  · next hp => simpa using hp

/-- Helper: structural facts about every successful `urlsplit` result:
scheme validity, netloc and path alphabets, bracket conditions, and — for
scheme-free, authority-free parses — stability of the failed scheme split
and printability of the path head. -/
theorem urlsplitE_ok_facts (u : Str) (sp : SplitParts)
    (h : urlsplitE u = .ok sp) :
    (sp.scheme = [] ∨ (sp.scheme ≠ [] ∧ isAsciiAlpha sp.scheme.headI = true ∧
      (∀ c ∈ sp.scheme, isSchemeChar c = true) ∧
      sp.scheme.map lowerCh = sp.scheme)) ∧
    (∀ c ∈ sp.netloc, isNetlocDelim c = false) ∧
    (∀ c ∈ sp.netloc, c ≠ '\t' ∧ c ≠ '\r' ∧ c ≠ '\n') ∧
    (sp.netloc.contains '[' = sp.netloc.contains ']') ∧
    (sp.netloc.contains '[' = true → sp.netloc.contains ']' = true →
      bracketedHostOk (((sp.netloc.dropWhile (fun c => c ≠ '[')).drop
        1).takeWhile (fun c => c ≠ ']')) = true) ∧
    (∀ c ∈ sp.path, c ≠ '#' ∧ c ≠ '?' ∧ c ≠ '\t' ∧ c ≠ '\r' ∧ c ≠ '\n') ∧
    (sp.scheme = [] → sp.netloc = [] →
      (∀ pcx z, (∃ e, pcx ++ e = sp.path) → (∀ c ∈ z, c ≠ ':') →
        splitScheme (pcx ++ z) = ([], pcx ++ z)) ∧
      (∀ c r, sp.path = c :: r → 0x20 < c.toNat)) := by
  have F1 : ∀ c ∈ (u.dropWhile (fun c => c.toNat ≤ 0x20)).filter
      (fun c => c ≠ '\t' && c ≠ '\r' && c ≠ '\n'),
      c ≠ '\t' ∧ c ≠ '\r' ∧ c ≠ '\n' := by
    intro c hc
    have h2 := (List.mem_filter.mp hc).2
    simp only [Bool.and_eq_true, decide_eq_true_eq] at h2
    exact ⟨h2.1.1, h2.1.2, h2.2⟩
  have F2 : ∀ c r, (u.dropWhile (fun c => c.toNat ≤ 0x20)).filter
      (fun c => c ≠ '\t' && c ≠ '\r' && c ≠ '\n') = c :: r →
      0x20 < c.toNat := by
    intro c r hcr
    cases hu1 : u.dropWhile (fun c => c.toNat ≤ 0x20) with
    | nil =>
      rw [hu1] at hcr
      exact absurd hcr (by simp)
    | cons a as =>
      have ha : ¬ (a.toNat ≤ 0x20) := by
        have h3 := dropWhile_head_false _ u a as hu1
        simpa using h3
      rw [hu1] at hcr
      rw [List.filter_cons, if_pos (by
        simp only [Bool.and_eq_true, decide_eq_true_eq]
        refine ⟨⟨?_, ?_⟩, ?_⟩
        · exact char_ne_of_toNat_ne a '\t' (by
            rw [show ('\t' : Char).toNat = 9 from rfl]; omega)
        · exact char_ne_of_toNat_ne a '\r' (by
            rw [show ('\r' : Char).toNat = 13 from rfl]; omega)
        · exact char_ne_of_toNat_ne a '\n' (by
            rw [show ('\n' : Char).toNat = 10 from rfl]; omega))] at hcr
      injection hcr with h1 _
      subst h1
      omega
  unfold urlsplitE at h
  dsimp only at h
  rcases hsplit : splitScheme ((u.dropWhile (fun c => c.toNat ≤ 0x20)).filter
      (fun c => c ≠ '\t' && c ≠ '\r' && c ≠ '\n')) with ⟨sc, u3⟩
  rw [hsplit] at h
  have S1 := splitScheme_facts _ sc u3 hsplit
  have S2 := splitScheme_snd_subset _ sc u3 hsplit
  dsimp only [Except.instMonad, Except.bind, Except.pure, Bind.bind,
    Pure.pure] at h
  split at h
  next w1 w2 =>
    split at h
    · exact absurd h (by simp)
    · next hbr =>
      split at h
      · next hlbrb =>
        split at h
        · next hok =>
          injection h with h2
          have hsc2 : sc = sp.scheme := congrArg SplitParts.scheme h2
          have hn2 : List.takeWhile (fun c => (¬ isNetlocDelim c : Bool)) w2
              = sp.netloc := congrArg SplitParts.netloc h2
          have hp2 : List.takeWhile (fun c => (c ≠ '?' : Bool))
              (List.takeWhile (fun c => (c ≠ '#' : Bool))
                (List.dropWhile (fun c => (¬ isNetlocDelim c : Bool)) w2))
              = sp.path := congrArg SplitParts.path h2
          refine ⟨?_, ?_, ?_, ?_, ?_, ?_, ?_⟩
          · rcases S1 with ⟨hA, _⟩ | hB
            · left
              rw [← hsc2]
              exact hA
            · right
              rw [← hsc2]
              exact hB
          · intro c hc
            rw [← hn2] at hc
            have h3 := List.mem_takeWhile_imp
              (p := fun c => (¬ isNetlocDelim c : Bool)) hc
            simpa using h3
          · intro c hc
            rw [← hn2] at hc
            apply F1
            apply S2
            have hcw : c ∈ w2 := (List.takeWhile_sublist _).mem hc
            exact List.mem_cons.mpr (Or.inr (List.mem_cons.mpr (Or.inr hcw)))
          · rw [← hn2]
            exact not_ne_iff.mp hbr
          · rw [← hn2]
            intro _ _
            exact hok
          · intro c hc
            rw [← hp2] at hc
            have hq : c ≠ '?' := by
              simpa using List.mem_takeWhile_imp
                (p := fun c => (c ≠ '?' : Bool)) hc
            have hc5 := (List.takeWhile_sublist _).mem hc
            have hh : c ≠ '#' := by
              simpa using List.mem_takeWhile_imp
                (p := fun c => (c ≠ '#' : Bool)) hc5
            have hc4 := (List.takeWhile_sublist _).mem hc5
            have hcw : c ∈ w2 := (List.dropWhile_sublist _).mem hc4
            obtain ⟨f1, f2, f3⟩ := F1 c (S2 c
              (List.mem_cons.mpr (Or.inr (List.mem_cons.mpr (Or.inr hcw)))))
            exact ⟨hh, hq, f1, f2, f3⟩
          · intro hscheme hnet
            have hN : List.takeWhile (fun c => (¬ isNetlocDelim c : Bool)) w2
                = [] := by
              rw [hn2, hnet]
            have hhead : ∀ c r, sp.path = c :: r → c = '/' := by
              intro c r hcr
              rw [← hp2] at hcr
              have hcq : c ≠ '?' := by
                simpa using List.mem_takeWhile_imp
                  (p := fun c => (c ≠ '?' : Bool)) (hcr ▸ List.mem_cons_self c r)
              obtain ⟨t5, h5⟩ := takeWhile_head _ _ c _ hcr
              have hch : c ≠ '#' := by
                simpa using List.mem_takeWhile_imp
                  (p := fun c => (c ≠ '#' : Bool)) (h5 ▸ List.mem_cons_self c t5)
              obtain ⟨t4, h4⟩ := takeWhile_head _ _ c _ h5
              cases hw2 : w2 with
              | nil =>
                rw [hw2] at h4
                exact absurd h4 (by simp)
              | cons d ds =>
                rw [hw2] at hN h4
                have hd : isNetlocDelim d = true := by
                  have h6 := takeWhile_nil_head _ d ds hN
                  simpa using h6
                have hdd : d = c := by
                  rw [List.dropWhile_cons, if_neg (by simp [hd])] at h4
                  injection h4 with h7 _
                subst hdd
                unfold isNetlocDelim at hd
                simp only [Bool.or_eq_true, decide_eq_true_eq] at hd
                rcases hd with (hd | hd) | hd
                · exact hd
                · exact absurd hd hcq
                · exact absurd hd hch
            constructor
            · intro pcx z hpfx hz
              cases pcx with
              | nil =>
                rw [List.nil_append]
                exact splitScheme_no_colon z hz
              | cons a as =>
                obtain ⟨e, he⟩ := hpfx
                have hsp3 : sp.path = a :: (as ++ e) := by
                  rw [← he]
                  rfl
                have ha := hhead a _ hsp3
                subst ha
                apply splitScheme_head_not_alpha
                rfl
            · intro c r hcr
              rw [hhead c r hcr]
              decide
        · exact absurd h (by simp)
      · next hnlb =>
        injection h with h2
        have hsc2 : sc = sp.scheme := congrArg SplitParts.scheme h2
        have hn2 : List.takeWhile (fun c => (¬ isNetlocDelim c : Bool)) w2
            = sp.netloc := congrArg SplitParts.netloc h2
        have hp2 : List.takeWhile (fun c => (c ≠ '?' : Bool))
            (List.takeWhile (fun c => (c ≠ '#' : Bool))
              (List.dropWhile (fun c => (¬ isNetlocDelim c : Bool)) w2))
            = sp.path := congrArg SplitParts.path h2
        refine ⟨?_, ?_, ?_, ?_, ?_, ?_, ?_⟩
        · rcases S1 with ⟨hA, _⟩ | hB
          · left
            rw [← hsc2]
            exact hA
          · right
            rw [← hsc2]
            exact hB
        · intro c hc
          rw [← hn2] at hc
          have h3 := List.mem_takeWhile_imp
            (p := fun c => (¬ isNetlocDelim c : Bool)) hc
          simpa using h3
        · intro c hc
          rw [← hn2] at hc
          apply F1
          apply S2
          have hcw : c ∈ w2 := (List.takeWhile_sublist _).mem hc
          exact List.mem_cons.mpr (Or.inr (List.mem_cons.mpr (Or.inr hcw)))
        · rw [← hn2]
          exact not_ne_iff.mp hbr
        · rw [← hn2]
          intro hL hR
          exact absurd ⟨hL, hR⟩ hnlb
        · intro c hc
          rw [← hp2] at hc
          have hq : c ≠ '?' := by
            simpa using List.mem_takeWhile_imp
              (p := fun c => (c ≠ '?' : Bool)) hc
          have hc5 := (List.takeWhile_sublist _).mem hc
          have hh : c ≠ '#' := by
            simpa using List.mem_takeWhile_imp
              (p := fun c => (c ≠ '#' : Bool)) hc5
          have hc4 := (List.takeWhile_sublist _).mem hc5
          have hcw : c ∈ w2 := (List.dropWhile_sublist _).mem hc4
          obtain ⟨f1, f2, f3⟩ := F1 c (S2 c
            (List.mem_cons.mpr (Or.inr (List.mem_cons.mpr (Or.inr hcw)))))
          exact ⟨hh, hq, f1, f2, f3⟩
        · intro hscheme hnet
          have hN : List.takeWhile (fun c => (¬ isNetlocDelim c : Bool)) w2
              = [] := by
            rw [hn2, hnet]
          have hhead : ∀ c r, sp.path = c :: r → c = '/' := by
            intro c r hcr
            rw [← hp2] at hcr
            have hcq : c ≠ '?' := by
              simpa using List.mem_takeWhile_imp
                (p := fun c => (c ≠ '?' : Bool)) (hcr ▸ List.mem_cons_self c r)
            obtain ⟨t5, h5⟩ := takeWhile_head _ _ c _ hcr
            have hch : c ≠ '#' := by
              simpa using List.mem_takeWhile_imp
                (p := fun c => (c ≠ '#' : Bool)) (h5 ▸ List.mem_cons_self c t5)
            obtain ⟨t4, h4⟩ := takeWhile_head _ _ c _ h5
            cases hw2 : w2 with
            | nil =>
              rw [hw2] at h4
              exact absurd h4 (by simp)
            | cons d ds =>
              rw [hw2] at hN h4
              have hd : isNetlocDelim d = true := by
                have h6 := takeWhile_nil_head _ d ds hN
                simpa using h6
              have hdd : d = c := by
                rw [List.dropWhile_cons, if_neg (by simp [hd])] at h4
                injection h4 with h7 _
              subst hdd
              unfold isNetlocDelim at hd
              simp only [Bool.or_eq_true, decide_eq_true_eq] at hd
              rcases hd with (hd | hd) | hd
              · exact hd
              · exact absurd hd hcq
              · exact absurd hd hch
          constructor
          · intro pcx z hpfx hz
            cases pcx with
            | nil =>
              rw [List.nil_append]
              exact splitScheme_no_colon z hz
            | cons a as =>
              obtain ⟨e, he⟩ := hpfx
              have hsp3 : sp.path = a :: (as ++ e) := by
                rw [← he]
                rfl
              have ha := hhead a _ hsp3
              subst ha
              apply splitScheme_head_not_alpha
              rfl
          · intro c r hcr
            rw [hhead c r hcr]
            decide
  next x2 hne =>
    injection h with h2
    have hsc2 : sc = sp.scheme := congrArg SplitParts.scheme h2
    have hn2 : ([] : Str) = sp.netloc := congrArg SplitParts.netloc h2
    have hp2 : List.takeWhile (fun c => (c ≠ '?' : Bool))
        (List.takeWhile (fun c => (c ≠ '#' : Bool)) u3)
        = sp.path := congrArg SplitParts.path h2
    refine ⟨?_, ?_, ?_, ?_, ?_, ?_, ?_⟩
    · rcases S1 with ⟨hA, _⟩ | hB
      · left
        rw [← hsc2]
        exact hA
      · right
        rw [← hsc2]
        exact hB
    · intro c hc
      rw [← hn2] at hc
      exact absurd hc (by simp)
    · intro c hc
      rw [← hn2] at hc
      exact absurd hc (by simp)
    · rw [← hn2]
      rfl
    · rw [← hn2]
      intro hL _
      exact absurd hL (by simp)
    · intro c hc
      rw [← hp2] at hc
      have hq : c ≠ '?' := by
        simpa using List.mem_takeWhile_imp
          (p := fun c => (c ≠ '?' : Bool)) hc
      have hc5 := (List.takeWhile_sublist _).mem hc
      have hh : c ≠ '#' := by
        simpa using List.mem_takeWhile_imp
          (p := fun c => (c ≠ '#' : Bool)) hc5
      have hc3 := (List.takeWhile_sublist _).mem hc5
      obtain ⟨f1, f2, f3⟩ := F1 c (S2 c hc3)
      exact ⟨hh, hq, f1, f2, f3⟩
    · intro hscheme hnet
      rcases S1 with ⟨hA, hU⟩ | hB
      · have hp5 : sp.path ++ (u3.takeWhile
            (fun c => (c ≠ '#' : Bool))).dropWhile
            (fun c => (c ≠ '?' : Bool)) =
            u3.takeWhile (fun c => (c ≠ '#' : Bool)) := by
          rw [← hp2]
          exact List.takeWhile_append_dropWhile _ _
        have h53 : u3.takeWhile (fun c => (c ≠ '#' : Bool)) ++
            u3.dropWhile (fun c => (c ≠ '#' : Bool)) = u3 :=
          List.takeWhile_append_dropWhile _ _
        have hss3 : splitScheme u3 = ([], u3) := by
          rw [hU, hsplit, hA, hU]
        constructor
        · intro pcx z hpfx hz
          obtain ⟨e, he⟩ := hpfx
          have hbig : pcx ++ (e ++ ((u3.takeWhile
              (fun c => (c ≠ '#' : Bool))).dropWhile
              (fun c => (c ≠ '?' : Bool)) ++
              u3.dropWhile (fun c => (c ≠ '#' : Bool)))) = u3 := by
            rw [← List.append_assoc pcx e, he, ← List.append_assoc, hp5, h53]
          exact splitScheme_transfer pcx _ z (by rw [hbig]; exact hss3) hz
        · intro c r hcr
          rw [← hp2] at hcr
          obtain ⟨t5, h5⟩ := takeWhile_head _ _ c _ hcr
          obtain ⟨t3, h3⟩ := takeWhile_head _ _ c _ h5
          exact F2 c t3 (by rw [← hU]; exact h3)
      · exfalso
        apply hB.1
        rw [hsc2, hscheme]

/-- Helper: a successful `urlparse` is a successful `urlsplit` plus the
params split on the path. -/
theorem urlparseE_ok_facts (u : Str) (pr : ParseParts)
    (h : urlparseE u = .ok pr) :
    ∃ sp : SplitParts, urlsplitE u = .ok sp ∧
      pr.scheme = sp.scheme ∧ pr.netloc = sp.netloc ∧
      pr.query = sp.query ∧ pr.fragment = sp.fragment ∧
      (if sp.scheme ∈ uses_params ∧ sp.path.contains ';' = true
       then (pr.path, pr.params) = splitparams sp.path
       else (pr.path = sp.path ∧ pr.params = [])) := by
  unfold urlparseE at h
  cases hsp : urlsplitE u with
  | error e =>
    rw [hsp] at h
    exact absurd h (by simp [Bind.bind, Except.bind])
  | ok sp =>
    rw [hsp] at h
    dsimp only [Except.instMonad, Except.bind, Except.pure, Bind.bind,
      Pure.pure] at h
    split at h
    · next hcond =>
      injection h with h2
      refine ⟨sp, rfl, (congrArg ParseParts.scheme h2).symm,
        (congrArg ParseParts.netloc h2).symm,
        (congrArg ParseParts.query h2).symm,
        (congrArg ParseParts.fragment h2).symm, ?_⟩
      rw [if_pos hcond]
      have hpath : (splitparams sp.path).1 = pr.path :=
        congrArg ParseParts.path h2
      have hparams : (splitparams sp.path).2 = pr.params :=
        congrArg ParseParts.params h2
      rw [← hpath, ← hparams]
    · next hcond =>
      injection h with h2
      refine ⟨sp, rfl, (congrArg ParseParts.scheme h2).symm,
        (congrArg ParseParts.netloc h2).symm,
        (congrArg ParseParts.query h2).symm,
        (congrArg ParseParts.fragment h2).symm, ?_⟩
      rw [if_neg hcond]
      exact ⟨(congrArg ParseParts.path h2).symm,
        (congrArg ParseParts.params h2).symm⟩

/-- Helper: `urlunparse` as `urlunsplit` of the recombined path. -/
theorem urlunparseU_eq (a b c d e f : Str) :
    urlunparseU ⟨a, b, c, d, e, f⟩ =
      urlunsplitU a b (if d ≠ [] then c ++ ';' :: d else c) e f := rfl

/-- Helper: `normalize_url` on a successfully parsed URL rebuilds from the
parse result with the canonical query and no fragment. -/
theorem normalize_of_parse (u : Str) (pr : ParseParts)
    (h : urlparseE u = .ok pr) :
    normalize_url u = urlunparseU
      ⟨pr.scheme, pr.netloc, pr.path, pr.params, canonQuery pr.query, []⟩ := by
  unfold normalize_url
  rw [h]

/-- Helper: `urlparse` from a successful `urlsplit`. -/
theorem urlparseE_of_split (u : Str) (sp : SplitParts)
    (h : urlsplitE u = .ok sp) :
    urlparseE u = .ok
      (if sp.scheme ∈ uses_params ∧ sp.path.contains ';' = true
       then ⟨sp.scheme, sp.netloc, (splitparams sp.path).1,
         (splitparams sp.path).2, sp.query, sp.fragment⟩
       else ⟨sp.scheme, sp.netloc, sp.path, [], sp.query, sp.fragment⟩) := by
  unfold urlparseE
  rw [h]
  dsimp only [Except.instMonad, Except.bind, Except.pure, Bind.bind,
    Pure.pure]
  by_cases hcc : sp.scheme ∈ uses_params ∧ sp.path.contains ';' = true
  · rw [if_pos hcc, if_pos hcc]
  · rw [if_neg hcc, if_neg hcc]

/-- Helper: the authority form of `urlunsplit` as one flat list. -/
theorem urlunsplitU_auth_form (s n pc q2 : Str)
    (hC : n ≠ [] ∨ (s ≠ [] ∧ s ∈ uses_netloc ∧ pc.take 2 ≠ ['/', '/'])) :
    urlunsplitU s n pc q2 [] =
      (if s ≠ [] then
        s ++ ':' :: ('/' :: '/' :: (n ++
          ((if pc ≠ [] ∧ pc.headI ≠ '/' then '/' :: pc else pc) ++
            (if q2 ≠ [] then '?' :: q2 else []))))
       else '/' :: '/' :: (n ++
          ((if pc ≠ [] ∧ pc.headI ≠ '/' then '/' :: pc else pc) ++
            (if q2 ≠ [] then '?' :: q2 else [])))) := by
  unfold urlunsplitU
  dsimp only
  rw [if_pos hC]
  rw [if_neg (show ¬(([] : Str) ≠ []) by simp)]
  by_cases hq2 : q2 = []
  · subst hq2
    by_cases hs0 : s = []
    · subst hs0
      rw [if_neg (show ¬(([] : Str) ≠ []) by simp),
        if_neg (show ¬(([] : Str) ≠ []) by simp),
        if_neg (show ¬(([] : Str) ≠ []) by simp),
        if_neg (show ¬(([] : Str) ≠ []) by simp),
        List.append_nil]
    · rw [if_neg (show ¬(([] : Str) ≠ []) by simp),
        if_pos (show s ≠ [] from hs0), if_pos (show s ≠ [] from hs0),
        if_neg (show ¬(([] : Str) ≠ []) by simp),
        List.append_nil]
  · by_cases hs0 : s = []
    · subst hs0
      rw [if_pos (show q2 ≠ [] from hq2),
        if_neg (show ¬(([] : Str) ≠ []) by simp),
        if_neg (show ¬(([] : Str) ≠ []) by simp),
        if_pos (show q2 ≠ [] from hq2)]
      rw [List.cons_append, List.cons_append, List.append_assoc]
    · rw [if_pos (show q2 ≠ [] from hq2),
        if_pos (show s ≠ [] from hs0), if_pos (show s ≠ [] from hs0),
        if_pos (show q2 ≠ [] from hq2)]
      rw [List.append_assoc, List.cons_append, List.cons_append,
        List.cons_append, List.append_assoc]

/-- Helper: the authority-free form of `urlunsplit` as one flat list. -/
theorem urlunsplitU_noauth_form (s pc q2 : Str)
    (hC : ¬(([] : Str) ≠ [] ∨
      (s ≠ [] ∧ s ∈ uses_netloc ∧ pc.take 2 ≠ ['/', '/']))) :
    urlunsplitU s [] pc q2 [] =
      (if s ≠ [] then s ++ ':' :: (pc ++ (if q2 ≠ [] then '?' :: q2 else []))
       else pc ++ (if q2 ≠ [] then '?' :: q2 else [])) := by
  unfold urlunsplitU
  dsimp only
  rw [if_neg hC]
  rw [if_neg (show ¬(([] : Str) ≠ []) by simp)]
  by_cases hq2 : q2 = []
  · subst hq2
    by_cases hs0 : s = []
    · subst hs0
      rw [if_neg (show ¬(([] : Str) ≠ []) by simp),
        if_neg (show ¬(([] : Str) ≠ []) by simp),
        if_neg (show ¬(([] : Str) ≠ []) by simp),
        if_neg (show ¬(([] : Str) ≠ []) by simp),
        List.append_nil]
    · rw [if_neg (show ¬(([] : Str) ≠ []) by simp),
        if_pos (show s ≠ [] from hs0), if_pos (show s ≠ [] from hs0),
        if_neg (show ¬(([] : Str) ≠ []) by simp),
        List.append_nil]
  · by_cases hs0 : s = []
    · subst hs0
      rw [if_pos (show q2 ≠ [] from hq2),
        if_neg (show ¬(([] : Str) ≠ []) by simp),
        if_neg (show ¬(([] : Str) ≠ []) by simp),
        if_pos (show q2 ≠ [] from hq2)]
    · rw [if_pos (show q2 ≠ [] from hq2),
        if_pos (show s ≠ [] from hs0), if_pos (show s ≠ [] from hs0),
        if_pos (show q2 ≠ [] from hq2)]
      rw [List.append_assoc, List.cons_append]

set_option maxHeartbeats 1600000 in
/-- Helper: `normalize_url` fixes every URL built by `urlunsplit` from
clean parts whose netloc is nonempty or whose path does not begin with
`//`. -/
theorem normalize_unsplit_fix (s n pc q2 : Str)
    (hs : s = [] ∨ (s ≠ [] ∧ isAsciiAlpha s.headI = true ∧
      (∀ c ∈ s, isSchemeChar c = true) ∧ s.map lowerCh = s))
    (hnd : ∀ c ∈ n, isNetlocDelim c = false)
    (hnt : ∀ c ∈ n, c ≠ '\t' ∧ c ≠ '\r' ∧ c ≠ '\n')
    (hnb1 : n.contains '[' = n.contains ']')
    (hnb2 : n.contains '[' = true → n.contains ']' = true →
      bracketedHostOk (((n.dropWhile (fun c => c ≠ '[')).drop 1).takeWhile
        (fun c => c ≠ ']')) = true)
    (hpc : ∀ c ∈ pc, c ≠ '#' ∧ c ≠ '?' ∧ c ≠ '\t' ∧ c ≠ '\r' ∧ c ≠ '\n')
    (hq : ∀ c ∈ q2, alwaysSafe c = true ∨ c = '+' ∨ c = '%' ∨ c = '=' ∨
      c = '&')
    (hqfix : canonQuery q2 = q2)
    (hH2 : n ≠ [] ∨ pc.take 2 ≠ ['/', '/'])
    (hsp : ∀ x, (x = pc ∨ x = '/' :: pc) →
      s ∈ uses_params → x.contains ';' = true →
      (if (splitparams x).2 ≠ [] then
        (splitparams x).1 ++ ';' :: (splitparams x).2
       else (splitparams x).1) = x)
    (hss : s = [] → n = [] → ∀ z, (∀ c ∈ z, c ≠ ':') →
      splitScheme (pc ++ z) = ([], pc ++ z))
    (hhead0 : s = [] → n = [] → ∀ c r, pc = c :: r → 0x20 < c.toNat) :
    normalize_url (urlunsplitU s n pc q2 []) = urlunsplitU s n pc q2 [] := by
  by_cases hC : n ≠ [] ∨ (s ≠ [] ∧ s ∈ uses_netloc ∧ pc.take 2 ≠ ['/', '/'])
  · have hp2chars : ∀ c ∈ (if pc ≠ [] ∧ pc.headI ≠ '/' then '/' :: pc
        else pc),
        c ≠ '#' ∧ c ≠ '?' ∧ c ≠ '\t' ∧ c ≠ '\r' ∧ c ≠ '\n' := by
      intro c hc
      split at hc
      · rcases List.mem_cons.mp hc with h | h
        · subst h
          refine ⟨by decide, by decide, by decide, by decide, by decide⟩
        · exact hpc c h
      · exact hpc c hc
    have hp2shape : (if pc ≠ [] ∧ pc.headI ≠ '/' then '/' :: pc else pc)
        = [] ∨
        ∃ t, (if pc ≠ [] ∧ pc.headI ≠ '/' then '/' :: pc else pc)
          = '/' :: t := by
      by_cases hfix : pc ≠ [] ∧ pc.headI ≠ '/'
      · rw [if_pos hfix]
        exact Or.inr ⟨pc, rfl⟩
      · rw [if_neg hfix]
        cases hpc0 : pc with
        | nil => exact Or.inl rfl
        | cons a as =>
          right
          refine ⟨as, ?_⟩
          have ha : a = '/' := by
            by_contra hcontra
            apply hfix
            rw [hpc0]
            exact ⟨by simp, by simpa using hcontra⟩
          rw [ha]
    have hXsplit := urlsplitE_auth_noscheme n _ q2 hnd hnt hnb1 hnb2
      hp2chars hp2shape hq
    have hform := urlunsplitU_auth_form s n pc q2 hC
    have hsplitN : urlsplitE (urlunsplitU s n pc q2 []) =
        .ok ⟨s, n, (if pc ≠ [] ∧ pc.headI ≠ '/' then '/' :: pc else pc),
          q2, []⟩ := by
      rcases hs with hs0 | ⟨hsne, hsa, hsc, hsl⟩
      · subst hs0
        rw [hform, if_neg (show ¬(([] : Str) ≠ []) by simp)]
        exact hXsplit
      · rw [hform, if_pos hsne]
        refine urlsplitE_scheme_shift _ _ _ _ _ _ hsne hsa hsc hsl ?_ ?_ ?_
          hXsplit
        · apply dropWhile_ctrl_eq_self
          intro c r hl
          injection hl with h1 _
          subst h1
          decide
        · apply List.filter_eq_self.mpr
          intro c hc
          simp only [Bool.and_eq_true, decide_eq_true_eq]
          rcases List.mem_cons.mp hc with h | h
          · subst h
            refine ⟨⟨by decide, by decide⟩, by decide⟩
          rcases List.mem_cons.mp h with h | h
          · subst h
            refine ⟨⟨by decide, by decide⟩, by decide⟩
          rcases List.mem_append.mp h with h | h
          · obtain ⟨h3, h4, h5⟩ := hnt c h
            exact ⟨⟨h3, h4⟩, h5⟩
          rcases List.mem_append.mp h with h | h
          · obtain ⟨_, _, h3, h4, h5⟩ := hp2chars c h
            exact ⟨⟨h3, h4⟩, h5⟩
          · split at h
            · rcases List.mem_cons.mp h with h2 | h2
              · subst h2
                refine ⟨⟨by decide, by decide⟩, by decide⟩
              · obtain ⟨hgt, _, _, _, _⟩ := queryChar_facts c (hq c h2)
                refine ⟨⟨?_, ?_⟩, ?_⟩
                · exact char_ne_of_toNat_ne c '\t' (by
                    rw [show ('\t' : Char).toNat = 9 from rfl]; omega)
                · exact char_ne_of_toNat_ne c '\r' (by
                    rw [show ('\r' : Char).toNat = 13 from rfl]; omega)
                · exact char_ne_of_toNat_ne c '\n' (by
                    rw [show ('\n' : Char).toNat = 10 from rfl]; omega)
            · simp at h
        · exact splitScheme_head_not_alpha _ rfl
    have hparN : urlparseE (urlunsplitU s n pc q2 []) = .ok
        (if s ∈ uses_params ∧
            (if pc ≠ [] ∧ pc.headI ≠ '/' then '/' :: pc else pc).contains ';'
              = true
         then ⟨s, n,
           (splitparams (if pc ≠ [] ∧ pc.headI ≠ '/' then '/' :: pc
             else pc)).1,
           (splitparams (if pc ≠ [] ∧ pc.headI ≠ '/' then '/' :: pc
             else pc)).2, q2, []⟩
         else ⟨s, n, (if pc ≠ [] ∧ pc.headI ≠ '/' then '/' :: pc else pc),
           [], q2, []⟩) :=
      urlparseE_of_split _ _ hsplitN
    have hx2 : (if pc ≠ [] ∧ pc.headI ≠ '/' then '/' :: pc else pc) = pc ∨
        (if pc ≠ [] ∧ pc.headI ≠ '/' then '/' :: pc else pc) = '/' :: pc := by
      by_cases hfix : pc ≠ [] ∧ pc.headI ≠ '/'
      · exact Or.inr (if_pos hfix)
      · exact Or.inl (if_neg hfix)
    by_cases hcc : s ∈ uses_params ∧
        (if pc ≠ [] ∧ pc.headI ≠ '/' then '/' :: pc else pc).contains ';'
          = true
    · rw [if_pos hcc] at hparN
      have hn1 := normalize_of_parse _ _ hparN
      rw [hn1, urlunparseU_eq]
      dsimp only
      rw [hsp _ hx2 hcc.1 hcc.2, hqfix]
      exact urlunsplitU_slashfix s n pc q2 hC
    · rw [if_neg hcc] at hparN
      have hn1 := normalize_of_parse _ _ hparN
      rw [hn1, urlunparseU_eq]
      dsimp only
      rw [if_neg (show ¬(([] : Str) ≠ []) by simp), hqfix]
      exact urlunsplitU_slashfix s n pc q2 hC
  · have hn0 : n = [] := by
      by_contra hcontra
      exact hC (Or.inl hcontra)
    subst hn0
    have hH2p : pc.take 2 ≠ ['/', '/'] := by
      rcases hH2 with h | h
      · exact absurd rfl h
      · exact h
    have hform := urlunsplitU_noauth_form s pc q2 hC
    have hsplitN : urlsplitE (urlunsplitU s [] pc q2 []) =
        .ok ⟨s, [], pc, q2, []⟩ := by
      rcases hs with hs0 | ⟨hsne, hsa, hsc, hsl⟩
      · subst hs0
        rw [hform, if_neg (show ¬(([] : Str) ≠ []) by simp)]
        refine urlsplitE_noauth_noscheme pc q2 hpc hH2p (hhead0 rfl rfl)
          ?_ hq
        apply hss rfl rfl
        intro c hc
        split at hc
        · rcases List.mem_cons.mp hc with h | h
          · subst h
            decide
          · obtain ⟨_, _, _, h58, _⟩ := queryChar_facts c (hq c h)
            exact char_ne_of_toNat_ne c ':' (by
              rw [show (':' : Char).toNat = 58 from rfl]; omega)
        · simp at hc
      · rw [hform, if_pos hsne]
        exact urlsplitE_scheme_noauth s pc q2 hsne hsa hsc hsl hpc hH2p hq
    have hparN : urlparseE (urlunsplitU s [] pc q2 []) = .ok
        (if s ∈ uses_params ∧ pc.contains ';' = true
         then ⟨s, [], (splitparams pc).1, (splitparams pc).2, q2, []⟩
         else ⟨s, [], pc, [], q2, []⟩) :=
      urlparseE_of_split _ _ hsplitN
    by_cases hcc : s ∈ uses_params ∧ pc.contains ';' = true
    · rw [if_pos hcc] at hparN
      have hn1 := normalize_of_parse _ _ hparN
      rw [hn1, urlunparseU_eq]
      dsimp only
      rw [hsp pc (Or.inl rfl) hcc.1 hcc.2, hqfix]
    · rw [if_neg hcc] at hparN
      have hn1 := normalize_of_parse _ _ hparN
      rw [hn1, urlunparseU_eq]
      dsimp only
      rw [if_neg (show ¬(([] : Str) ≠ []) by simp), hqfix]

/-- C6 (amended): URL normalization is idempotent on every URL whose parse
fails (it is returned unchanged), and on every URL for which the parsed
netloc is nonempty or the params-recombined path does not begin with `//`;
the excluded case is the `http://////x` family of the counterexample, where
`urlunsplit` collapses an empty netloc with a `//`-headed path. -/
theorem normalize_idem_amended (u : Str)
    (H : ∀ pr : ParseParts, urlparseE u = .ok pr →
      pr.netloc ≠ [] ∨
      (if pr.params ≠ [] then pr.path ++ ';' :: pr.params
       else pr.path).take 2 ≠ ['/', '/']) :
    normalize_url (normalize_url u) = normalize_url u := by
  cases hpar : urlparseE u with
  | error e =>
    have hN : normalize_url u = u := by
      unfold normalize_url
      rw [hpar]
    rw [hN]
    exact hN
  | ok pr =>
    obtain ⟨sp, hsp0, hps, hpn, hpq, hpf, hif⟩ := urlparseE_ok_facts u pr hpar
    obtain ⟨A, B, C, D, E, F, G⟩ := urlsplitE_ok_facts u sp hsp0
    rw [← hps] at hif
    obtain ⟨hpre0, hstab⟩ :=
      params_recomb_stable pr.scheme sp.path pr.path pr.params hif
    have hN : normalize_url u = urlunsplitU pr.scheme pr.netloc
        (if pr.params ≠ [] then pr.path ++ ';' :: pr.params else pr.path)
        (canonQuery pr.query) [] := by
      rw [normalize_of_parse u pr hpar]
      exact urlunparseU_eq _ _ _ _ _ _
    rw [hN]
    apply normalize_unsplit_fix pr.scheme pr.netloc
      (if pr.params ≠ [] then pr.path ++ ';' :: pr.params else pr.path)
      (canonQuery pr.query)
    · rw [hps]
      exact A
    · rw [hpn]
      exact B
    · rw [hpn]
      exact C
    · rw [hpn]
      exact D
    · rw [hpn]
      exact E
    · intro c hc
      obtain ⟨e, he⟩ := hpre0
      exact F c (by rw [← he]; exact List.mem_append.mpr (Or.inl hc))
    · intro c hc
      exact urlencode_alphabet (sortedQueryItems (parse_qs pr.query)) c hc
    · exact canonQuery_idem pr.query
    · exact H pr hpar
    · exact hstab
    · intro hs0 hn0 z hz
      have hG := G (by rw [← hps]; exact hs0) (by rw [← hpn]; exact hn0)
      obtain ⟨e, he⟩ := hpre0
      exact hG.1 _ z ⟨e, he⟩ hz
    · intro hs0 hn0 c r hcr
      have hG := G (by rw [← hps]; exact hs0) (by rw [← hpn]; exact hn0)
      obtain ⟨e, he⟩ := hpre0
      refine hG.2 c (r ++ e) ?_
      rw [← he, hcr]
      rfl

/-- Witness: the amended idempotence theorem applied to a concrete URL with
scheme, netloc, params, query and fragment. -/
theorem normalize_idem_amended_witness :
    normalize_url (normalize_url "http://ex.com/a;b?b=2&a=1#f".data) =
      normalize_url "http://ex.com/a;b?b=2&a=1#f".data := by
  apply normalize_idem_amended
  intro pr hpr
  have h0 : urlparseE "http://ex.com/a;b?b=2&a=1#f".data = Except.ok
      ⟨"http".data, "ex.com".data, "/a".data, "b".data, "b=2&a=1".data,
        "f".data⟩ := rfl
  rw [h0] at hpr
  injection hpr with h1
  subst h1
  left
  decide

end WebScraper
